import Mathlib

/-!
# Verification of the directorydiffmerge core against its specification

This file contains a shallow embedding, in Lean 4, of the core data model and
algorithms of the `ddm` (directorydiffmerge) tool: the `FilesystemElement`
value type with its two equality notions (`operator==` and `compare` with
options), the in-memory directory tree, the manifest serializer and parser,
the two- and three-way diff engines, and the scrub/backup engines, translated
from `src/core.cpp` and `src/backup.cpp`.

Modelling conventions:
* `std::filesystem::path` values that are relative paths are modelled as lists
  of path components (`List String`); `parent_path` is `List.dropLast` and
  `filename` is the last component.  Symlink targets are kept as plain strings.
* `time_t` and `off_t` are modelled as `Int`, `perms` as `Nat`.
* The flat `unordered_map` index of `DirectoryTree` maps every relative path
  (string) to the node storing it.  The class invariant (checked by asserts in
  the source) is that a node is indexed exactly at its own `relativePath`, and
  that a node's `relativePath` is its parent's path plus one component.  Under
  this invariant a lookup of path `p` in the flat index is the same as a
  structural descent along the components of `p`; the embedding uses the
  structural form so that the recursion of the diff helpers is between sibling
  lists, exactly as the pruning recursion of the source proceeds.
* `gmtime_r`/`timegm` (libc, not repository code) are modelled by the standard
  civil-from-days / days-from-civil calendar conversions they implement.
* Exceptions are modelled with `Option`/`Except`; the interactive yes/no
  prompter is an oracle `Nat → Bool` consumed in order.
-/

namespace Ddm

/-- `std::filesystem::file_type` restricted to the four values the tool
stores; everything else is collapsed to `unknown` by the scanner. -/
inductive FileType where
  | regular
  | directory
  | symlink
  | unknown
deriving DecidableEq, Repr

/-- The `FilesystemElement` value type of `core.h`.  Only the serialized
fields are modelled; `hardLinkCnt` is not serialized, takes part in no
comparison (`operator==` and `compare` ignore it) and only feeds a scan
warning, so it is omitted. -/
structure FilesystemElement where
  ty : FileType
  per : Nat
  us : String
  gs : String
  mt : Int
  sz : Int
  fileHash : String
  rp : List String
  symlink : String
deriving DecidableEq, Repr

def FilesystemElement.isDirectory (e : FilesystemElement) : Bool :=
  e.ty == FileType.directory

/-- Compare options of `core.h` (all checks default to on). -/
structure CompareOpt where
  perm : Bool := true
  owner : Bool := true
  mtime : Bool := true
  size : Bool := true
  hash : Bool := true
  symlink : Bool := true
deriving DecidableEq, Repr

/-- `operator==` on `FilesystemElement` (core.cpp:248).  All serialized
fields must match; the hash matches when either side's hash is empty. -/
def feEq (a b : FilesystemElement) : Bool :=
  a.ty == b.ty && a.per == b.per && a.us == b.us && a.gs == b.gs
    && a.mt == b.mt && a.sz == b.sz && a.rp == b.rp && a.symlink == b.symlink
    && (a.fileHash == "" || b.fileHash == "" || a.fileHash == b.fileHash)

/-- `compare` on `FilesystemElement` with options (core.cpp:258). -/
def compare (a b : FilesystemElement) (opt : CompareOpt) : Bool :=
  if a.ty != b.ty || a.rp != b.rp then false
  else if opt.perm && a.per != b.per then false
  else if opt.owner && (a.us != b.us || a.gs != b.gs) then false
  else if opt.mtime && a.mt != b.mt then false
  else if opt.size && a.sz != b.sz then false
  else if opt.hash && a.fileHash != b.fileHash
            && !(a.fileHash == "") && !(b.fileHash == "") then false
  else if opt.symlink && a.symlink != b.symlink then false
  else true

/-- Component-wise path comparison (`std::filesystem::path::operator<` on
relative paths compares the component sequences lexicographically, each
component by its native string). -/
def pathLt : List String → List String → Bool
  | [], [] => false
  | [], _ :: _ => true
  | _ :: _, [] => false
  | a :: as, b :: bs => if a < b then true else if b < a then false else pathLt as bs

/-- `operator<` on `FilesystemElement` (core.cpp:241): directories first,
then by relative path. -/
def feLt (a b : FilesystemElement) : Bool :=
  if a.isDirectory == b.isDirectory then pathLt a.rp b.rp
  else a.isDirectory && !b.isDirectory

/-! ## Claim C8: the two equality modes -/

theorem if_false_bool (c x : Bool) : (if c then false else x) = (!c && x) := by
  cases c <;> simp

theorem bool_opt_iff (o : Bool) (p : Prop) : (o = false ∨ p) ↔ (o = true → p) := by
  cases o <;> simp

/-- The guard chain of `compare`, abstracted over its Boolean atoms, equals a
single conjunction.  A finite Boolean tautology. -/
theorem compare_chain_taut (t r p u g m s h1 e1 e2 l fp fo fm fs fh fl : Bool) :
    (if !t || !r then false
     else if fp && !p then false
     else if fo && (!u || !g) then false
     else if fm && !m then false
     else if fs && !s then false
     else if fh && !h1 && !e1 && !e2 then false
     else if fl && !l then false
     else true) =
      (t && r && (!fp || p) && (!fo || (u && g)) && (!fm || m) && (!fs || s) &&
       (!fh || h1 || e1 || e2) && (!fl || l)) := by
  simp only [if_false_bool, Bool.not_or, Bool.not_and, Bool.not_not,
    Bool.and_true, Bool.and_assoc, Bool.or_assoc]

/-- `compare` rewritten as one Boolean conjunction (guard-chain elimination). -/
theorem compare_eq_conj (a b : FilesystemElement) (opt : CompareOpt) :
    compare a b opt =
      ((a.ty == b.ty) && (a.rp == b.rp) &&
       (!opt.perm || a.per == b.per) &&
       (!opt.owner || (a.us == b.us && a.gs == b.gs)) &&
       (!opt.mtime || a.mt == b.mt) &&
       (!opt.size || a.sz == b.sz) &&
       (!opt.hash || a.fileHash == b.fileHash ||
          a.fileHash == "" || b.fileHash == "") &&
       (!opt.symlink || a.symlink == b.symlink)) :=
  compare_chain_taut (a.ty == b.ty) (a.rp == b.rp) (a.per == b.per)
    (a.us == b.us) (a.gs == b.gs) (a.mt == b.mt) (a.sz == b.sz)
    (a.fileHash == b.fileHash) (a.fileHash == "") (b.fileHash == "")
    (a.symlink == b.symlink) opt.perm opt.owner opt.mtime opt.size opt.hash
    opt.symlink

/-- C8: structural equality (`operator==`) holds iff all serialized fields
match, with the hash field counting as matching whenever either side's hash
is empty; and `compare` always checks type and relativePath, checks exactly
the fields whose option is set, and never reports a hash mismatch when
either side's hash is empty. -/
theorem C8_equality_and_compare_semantics :
    (∀ a b : FilesystemElement, feEq a b = true ↔
      (a.ty = b.ty ∧ a.per = b.per ∧ a.us = b.us ∧ a.gs = b.gs ∧ a.mt = b.mt ∧
       a.sz = b.sz ∧ a.rp = b.rp ∧ a.symlink = b.symlink ∧
       (a.fileHash = "" ∨ b.fileHash = "" ∨ a.fileHash = b.fileHash))) ∧
    (∀ (a b : FilesystemElement) (opt : CompareOpt), compare a b opt = true ↔
      (a.ty = b.ty ∧ a.rp = b.rp ∧
       (opt.perm = true → a.per = b.per) ∧
       (opt.owner = true → a.us = b.us ∧ a.gs = b.gs) ∧
       (opt.mtime = true → a.mt = b.mt) ∧
       (opt.size = true → a.sz = b.sz) ∧
       (opt.hash = true → a.fileHash = "" ∨ b.fileHash = "" ∨
          a.fileHash = b.fileHash) ∧
       (opt.symlink = true → a.symlink = b.symlink))) := by
  constructor
  · intro a b
    simp only [feEq, Bool.and_eq_true, Bool.or_eq_true, beq_iff_eq]
    tauto
  · intro a b opt
    rw [compare_eq_conj]
    simp only [Bool.and_eq_true, Bool.or_eq_true, Bool.not_eq_true', beq_iff_eq,
      bool_opt_iff, and_assoc]
    tauto

/-! ## Calendar model for `gmtime_r` / `timegm`

`FilesystemElement::writeTo` prints `mtime` with `gmtime_r` + `put_time`, and
`readFrom` parses it with `get_time` + `timegm`.  These are libc functions,
not repository code; they are modelled here by the standard proleptic
Gregorian (civil) calendar conversions they implement, written in a layered
form whose arithmetic can be verified, and pinned by concrete anchor values
below (`daysFromCivil 1970 1 1 = 0`, 9999-12-31, leap days, ...). -/

/-- March-based month split of a day-of-year: returns `(mp, mday)` with
`mp` the month since March (0..11). -/
def mdFromDoy (doy : Int) : Int × Int :=
  let mp := (5 * doy + 2) / 153
  (mp, doy - (153 * mp + 2) / 5 + 1)

theorem mdFromDoy_spec (doy : Int) (h0 : 0 ≤ doy) (h1 : doy ≤ 365) :
    (153 * (mdFromDoy doy).1 + 2) / 5 + (mdFromDoy doy).2 - 1 = doy ∧
    0 ≤ (mdFromDoy doy).1 ∧ (mdFromDoy doy).1 ≤ 11 ∧
    1 ≤ (mdFromDoy doy).2 ∧ (mdFromDoy doy).2 ≤ 31 := by
  unfold mdFromDoy
  simp only
  omega

/-- Year-of-era and day-of-year from a day-of-era, by layered division. -/
def yoeDoyFromDoe (doe : Int) : Int × Int :=
  let c := if 3 ≤ doe / 36524 then 3 else doe / 36524
  let doc := doe - c * 36524
  let q := doc / 1461
  let doq := doc - q * 1461
  let yr := if 3 ≤ doq / 365 then 3 else doq / 365
  (100 * c + 4 * q + yr, doq - yr * 365)

theorem layer_core (doe c doc q doq yr doy yoe : Int)
    (h0 : 0 ≤ doe) (h1 : doe ≤ 146096)
    (hc : c = if 3 ≤ doe / 36524 then 3 else doe / 36524)
    (hdoc : doc = doe - c * 36524)
    (hq : q = doc / 1461)
    (hdoq : doq = doc - q * 1461)
    (hyr : yr = if 3 ≤ doq / 365 then 3 else doq / 365)
    (hdoy : doy = doq - yr * 365)
    (hyoe : yoe = 100 * c + 4 * q + yr) :
    365 * yoe + yoe / 4 - yoe / 100 + doy = doe ∧
    0 ≤ yoe ∧ yoe ≤ 399 ∧ 0 ≤ doy ∧ doy ≤ 365 := by
  have hcb : 0 ≤ c ∧ c ≤ 3 := by split_ifs at hc <;> omega
  have hdocb : 0 ≤ doc ∧ doc ≤ 36524 := by split_ifs at hc <;> omega
  have hqb : 0 ≤ q ∧ q ≤ 24 := by omega
  have hdoqb : 0 ≤ doq ∧ doq ≤ 1460 := by omega
  have hyrb : 0 ≤ yr ∧ yr ≤ 3 := by split_ifs at hyr <;> omega
  have hdoyb : 0 ≤ doy ∧ doy ≤ 365 := by split_ifs at hyr <;> omega
  have h4 : yoe / 4 = 25 * c + q := by
    have he : yoe = yr + (25 * c + q) * 4 := by omega
    rw [he, Int.add_mul_ediv_right _ _ (by norm_num : (4:Int) ≠ 0),
      Int.ediv_eq_zero_of_lt hyrb.1 (by omega)]
    omega
  have h100 : yoe / 100 = c := by
    have he : yoe = (4 * q + yr) + c * 100 := by omega
    rw [he, Int.add_mul_ediv_right _ _ (by norm_num : (100:Int) ≠ 0),
      Int.ediv_eq_zero_of_lt (by omega) (by omega)]
    omega
  refine ⟨?_, by omega, by omega, hdoyb.1, hdoyb.2⟩
  rw [h4, h100]
  omega

theorem yoeDoyFromDoe_spec (doe : Int) (h0 : 0 ≤ doe) (h1 : doe ≤ 146096) :
    365 * (yoeDoyFromDoe doe).1 + (yoeDoyFromDoe doe).1 / 4
        - (yoeDoyFromDoe doe).1 / 100 + (yoeDoyFromDoe doe).2 = doe ∧
    0 ≤ (yoeDoyFromDoe doe).1 ∧ (yoeDoyFromDoe doe).1 ≤ 399 ∧
    0 ≤ (yoeDoyFromDoe doe).2 ∧ (yoeDoyFromDoe doe).2 ≤ 365 := by
  have h := layer_core doe _ _ _ _ _ _ _ h0 h1 rfl rfl rfl rfl rfl rfl rfl
  unfold yoeDoyFromDoe
  simp only
  exact h

/-- Modelled from libc: `timegm`'s day count, the classic days-from-civil
conversion (days since 1970-01-01 of year `y`, month `m` (1..12), day `d`;
`d` may exceed the month length, in which case it normalizes forward exactly
as `timegm` does). -/
def daysFromCivil (y m d : Int) : Int :=
  let yadj := if m ≤ 2 then y - 1 else y
  let mp := if m ≤ 2 then m + 9 else m - 3
  365 * yadj + yadj / 4 - yadj / 100 + yadj / 400 + (153 * mp + 2) / 5 + d - 1
    - 719468

/-- Modelled from libc: `gmtime_r`'s civil date of a day number. -/
def civilFromDays (z : Int) : Int × Int × Int :=
  let era := (z + 719468) / 146097
  let doe := z + 719468 - era * 146097
  let yd := yoeDoyFromDoe doe
  let md := mdFromDoy yd.2
  let m := if md.1 < 10 then md.1 + 3 else md.1 - 9
  (era * 400 + yd.1 + (if m ≤ 2 then 1 else 0), m, md.2)

theorem civil_roundtrip (z : Int) :
    daysFromCivil (civilFromDays z).1 (civilFromDays z).2.1 (civilFromDays z).2.2
      = z := by
  unfold civilFromDays daysFromCivil
  simp only
  have hdoe : 0 ≤ z + 719468 - (z + 719468) / 146097 * 146097 ∧
      z + 719468 - (z + 719468) / 146097 * 146097 ≤ 146096 := by omega
  obtain ⟨hyd1, hyd2, hyd3, hyd4, hyd5⟩ :=
    yoeDoyFromDoe_spec (z + 719468 - (z + 719468) / 146097 * 146097)
      hdoe.1 hdoe.2
  obtain ⟨hmd1, hmd2, hmd3, hmd4, hmd5⟩ :=
    mdFromDoy_spec _ hyd4 hyd5
  generalize hera : (z + 719468) / 146097 = era at *
  generalize hyoe : (yoeDoyFromDoe (z + 719468 - era * 146097)).1 = yoe at *
  generalize hdoy : (yoeDoyFromDoe (z + 719468 - era * 146097)).2 = doy at *
  generalize hmp : (mdFromDoy doy).1 = mp at *
  generalize hdd : (mdFromDoy doy).2 = dd at *
  have hi4 : (era * 400 + yoe) / 4 = yoe / 4 + era * 100 := by
    have he : era * 400 + yoe = yoe + era * 100 * 4 := by ring
    rw [he, Int.add_mul_ediv_right _ _ (by norm_num : (4:Int) ≠ 0)]
  have hi100 : (era * 400 + yoe) / 100 = yoe / 100 + era * 4 := by
    have he : era * 400 + yoe = yoe + era * 4 * 100 := by ring
    rw [he, Int.add_mul_ediv_right _ _ (by norm_num : (100:Int) ≠ 0)]
  have hi400 : (era * 400 + yoe) / 400 = era := by
    have he : era * 400 + yoe = yoe + era * 400 := by ring
    rw [he, Int.add_mul_ediv_right _ _ (by norm_num : (400:Int) ≠ 0),
      Int.ediv_eq_zero_of_lt hyd2 (by omega)]
    omega
  split_ifs <;>
    simp only [add_sub_cancel_right, sub_add_cancel, add_zero] <;>
    rw [hi4, hi100, hi400] <;> omega

theorem civil_bounds (z : Int) (h0 : 0 ≤ z) (h1 : z ≤ 2932896) :
    0 ≤ (civilFromDays z).1 ∧ (civilFromDays z).1 ≤ 9999 ∧
    1 ≤ (civilFromDays z).2.1 ∧ (civilFromDays z).2.1 ≤ 12 ∧
    1 ≤ (civilFromDays z).2.2 ∧ (civilFromDays z).2.2 ≤ 31 := by
  unfold civilFromDays
  simp only
  have hdoe : 0 ≤ z + 719468 - (z + 719468) / 146097 * 146097 ∧
      z + 719468 - (z + 719468) / 146097 * 146097 ≤ 146096 := by omega
  obtain ⟨hyd1, hyd2, hyd3, hyd4, hyd5⟩ :=
    yoeDoyFromDoe_spec (z + 719468 - (z + 719468) / 146097 * 146097)
      hdoe.1 hdoe.2
  obtain ⟨hmd1, hmd2, hmd3, hmd4, hmd5⟩ :=
    mdFromDoy_spec _ hyd4 hyd5
  have hera : 4 ≤ (z + 719468) / 146097 ∧ (z + 719468) / 146097 ≤ 24 := by
    omega
  generalize he : (z + 719468) / 146097 = era at *
  generalize hyoe : (yoeDoyFromDoe (z + 719468 - era * 146097)).1 = yoe at *
  generalize hdoy : (yoeDoyFromDoe (z + 719468 - era * 146097)).2 = doy at *
  generalize hmp : (mdFromDoy doy).1 = mp at *
  generalize hdd : (mdFromDoy doy).2 = dd at *
  have hc4 : 0 ≤ yoe / 4 ∧ yoe / 4 ≤ 99 := by omega
  have hc100 : 0 ≤ yoe / 100 ∧ yoe / 100 ≤ 3 := by omega
  have hgb : 5 * ((153 * mp + 2) / 5) ≤ 153 * mp + 2 ∧
      153 * mp + 2 ≤ 5 * ((153 * mp + 2) / 5) + 4 := by omega
  split_ifs with hf1 hf2 hf3 <;> omega

/-- The `struct tm` fields the wire format uses (`year` is the full year,
`mon` is 1-based). -/
structure Tm where
  year : Int
  mon : Int
  mday : Int
  hour : Int
  minute : Int
  sec : Int
deriving DecidableEq, Repr

/-- Modelled from libc: `timegm`. -/
def timegmModel (t : Tm) : Int :=
  daysFromCivil t.year t.mon t.mday * 86400 + t.hour * 3600 + t.minute * 60
    + t.sec

/-- Modelled from libc: `gmtime_r`. -/
def gmtimeModel (t : Int) : Tm :=
  let days := t / 86400
  let secs := t - days * 86400
  let c := civilFromDays days
  ⟨c.1, c.2.1, c.2.2, secs / 3600, secs % 3600 / 60, secs % 60⟩

theorem timegm_gmtime_roundtrip (t : Int) : timegmModel (gmtimeModel t) = t := by
  unfold gmtimeModel timegmModel
  simp only
  rw [civil_roundtrip]
  omega

theorem gmtime_bounds (t : Int) (h0 : 0 ≤ t) (h1 : t ≤ 253402300799) :
    0 ≤ (gmtimeModel t).year ∧ (gmtimeModel t).year ≤ 9999 ∧
    1 ≤ (gmtimeModel t).mon ∧ (gmtimeModel t).mon ≤ 12 ∧
    1 ≤ (gmtimeModel t).mday ∧ (gmtimeModel t).mday ≤ 31 ∧
    0 ≤ (gmtimeModel t).hour ∧ (gmtimeModel t).hour ≤ 23 ∧
    0 ≤ (gmtimeModel t).minute ∧ (gmtimeModel t).minute ≤ 59 ∧
    0 ≤ (gmtimeModel t).sec ∧ (gmtimeModel t).sec ≤ 59 := by
  unfold gmtimeModel
  simp only
  have hd : 0 ≤ t / 86400 ∧ t / 86400 ≤ 2932896 := by omega
  obtain ⟨hb1, hb2, hb3, hb4, hb5, hb6⟩ := civil_bounds (t / 86400) hd.1 hd.2
  refine ⟨hb1, hb2, hb3, hb4, hb5, hb6, ?_, ?_, ?_, ?_, ?_, ?_⟩ <;> omega

theorem calendar_anchor_values :
    daysFromCivil 1970 1 1 = 0 ∧ daysFromCivil 2000 3 1 = 11017 ∧
    daysFromCivil 9999 12 31 = 2932896 ∧ daysFromCivil 1969 12 31 = -1 ∧
    civilFromDays 0 = (1970, 1, 1) ∧ civilFromDays 11016 = (2000, 2, 29) ∧
    civilFromDays 2932896 = (9999, 12, 31) ∧
    civilFromDays 19782 = (2024, 2, 29) ∧
    timegmModel ⟨9999, 12, 31, 23, 59, 59⟩ = 253402300799 ∧
    gmtimeModel 1700000000 = ⟨2023, 11, 14, 22, 13, 20⟩ := by
  decide

/-! ## Serialization of `FilesystemElement` (core.cpp:105-228)

The stream is modelled character by character.  `std::istream` token
extraction, `std::get_time` with format `"%Y-%m-%d %T"` (as implemented
by libstdc++: numeric fields skip leading whitespace, read at most the
field width in digits and range-check the value), `std::quoted` as used
by `std::filesystem::path` stream insertion and extraction, and
`timegm`/`gmtime_r` (via the proleptic Gregorian calendar model above)
are each given explicit definitions.  Multiple redundant `/` separators
inside a stored path collapse exactly as in `std::filesystem::path`
decomposition only for the shapes the program itself writes. -/

/-- `std::isspace` in the default locale. -/
def wsChar (c : Char) : Bool :=
  c = ' ' || c = '\t' || c = '\n' || c = '\x0b' || c = '\x0c' || c = '\r'

/-- `istream >> string`: skip whitespace, then the maximal nonempty run
of non-whitespace characters; `none` is the fail bit. -/
def readToken (cs : List Char) : Option (List Char × List Char) :=
  let cs1 := cs.dropWhile (fun c => wsChar c)
  let t := cs1.takeWhile (fun c => !wsChar c)
  if t.isEmpty then none
  else some (t, cs1.dropWhile (fun c => !wsChar c))

/-- `istream >>` into an integer: skip whitespace, optional sign, then a
nonempty digit run, stopping at the first non-digit. -/
def readInt (cs : List Char) : Option (Int × List Char) :=
  let cs1 := cs.dropWhile (fun c => wsChar c)
  let sgn : Bool × List Char :=
    match cs1 with
    | '-' :: r => (true, r)
    | '+' :: r => (false, r)
    | r => (false, r)
  let ds := sgn.2.takeWhile Char.isDigit
  if ds.isEmpty then none
  else
    let n : Nat := ds.foldl (fun a c => a * 10 + (c.toNat - 48)) 0
    some (if sgn.1 then -(n : Int) else (n : Int),
      sgn.2.dropWhile Char.isDigit)

/-- One numeric field of `get_time`: skip whitespace, then at most `w`
digits, at least one. -/
def readNumField (w : Nat) (cs : List Char) : Option (Nat × List Char) :=
  let cs1 := cs.dropWhile (fun c => wsChar c)
  let ds := (cs1.take w).takeWhile Char.isDigit
  if ds.isEmpty then none
  else some (ds.foldl (fun a c => a * 10 + (c.toNat - 48)) 0,
    cs1.drop ds.length)

/-- A literal character of a `get_time` format. -/
def expectChar (c : Char) (cs : List Char) : Option (List Char) :=
  match cs with
  | d :: r => if d = c then some r else none
  | [] => none

/-- `in >> get_time(&t,"%Y-%m-%d %T")` followed by `timegm(&t)`
(core.cpp:153-156) with libstdc++ field ranges. -/
def readDate (cs : List Char) : Option (Int × List Char) :=
  match readNumField 4 cs with
  | none => none
  | some (y, cs) =>
    match expectChar '-' cs with
    | none => none
    | some cs =>
      match readNumField 2 cs with
      | none => none
      | some (mo, cs) =>
        if mo < 1 ∨ 12 < mo then none else
        match expectChar '-' cs with
        | none => none
        | some cs =>
          match readNumField 2 cs with
          | none => none
          | some (d, cs) =>
            if d < 1 ∨ 31 < d then none else
            match readNumField 2 (cs.dropWhile (fun c => wsChar c)) with
            | none => none
            | some (h, cs) =>
              if 23 < h then none else
              match expectChar ':' cs with
              | none => none
              | some cs =>
                match readNumField 2 cs with
                | none => none
                | some (mi, cs) =>
                  if 59 < mi then none else
                  match expectChar ':' cs with
                  | none => none
                  | some cs =>
                    match readNumField 2 cs with
                    | none => none
                    | some (sec, cs) =>
                      if 60 < sec then none else
                      some (timegmModel ⟨y, mo, d, h, mi, sec⟩, cs)

/-- `in.read(tz.data(),6)`: exactly the next `n` characters. -/
def readExact (n : Nat) (cs : List Char) :
    Option (List Char × List Char) :=
  if cs.length < n then none else some (cs.take n, cs.drop n)

/-- The body of a `std::quoted` string after the opening quote:
backslash escapes, up to the closing quote. -/
def unquoteGo : List Char → Option (List Char × List Char)
  | [] => none
  | '\\' :: d :: r => (unquoteGo r).map (fun pr => (d :: pr.1, pr.2))
  | '"' :: r => some ([], r)
  | c :: r => (unquoteGo r).map (fun pr => (c :: pr.1, pr.2))

/-- `operator>>` on `std::filesystem::path`: skip whitespace; a leading
quote starts a `std::quoted` read, anything else a plain token read. -/
def readPath (cs : List Char) : Option (List Char × List Char) :=
  let cs1 := cs.dropWhile (fun c => wsChar c)
  match cs1 with
  | '"' :: r => unquoteGo r
  | _ => readToken cs1

/-- Decomposition of a generic-format path string into components. -/
def splitSlash : List Char → List (List Char)
  | [] => [[]]
  | '/' :: r => [] :: splitSlash r
  | c :: r =>
    match splitSlash r with
    | g :: gs => (c :: g) :: gs
    | [] => [[c]]

/-- `std::filesystem::path` from a string, as a component list. -/
def pathOfChars (cs : List Char) : List String :=
  if cs.isEmpty then [] else (splitSlash cs).map (fun g => String.mk g)

/-- Decimal digits of a natural number (fuel-driven). -/
def natDigitsGo : Nat → Nat → List Char
  | 0, _ => []
  | fuel + 1, n =>
    if n < 10 then [Char.ofNat (48 + n)]
    else natDigitsGo fuel (n / 10) ++ [Char.ofNat (48 + n % 10)]

def natDigits (n : Nat) : List Char := natDigitsGo (n + 1) n

/-- `operator<<` on an integer. -/
def intDigits (z : Int) : List Char :=
  if z < 0 then '-' :: natDigits (-z).toNat else natDigits z.toNat

/-- A 2-digit zero-padded field of `put_time`. -/
def pad2 (n : Nat) : List Char :=
  if n < 10 then '0' :: natDigits n else natDigits n

/-- `put_time(&t,"%F %T")` after `gmtime_r(&mt,&t)` (core.cpp:215). -/
def dateChars (mt : Int) : List Char :=
  let t := gmtimeModel mt
  natDigits t.year.toNat ++ '-' :: pad2 t.mon.toNat ++
    '-' :: pad2 t.mday.toNat ++ ' ' :: pad2 t.hour.toNat ++
    ':' :: pad2 t.minute.toNat ++ ':' :: pad2 t.sec.toNat

/-- The type character (core.cpp:185). -/
def tyToChar : FileType → Char
  | FileType.regular => '-'
  | FileType.directory => 'd'
  | FileType.symlink => 'l'
  | FileType.unknown => '?'

/-- The switch on the first permission character (core.cpp:121). -/
def tyOfChar (c : Char) : Option FileType :=
  if c = '-' then some FileType.regular
  else if c = 'd' then some FileType.directory
  else if c = 'l' then some FileType.symlink
  else if c = '?' then some FileType.unknown
  else none

/-- The nine permission characters (core.cpp:194). -/
def permBitChars (per : Nat) : List Char :=
  (if per &&& 256 ≠ 0 then 'r' else '-') ::
  (if per &&& 128 ≠ 0 then 'w' else '-') ::
  (if per &&& 64 ≠ 0 then 'x' else '-') ::
  (if per &&& 32 ≠ 0 then 'r' else '-') ::
  (if per &&& 16 ≠ 0 then 'w' else '-') ::
  (if per &&& 8 ≠ 0 then 'x' else '-') ::
  (if per &&& 4 ≠ 0 then 'r' else '-') ::
  (if per &&& 2 ≠ 0 then 'w' else '-') ::
  [(if per &&& 1 ≠ 0 then 'x' else '-')]

/-- The type character and nine permission characters (core.cpp:185). -/
def permChars (ty : FileType) (per : Nat) : List Char :=
  tyToChar ty :: permBitChars per

/-- The body of `std::quoted` output: escape `"` and backslash. -/
def quoteGo : List Char → List Char
  | [] => ['"']
  | c :: r =>
    if c = '"' ∨ c = '\\' then '\\' :: c :: quoteGo r
    else c :: quoteGo r

def quoteChars (cs : List Char) : List Char := '"' :: quoteGo cs

/-- The generic-format string of a component path. -/
def joinSlash : List String → List Char
  | [] => []
  | [c] => c.data
  | c :: cs => c.data ++ '/' :: joinSlash cs

/-- `FilesystemElement::writeTo` (core.cpp:183): one manifest line
(without the final newline). -/
def elemWriteTo (e : FilesystemElement) : List Char :=
  permChars e.ty e.per ++ ' ' :: e.us.data ++ ' ' :: e.gs.data ++
    ' ' :: dateChars e.mt ++ (" +0000 ").data ++
    (match e.ty with
     | FileType.regular =>
       intDigits e.sz ++ ' ' ::
         (if e.fileHash = "" then ['*'] else e.fileHash.data) ++ [' ']
     | FileType.symlink => quoteChars e.symlink.data ++ [' ']
     | _ => []) ++
    quoteChars (joinSlash e.rp)

/-- The structured content of a `FilesystemElement::readFrom` parse
error: the message, metadata file name, line number and offending
line. -/
structure ParseErr where
  msg : String
  file : String
  lineNo : Int
  raw : List Char
deriving DecidableEq, Repr

/-- The nine permission characters back to a 9-bit value
(core.cpp:130-142). -/
def permBitsOf : List Char → Option Nat
  | [a, b, c, d, e, f, g, h, i] => do
    let va ← if a = 'r' then some 256 else if a = '-' then some 0 else none
    let vb ← if b = 'w' then some 128 else if b = '-' then some 0 else none
    let vc ← if c = 'x' then some 64 else if c = '-' then some 0 else none
    let vd ← if d = 'r' then some 32 else if d = '-' then some 0 else none
    let ve ← if e = 'w' then some 16 else if e = '-' then some 0 else none
    let vf ← if f = 'x' then some 8 else if f = '-' then some 0 else none
    let vg ← if g = 'r' then some 4 else if g = '-' then some 0 else none
    let vh ← if h = 'w' then some 2 else if h = '-' then some 0 else none
    let vi ← if i = 'x' then some 1 else if i = '-' then some 0 else none
    some (va + vb + vc + vd + ve + vf + vg + vh + vi)
  | _ => none

/-- The final step of `FilesystemElement::readFrom`: the path and the
end-of-line check. -/
def elemReadFromPath (line : List Char) (fn : String) (no : Int)
    (ty : FileType) (per : Nat) (usT gsT : List Char) (mt sz : Int)
    (hash symlink : String) (cs : List Char) :
    Except ParseErr FilesystemElement :=
  match readPath cs with
  | none => Except.error ⟨"Error reading path", fn, no, line⟩
  | some (pT, cs7) =>
    if cs7 ≠ [] then
      Except.error ⟨"Extra characters at end of line", fn, no, line⟩
    else
      Except.ok ⟨ty, per, String.mk usT, String.mk gsT, mt, sz, hash,
        pathOfChars pT, symlink⟩

/-- The type-dependent fields of `FilesystemElement::readFrom`: size and
hash for regular files (`*` marking an omitted hash, any other token
accepted exactly when its length is 40), the target for symlinks. -/
def elemReadFromTail (line : List Char) (fn : String) (no : Int)
    (ty : FileType) (per : Nat) (usT gsT : List Char) (mt : Int)
    (cs : List Char) : Except ParseErr FilesystemElement :=
  match ty with
  | FileType.regular =>
    match readInt cs with
    | none => Except.error ⟨"Error reading size", fn, no, line⟩
    | some (sz, cs5) =>
      match readToken cs5 with
      | none => Except.error ⟨"Error reading hash", fn, no, line⟩
      | some (hT, cs6) =>
        if hT = ['*'] then
          elemReadFromPath line fn no ty per usT gsT mt sz "" "" cs6
        else if hT.length ≠ 40 then
          Except.error ⟨"Error reading hash", fn, no, line⟩
        else
          elemReadFromPath line fn no ty per usT gsT mt sz
            (String.mk hT) "" cs6
  | FileType.symlink =>
    match readPath cs with
    | none => Except.error ⟨"Error reading symlink target", fn, no, line⟩
    | some (slT, cs5) =>
      elemReadFromPath line fn no ty per usT gsT mt 0 ""
        (String.mk slT) cs5
  | _ => elemReadFromPath line fn no ty per usT gsT mt 0 "" "" cs

/-- Decidable equality of parse results. -/
def exceptDecEq {e a : Type} [DecidableEq e] [DecidableEq a] :
    (x y : Except e a) → Decidable (x = y)
  | Except.ok v, Except.ok w =>
    if h : v = w then Decidable.isTrue (by rw [h])
    else Decidable.isFalse (by intro hh; cases hh; exact h rfl)
  | Except.error v, Except.error w =>
    if h : v = w then Decidable.isTrue (by rw [h])
    else Decidable.isFalse (by intro hh; cases hh; exact h rfl)
  | Except.ok v, Except.error w => Decidable.isFalse (by intro hh; cases hh)
  | Except.error v, Except.ok w => Decidable.isFalse (by intro hh; cases hh)

instance {e a : Type} [DecidableEq e] [DecidableEq a] :
    DecidableEq (Except e a) := exceptDecEq

/-- `FilesystemElement::readFrom` (core.cpp:105): parse one manifest
line.  Every `fail(...)` carries the message, file name, line number and
the offending line. -/
def elemReadFrom (line : List Char) (fn : String) (no : Int) :
    Except ParseErr FilesystemElement :=
  match readToken line with
  | none => Except.error ⟨"Error reading permission string", fn, no, line⟩
  | some (permStr, cs0) =>
    if permStr.length ≠ 10 then
      Except.error ⟨"Error reading permission string", fn, no, line⟩
    else
      match permStr with
      | tyc :: bits =>
        match tyOfChar tyc with
        | none => Except.error ⟨"Unrecognized file type", fn, no, line⟩
        | some ty =>
          match permBitsOf bits with
          | none => Except.error ⟨"Permissions not correct", fn, no, line⟩
          | some per =>
            match readToken cs0 with
            | none => Except.error ⟨"Error reading user/group", fn, no, line⟩
            | some (usT, cs1) =>
              match readToken cs1 with
              | none =>
                Except.error ⟨"Error reading user/group", fn, no, line⟩
              | some (gsT, cs2) =>
                match readDate cs2 with
                | none => Except.error ⟨"Error reading mtime", fn, no, line⟩
                | some (mt, cs3) =>
                  if mt = -1 then
                    Except.error ⟨"Error reading mtime", fn, no, line⟩
                  else
                    match readExact 6 cs3 with
                    | none =>
                      Except.error ⟨"Error reading mtime", fn, no, line⟩
                    | some (tz, cs4) =>
                      if tz ≠ (" +0000").data then
                        Except.error ⟨"Error reading mtime", fn, no, line⟩
                      else
                        elemReadFromTail line fn no ty per usT gsT mt cs4
      | [] => Except.error ⟨"Error reading permission string", fn, no, line⟩

/-! ## Token and digit lemmas -/

theorem takeWhile_all_append {α : Type} {p : α → Bool} {t r : List α}
    (h : ∀ c ∈ t, p c = true) :
    (t ++ r).takeWhile p = t ++ r.takeWhile p := by
  induction t with
  | nil => simp
  | cons a t2 ih =>
    rw [List.cons_append, List.takeWhile_cons, h a (by simp),
      List.cons_append]
    rw [ih (fun c hc => h c (by simp [hc]))]
    rfl

theorem dropWhile_all_append {α : Type} {p : α → Bool} {t r : List α}
    (h : ∀ c ∈ t, p c = true) :
    (t ++ r).dropWhile p = r.dropWhile p := by
  induction t with
  | nil => simp
  | cons a t2 ih =>
    rw [List.cons_append, List.dropWhile_cons, h a (by simp)]
    simp only [if_true]
    exact ih (fun c hc => h c (by simp [hc]))

/-- The first element (if any) fails the predicate. -/
def headFails {α : Type} (p : α → Bool) : List α → Prop
  | [] => True
  | c :: _ => p c = false

theorem takeWhile_eq_nil_of_headFails {α : Type} {p : α → Bool}
    {r : List α} (h : headFails p r) : r.takeWhile p = [] := by
  cases r with
  | nil => rfl
  | cons c r2 =>
    rw [List.takeWhile_cons]
    rw [headFails] at h
    rw [h]
    rfl

theorem dropWhile_eq_self_of_headFails {α : Type} {p : α → Bool}
    {r : List α} (h : headFails p r) : r.dropWhile p = r := by
  cases r with
  | nil => rfl
  | cons c r2 =>
    rw [List.dropWhile_cons]
    rw [headFails] at h
    rw [h]
    rfl

/-- The rest of the line begins with whitespace (or is empty). -/
def headWs (r : List Char) : Prop := headFails (fun c => !wsChar c) r

theorem readToken_exact {t r : List Char} (ht : t ≠ [])
    (hall : ∀ c ∈ t, wsChar c = false) (hr : headWs r) :
    readToken (t ++ r) = some (t, r) := by
  unfold readToken
  dsimp only
  have h1 : (t ++ r).dropWhile (fun c => wsChar c) = t ++ r := by
    cases t with
    | nil => exact absurd rfl ht
    | cons a t2 =>
      rw [List.cons_append, List.dropWhile_cons, hall a (by simp)]
      rfl
  have h2 : (t ++ r).takeWhile (fun c => !wsChar c) = t := by
    rw [takeWhile_all_append (fun c hc => by rw [hall c hc]; rfl),
      takeWhile_eq_nil_of_headFails hr, List.append_nil]
  have h3 : (t ++ r).dropWhile (fun c => !wsChar c) = r := by
    rw [dropWhile_all_append (fun c hc => by rw [hall c hc]; rfl),
      dropWhile_eq_self_of_headFails hr]
  rw [h1, h2, h3]
  simp [ht]

theorem readToken_ws {w : Char} {cs : List Char} (hw : wsChar w = true) :
    readToken (w :: cs) = readToken cs := by
  unfold readToken
  rw [List.dropWhile_cons, hw]
  rfl

theorem readNumField_ws {w : Char} {cs : List Char} {k : Nat}
    (hw : wsChar w = true) :
    readNumField k (w :: cs) = readNumField k cs := by
  unfold readNumField
  rw [List.dropWhile_cons, hw]
  rfl

theorem readInt_ws {w : Char} {cs : List Char} (hw : wsChar w = true) :
    readInt (w :: cs) = readInt cs := by
  unfold readInt
  rw [List.dropWhile_cons, hw]
  rfl

theorem readPath_ws {w : Char} {cs : List Char} (hw : wsChar w = true) :
    readPath (w :: cs) = readPath cs := by
  unfold readPath
  rw [List.dropWhile_cons, hw]
  rfl

/-! Decimal digits. -/

theorem toNat_ofNat_digit : ∀ d : Nat, d < 10 →
    (Char.ofNat (48 + d)).toNat = 48 + d := by decide

theorem isDigit_ofNat_digit : ∀ d : Nat, d < 10 →
    (Char.ofNat (48 + d)).isDigit = true := by decide

theorem wsChar_ofNat_digit : ∀ d : Nat, d < 10 →
    wsChar (Char.ofNat (48 + d)) = false := by decide

theorem natDigitsGo_irrel : ∀ (f1 : Nat), ∀ (f2 n : Nat), n < f1 → n < f2 →
    natDigitsGo f1 n = natDigitsGo f2 n := by
  intro f1
  induction f1 with
  | zero => intro f2 n h1 h2; omega
  | succ f ih =>
    intro f2 n h1 h2
    cases f2 with
    | zero => omega
    | succ f2a =>
      rw [natDigitsGo, natDigitsGo]
      split_ifs with h
      · rfl
      · have hd : n / 10 < n := Nat.div_lt_self (by omega) (by omega)
        rw [ih (f2a) (n / 10) (by omega) (by omega)]

theorem natDigits_unfold (n : Nat) : natDigits n =
    if n < 10 then [Char.ofNat (48 + n)]
    else natDigits (n / 10) ++ [Char.ofNat (48 + n % 10)] := by
  rw [natDigits, natDigitsGo]
  split_ifs with h
  · rfl
  · have hd : n / 10 < n := Nat.div_lt_self (by omega) (by omega)
    rw [natDigitsGo_irrel n (n / 10 + 1) (n / 10) (by omega) (by omega)]
    rfl

theorem natDigits_ne_nil (n : Nat) : natDigits n ≠ [] := by
  rw [natDigits_unfold]
  split_ifs <;> simp

theorem natDigits_all : ∀ n : Nat, ∀ c ∈ natDigits n,
    c.isDigit = true ∧ wsChar c = false := by
  intro n
  induction n using Nat.strong_induction_on with
  | _ n ih =>
    intro c hc
    rw [natDigits_unfold] at hc
    split_ifs at hc with h
    · simp at hc
      subst hc
      exact ⟨isDigit_ofNat_digit n h, wsChar_ofNat_digit n h⟩
    · rw [List.mem_append] at hc
      rcases hc with hc | hc
      · exact ih (n / 10) (Nat.div_lt_self (by omega) (by omega)) c hc
      · simp at hc
        subst hc
        exact ⟨isDigit_ofNat_digit (n % 10) (by omega),
          wsChar_ofNat_digit (n % 10) (by omega)⟩

theorem natDigits_decode : ∀ n : Nat,
    (natDigits n).foldl (fun a c => a * 10 + (c.toNat - 48)) 0 = n := by
  intro n
  induction n using Nat.strong_induction_on with
  | _ n ih =>
    rw [natDigits_unfold]
    split_ifs with h
    · simp [List.foldl, toNat_ofNat_digit n h]
    · rw [List.foldl_append]
      rw [ih (n / 10) (Nat.div_lt_self (by omega) (by omega))]
      simp [List.foldl, toNat_ofNat_digit (n % 10) (by omega)]
      omega

theorem natDigits_len1 {n : Nat} (h : n < 10) :
    (natDigits n).length = 1 := by
  rw [natDigits_unfold, if_pos h]
  rfl

theorem natDigits_len2 {n : Nat} (h1 : 10 ≤ n) (h2 : n ≤ 99) :
    (natDigits n).length = 2 := by
  rw [natDigits_unfold, if_neg (by omega), List.length_append,
    natDigits_len1 (by omega)]
  rfl

theorem natDigits_len3 {n : Nat} (h1 : 100 ≤ n) (h2 : n ≤ 999) :
    (natDigits n).length = 3 := by
  rw [natDigits_unfold, if_neg (by omega), List.length_append,
    natDigits_len2 (by omega) (by omega)]
  rfl

theorem natDigits_len4 {n : Nat} (h1 : 1000 ≤ n) (h2 : n ≤ 9999) :
    (natDigits n).length = 4 := by
  rw [natDigits_unfold, if_neg (by omega), List.length_append,
    natDigits_len3 (by omega) (by omega)]
  rfl

theorem isDigit_not_ws {c : Char} (h : c.isDigit = true) :
    wsChar c = false := by
  unfold wsChar
  have h1 : c ≠ ' ' := by rintro rfl; exact absurd h (by decide)
  have h2 : c ≠ '\t' := by rintro rfl; exact absurd h (by decide)
  have h3 : c ≠ '\n' := by rintro rfl; exact absurd h (by decide)
  have h4 : c ≠ '\x0b' := by rintro rfl; exact absurd h (by decide)
  have h5 : c ≠ '\x0c' := by rintro rfl; exact absurd h (by decide)
  have h6 : c ≠ '\r' := by rintro rfl; exact absurd h (by decide)
  simp [h1, h2, h3, h4, h5, h6]

theorem civil_year_lb (z : Int) (h0 : 0 ≤ z) :
    1600 ≤ (civilFromDays z).1 := by
  unfold civilFromDays
  simp only
  have hdoe : 0 ≤ z + 719468 - (z + 719468) / 146097 * 146097 ∧
      z + 719468 - (z + 719468) / 146097 * 146097 ≤ 146096 := by omega
  obtain ⟨hyd1, hyd2, hyd3, hyd4, hyd5⟩ :=
    yoeDoyFromDoe_spec (z + 719468 - (z + 719468) / 146097 * 146097)
      hdoe.1 hdoe.2
  have hera : 4 ≤ (z + 719468) / 146097 := by omega
  split_ifs <;> omega

theorem gmtime_year_lb (t : Int) (h0 : 0 ≤ t) :
    1600 ≤ (gmtimeModel t).year := by
  unfold gmtimeModel
  simp only
  exact civil_year_lb (t / 86400) (by omega)

theorem pad2_len {n : Nat} (h : n < 100) : (pad2 n).length = 2 := by
  unfold pad2
  split_ifs with h1
  · rw [List.length_cons, natDigits_len1 h1]
  · exact natDigits_len2 (by omega) (by omega)

theorem pad2_all {n : Nat} (h : n < 100) : ∀ c ∈ pad2 n,
    c.isDigit = true ∧ wsChar c = false := by
  unfold pad2
  split_ifs with h1
  · intro c hc
    rcases List.mem_cons.mp hc with rfl | hc2
    · exact ⟨by decide, by decide⟩
    · exact natDigits_all n c hc2
  · exact natDigits_all n

theorem pad2_ne_nil (n : Nat) : pad2 n ≠ [] := by
  unfold pad2
  split_ifs
  · simp
  · exact natDigits_ne_nil n

theorem pad2_decode {n : Nat} (h : n < 100) :
    (pad2 n).foldl (fun a c => a * 10 + (c.toNat - 48)) 0 = n := by
  unfold pad2
  split_ifs with h1
  · rw [natDigits_unfold, if_pos h1]
    simp [List.foldl, toNat_ofNat_digit n h1]
  · exact natDigits_decode n

theorem readNumField_exact {w : Nat} {ds r : List Char}
    (hlen : ds.length = w) (hne : ds ≠ [])
    (hdig : ∀ c ∈ ds, c.isDigit = true) :
    readNumField w (ds ++ r) =
      some (ds.foldl (fun a c => a * 10 + (c.toNat - 48)) 0, r) := by
  unfold readNumField
  dsimp only
  have h1 : (ds ++ r).dropWhile (fun c => wsChar c) = ds ++ r := by
    cases ds with
    | nil => exact absurd rfl hne
    | cons a t2 =>
      rw [List.cons_append, List.dropWhile_cons,
        isDigit_not_ws (hdig a (by simp))]
      rfl
  rw [h1, ← hlen, List.take_left, List.takeWhile_eq_self_iff.mpr hdig]
  have hne2 : ¬ds.isEmpty = true := by
    cases ds with
    | nil => exact absurd rfl hne
    | cons a t => simp
  rw [if_neg hne2, List.drop_left]

theorem readInt_digits {ds r : List Char} (hne : ds ≠ [])
    (hdig : ∀ c ∈ ds, c.isDigit = true)
    (hr : headFails Char.isDigit r) :
    readInt (ds ++ r) =
      some (((ds.foldl (fun a c => a * 10 + (c.toNat - 48)) 0 : Nat) : Int),
        r) := by
  unfold readInt
  dsimp only
  have h1 : (ds ++ r).dropWhile (fun c => wsChar c) = ds ++ r := by
    cases ds with
    | nil => exact absurd rfl hne
    | cons a t2 =>
      rw [List.cons_append, List.dropWhile_cons,
        isDigit_not_ws (hdig a (by simp))]
      rfl
  rw [h1]
  have hsgn : (match ds ++ r with
      | '-' :: r2 => (true, r2)
      | '+' :: r2 => (false, r2)
      | r2 => (false, r2)) = (false, ds ++ r) := by
    cases ds with
    | nil => exact absurd rfl hne
    | cons a t2 =>
      have ha : a ≠ '-' := by
        rintro rfl; exact absurd (hdig '-' (by simp)) (by decide)
      have hb : a ≠ '+' := by
        rintro rfl; exact absurd (hdig '+' (by simp)) (by decide)
      rw [List.cons_append]
      split
      · rename_i heq
        cases heq
        exact absurd rfl ha
      · rename_i heq
        cases heq
        exact absurd rfl hb
      · rfl
  rw [hsgn]
  have h2 : (ds ++ r).takeWhile Char.isDigit = ds := by
    rw [takeWhile_all_append hdig, takeWhile_eq_nil_of_headFails hr,
      List.append_nil]
  have h3 : (ds ++ r).dropWhile Char.isDigit = r := by
    rw [dropWhile_all_append hdig, dropWhile_eq_self_of_headFails hr]
  rw [h2, h3]
  have hne2 : ¬ds.isEmpty = true := by
    cases ds with
    | nil => exact absurd rfl hne
    | cons a t => simp
  rw [if_neg hne2]
  rfl

theorem expectChar_cons (c : Char) (r : List Char) :
    expectChar c (c :: r) = some r := by
  simp [expectChar]

theorem dropWs_space_digit {ds rest : List Char} (hne : ds ≠ [])
    (hdig : ∀ c ∈ ds, c.isDigit = true) :
    (' ' :: (ds ++ rest)).dropWhile (fun c => wsChar c) = ds ++ rest := by
  rw [List.dropWhile_cons]
  have hsp : wsChar ' ' = true := by decide
  rw [hsp]
  simp only [if_true]
  cases ds with
  | nil => exact absurd rfl hne
  | cons a t =>
    rw [List.cons_append, List.dropWhile_cons,
      isDigit_not_ws (hdig a (by simp))]
    rfl

theorem readDate_exact (mt : Int) (h0 : 0 ≤ mt) (h1 : mt ≤ 253402300799)
    (r : List Char) : readDate (dateChars mt ++ r) = some (mt, r) := by
  obtain ⟨hy0, hy1, hm0, hm1, hd0, hd1, hh0, hh1, hmi0, hmi1, hs0, hs1⟩ :=
    gmtime_bounds mt h0 h1
  have hylb := gmtime_year_lb mt h0
  have hrt := timegm_gmtime_roundtrip mt
  unfold dateChars
  dsimp only
  simp only [List.append_assoc, List.cons_append]
  unfold readDate
  rw [readNumField_exact (natDigits_len4 (by omega) (by omega))
    (natDigits_ne_nil _) (fun c hc => (natDigits_all _ c hc).1)]
  dsimp only
  rw [natDigits_decode, expectChar_cons]
  dsimp only
  rw [readNumField_exact (pad2_len (by omega)) (pad2_ne_nil _)
    (fun c hc => (pad2_all (by omega) c hc).1)]
  dsimp only
  rw [pad2_decode (by omega)]
  rw [if_neg (by omega)]
  rw [expectChar_cons]
  dsimp only
  rw [readNumField_exact (pad2_len (by omega)) (pad2_ne_nil _)
    (fun c hc => (pad2_all (by omega) c hc).1)]
  dsimp only
  rw [pad2_decode (by omega)]
  rw [if_neg (by omega)]
  rw [dropWs_space_digit (pad2_ne_nil _)
    (fun c hc => (pad2_all (by omega) c hc).1)]
  rw [readNumField_exact (pad2_len (by omega)) (pad2_ne_nil _)
    (fun c hc => (pad2_all (by omega) c hc).1)]
  dsimp only
  rw [pad2_decode (by omega)]
  rw [if_neg (by omega)]
  rw [expectChar_cons]
  dsimp only
  rw [readNumField_exact (pad2_len (by omega)) (pad2_ne_nil _)
    (fun c hc => (pad2_all (by omega) c hc).1)]
  dsimp only
  rw [pad2_decode (by omega)]
  rw [if_neg (by omega)]
  rw [expectChar_cons]
  dsimp only
  rw [readNumField_exact (pad2_len (by omega)) (pad2_ne_nil _)
    (fun c hc => (pad2_all (by omega) c hc).1)]
  dsimp only
  rw [pad2_decode (by omega)]
  rw [if_neg (by omega)]
  have hfix : (⟨((gmtimeModel mt).year.toNat : Int),
      ((gmtimeModel mt).mon.toNat : Int), ((gmtimeModel mt).mday.toNat : Int),
      ((gmtimeModel mt).hour.toNat : Int),
      ((gmtimeModel mt).minute.toNat : Int),
      ((gmtimeModel mt).sec.toNat : Int)⟩ : Tm) = gmtimeModel mt := by
    have e1 := Int.toNat_of_nonneg hy0
    have e2 := Int.toNat_of_nonneg (by omega : (0:Int) ≤ (gmtimeModel mt).mon)
    have e3 := Int.toNat_of_nonneg (by omega : (0:Int) ≤ (gmtimeModel mt).mday)
    have e4 := Int.toNat_of_nonneg hh0
    have e5 := Int.toNat_of_nonneg hmi0
    have e6 := Int.toNat_of_nonneg hs0
    cases hg : gmtimeModel mt
    rw [hg] at e1 e2 e3 e4 e5 e6
    simp only at e1 e2 e3 e4 e5 e6
    rw [e1, e2, e3, e4, e5, e6]
  rw [hfix, hrt]

theorem tyOfChar_toChar (ty : FileType) : tyOfChar (tyToChar ty) = some ty := by
  cases ty <;> rfl

theorem tyToChar_not_ws (ty : FileType) : wsChar (tyToChar ty) = false := by
  cases ty <;> decide

set_option maxRecDepth 4000 in
theorem permBitChars_not_ws : ∀ per : Nat, per < 512 →
    ∀ c ∈ permBitChars per, wsChar c = false := by decide

theorem permBitChars_len (per : Nat) : (permBitChars per).length = 9 := by
  simp [permBitChars]

set_option maxRecDepth 4000 in
theorem permBitsOf_round : ∀ per : Nat, per < 512 →
    permBitsOf (permBitChars per) = some per := by decide

theorem permChars_len (ty : FileType) (per : Nat) :
    (permChars ty per).length = 10 := by
  simp [permChars, permBitChars_len]

theorem permChars_not_ws {ty : FileType} {per : Nat} (h : per < 512) :
    ∀ c ∈ permChars ty per, wsChar c = false := by
  intro c hc
  rcases List.mem_cons.mp hc with rfl | hc2
  · exact tyToChar_not_ws ty
  · exact permBitChars_not_ws per h c hc2

theorem readExact_prefix {n : Nat} {t r : List Char} (h : t.length = n) :
    readExact n (t ++ r) = some (t, r) := by
  unfold readExact
  rw [if_neg (by simp [List.length_append]; omega), ← h, List.take_left,
    List.drop_left]

theorem unquoteGo_cons_plain {c : Char} (h1 : c ≠ '\\') (h2 : c ≠ '"')
    (r : List Char) : unquoteGo (c :: r) =
      (unquoteGo r).map (fun pr => (c :: pr.1, pr.2)) := by
  rw [unquoteGo.eq_def]
  split
  · rename_i heq
    cases heq
  · rename_i heq
    rw [List.cons.injEq] at heq
    exact absurd heq.1 h1
  · rename_i heq
    rw [List.cons.injEq] at heq
    exact absurd heq.1 h2
  · rename_i heq
    rw [List.cons.injEq] at heq
    rw [heq.1, heq.2]

theorem unquote_quote : ∀ p : List Char, unquoteGo (quoteGo p) = some (p, []) := by
  intro p
  induction p with
  | nil => rfl
  | cons c r ih =>
    rw [quoteGo]
    split_ifs with hc
    · show (unquoteGo (quoteGo r)).map (fun pr => (c :: pr.1, pr.2)) = _
      rw [ih]
      rfl
    · push_neg at hc
      rw [unquoteGo_cons_plain (Ne.symm ?hb) (Ne.symm ?ha) (quoteGo r), ih]
      · rfl
      case ha => exact fun h => hc.1 h.symm
      case hb => exact fun h => hc.2 h.symm

theorem readPath_quoted (p : List Char) :
    readPath ('"' :: quoteGo p) = some (p, []) := by
  unfold readPath
  rw [List.dropWhile_cons]
  rw [show wsChar '"' = false from by decide]
  exact unquote_quote p

theorem unquote_quote_append : ∀ (p rest : List Char),
    unquoteGo (quoteGo p ++ rest) = some (p, rest) := by
  intro p
  induction p with
  | nil => intro rest; rfl
  | cons c r ih =>
    intro rest
    rw [quoteGo]
    split_ifs with hc
    · show (unquoteGo (quoteGo r ++ rest)).map
        (fun pr => (c :: pr.1, pr.2)) = _
      rw [ih]
      rfl
    · push_neg at hc
      rw [List.cons_append,
        unquoteGo_cons_plain (Ne.symm ?hb) (Ne.symm ?ha)
          (quoteGo r ++ rest), ih]
      · rfl
      case ha => exact fun h => hc.1 h.symm
      case hb => exact fun h => hc.2 h.symm

theorem readPath_quoted_append (p rest : List Char) :
    readPath ('"' :: (quoteGo p ++ rest)) = some (p, rest) := by
  unfold readPath
  rw [List.dropWhile_cons]
  rw [show wsChar '"' = false from by decide]
  exact unquote_quote_append p rest

theorem splitSlash_cons_plain {c : Char} (h : c ≠ '/') (r : List Char) :
    splitSlash (c :: r) =
      (match splitSlash r with
       | g :: gs => (c :: g) :: gs
       | [] => [[c]]) := by
  rw [splitSlash.eq_def]
  split
  · rename_i heq
    cases heq
  · rename_i heq
    rw [List.cons.injEq] at heq
    exact absurd heq.1 h
  · rename_i heq
    rw [List.cons.injEq] at heq
    rw [heq.1, heq.2]

theorem splitSlash_no_slash {g : List Char} (h : ∀ c ∈ g, c ≠ '/') :
    splitSlash g = [g] := by
  induction g with
  | nil => rfl
  | cons c r ih =>
    rw [splitSlash_cons_plain (h c (by simp)) r,
      ih (fun x hx => h x (by simp [hx]))]

theorem splitSlash_append {g rest : List Char} (h : ∀ c ∈ g, c ≠ '/') :
    splitSlash (g ++ '/' :: rest) = g :: splitSlash rest := by
  induction g with
  | nil => rfl
  | cons c r ih =>
    rw [List.cons_append, splitSlash_cons_plain (h c (by simp)),
      ih (fun x hx => h x (by simp [hx]))]

theorem joinSlash_ne_nil {comps : List String} (hne : comps ≠ [])
    (hc : ∀ s ∈ comps, s.data ≠ []) : joinSlash comps ≠ [] := by
  cases comps with
  | nil => exact absurd rfl hne
  | cons c rest =>
    cases rest with
    | nil => exact hc c (by simp)
    | cons c2 r2 =>
      rw [joinSlash]
      · intro h
        rw [List.append_eq_nil] at h
        exact hc c (by simp) h.1
      · simp

theorem splitSlash_join {comps : List String} (hne : comps ≠ [])
    (hc : ∀ s ∈ comps, ∀ c ∈ s.data, c ≠ '/') :
    splitSlash (joinSlash comps) = comps.map String.data := by
  induction comps with
  | nil => exact absurd rfl hne
  | cons c rest ih =>
    cases rest with
    | nil =>
      rw [joinSlash, List.map_cons, List.map_nil]
      exact splitSlash_no_slash (hc c (by simp))
    | cons c2 r2 =>
      rw [joinSlash]
      · rw [splitSlash_append (hc c (by simp)), List.map_cons]
        rw [ih (by simp) (fun x hx => hc x (by simp [hx]))]
      · simp

theorem pathOfChars_join {comps : List String}
    (hc : ∀ s ∈ comps, s.data ≠ [] ∧ ∀ c ∈ s.data, c ≠ '/') :
    pathOfChars (joinSlash comps) = comps := by
  cases hcomps : comps with
  | nil => rfl
  | cons c rest =>
    subst hcomps
    unfold pathOfChars
    have hne : joinSlash (c :: rest) ≠ [] :=
      joinSlash_ne_nil (by simp) (fun x hx => (hc x hx).1)
    rw [if_neg (by simpa [List.isEmpty_iff] using hne)]
    rw [splitSlash_join (by simp) (fun x hx => (hc x hx).2), List.map_map]
    rw [show String.mk ∘ String.data = id from funext (fun x => rfl),
      List.map_id]

/-- The fields a tree element needs for its manifest line to read back
verbatim: 9-bit permissions, an mtime in the printable range, whitespace
free user, group, hash and symlink tokens, slash free nonempty path
components, and the defaults in fields the line does not carry. -/
def tokenOkB (t : String) : Bool :=
  !t.data.isEmpty && t.data.all (fun c => !wsChar c)

def compOkB (t : String) : Bool :=
  !t.data.isEmpty && t.data.all (fun c => !(c = Char.ofNat 47) && !(c = Char.ofNat 10))

def elemSerialWF (e : FilesystemElement) : Bool :=
  decide (e.per < 512) && decide (0 ≤ e.mt) &&
    decide (e.mt ≤ 253402300799) && tokenOkB e.us && tokenOkB e.gs &&
    (match e.ty with
     | FileType.regular =>
       decide (0 ≤ e.sz) && decide (e.symlink = "") &&
         (decide (e.fileHash = "") ||
           (decide (e.fileHash.data.length = 40) &&
             e.fileHash.data.all (fun c => !wsChar c)))
     | FileType.symlink =>
       e.symlink.data.all (fun c => c != '\n') &&
         decide (e.sz = 0) && decide (e.fileHash = "")
     | _ =>
       decide (e.sz = 0) && decide (e.fileHash = "") &&
         decide (e.symlink = "")) &&
    e.rp.all (fun t => compOkB t)

theorem tokenOkB_facts {t : String} (h : tokenOkB t = true) :
    t.data ≠ [] ∧ ∀ c ∈ t.data, wsChar c = false := by
  rw [tokenOkB, Bool.and_eq_true, List.all_eq_true] at h
  refine ⟨?_, fun c hc => by simpa using h.2 c hc⟩
  intro hnil
  rw [hnil] at h
  simp at h

theorem compOkB_facts {t : String} (h : compOkB t = true) :
    t.data ≠ [] ∧ ∀ c ∈ t.data, c ≠ '/' := by
  rw [compOkB, Bool.and_eq_true, List.all_eq_true] at h
  refine ⟨?_, fun c hc => ?_⟩
  · intro hnil
    rw [hnil] at h
    simp at h
  · have := h.2 c hc
    simp only [Bool.and_eq_true, Bool.not_eq_eq_eq_not, Bool.not_true,
      decide_eq_false_iff_not] at this
    exact this.1

theorem headWs_cons_space (z : List Char) : headWs (' ' :: z) := by
  show (!wsChar ' ') = false
  decide

theorem headFails_digit_space (z : List Char) :
    headFails Char.isDigit (' ' :: z) := by
  show Char.isDigit ' ' = false
  decide

theorem readDate_ws {w : Char} {cs : List Char} (hw : wsChar w = true) :
    readDate (w :: cs) = readDate cs := by
  unfold readDate
  rw [readNumField_ws hw]

theorem readExact_tz (X : List Char) :
    readExact 6 (' ' :: '+' :: '0' :: '0' :: '0' :: '0' :: X) =
      some ([' ', '+', '0', '0', '0', '0'], X) := by
  unfold readExact
  rw [if_neg (by simp)]
  rfl

/-- The common final path-and-EOF step on a written line tail. -/
theorem elemReadFromPath_exact (line : List Char) (fn : String) (no : Int)
    (ty : FileType) (per : Nat) (usT gsT : List Char) (mt sz : Int)
    (hash symlink : String) {comps : List String}
    (hc : ∀ s ∈ comps, s.data ≠ [] ∧ ∀ c ∈ s.data, c ≠ '/') :
    elemReadFromPath line fn no ty per usT gsT mt sz hash symlink
      (' ' :: quoteChars (joinSlash comps)) =
      Except.ok ⟨ty, per, String.mk usT, String.mk gsT, mt, sz, hash,
        comps, symlink⟩ := by
  unfold elemReadFromPath
  rw [readPath_ws (by decide), quoteChars, readPath_quoted]
  dsimp only
  rw [if_neg (by simp), pathOfChars_join hc]

/-- Writing one element and parsing the line back returns the element
unchanged, for any serializable element. -/
theorem elemWriteTo_readFrom (e : FilesystemElement) (fn : String)
    (no : Int) (hwf : elemSerialWF e = true) :
    elemReadFrom (elemWriteTo e) fn no = Except.ok e := by
  obtain ⟨ty, per, us, gs, mt, sz, fileHash, rp, symlink⟩ := e
  rw [elemSerialWF] at hwf
  simp only [Bool.and_eq_true, decide_eq_true_eq] at hwf
  obtain ⟨⟨⟨⟨⟨⟨hper, hmt0⟩, hmt1⟩, hus⟩, hgs⟩, hbr⟩, hfp⟩ := hwf
  obtain ⟨husne, husws⟩ := tokenOkB_facts hus
  obtain ⟨hgsne, hgsws⟩ := tokenOkB_facts hgs
  have hrpc : ∀ s ∈ rp, s.data ≠ [] ∧ ∀ c ∈ s.data, c ≠ '/' := by
    intro s hs
    exact compOkB_facts (by simpa using (List.all_eq_true.mp hfp s hs))
  unfold elemWriteTo
  unfold elemReadFrom
  rw [show (" +0000 ").data =
    ' ' :: '+' :: '0' :: '0' :: '0' :: '0' :: [' '] from rfl]
  simp only [List.append_assoc, List.cons_append, List.nil_append]
  rw [readToken_exact (by simp [permChars]) (permChars_not_ws hper)
    (headWs_cons_space _)]
  dsimp only
  rw [if_neg (by simp [permChars_len])]
  rw [permChars]
  dsimp only
  rw [tyOfChar_toChar]
  dsimp only
  rw [permBitsOf_round per hper]
  dsimp only
  rw [readToken_ws (by decide), readToken_exact husne husws
    (headWs_cons_space _)]
  dsimp only
  rw [readToken_ws (by decide), readToken_exact hgsne hgsws
    (headWs_cons_space _)]
  dsimp only
  rw [readDate_ws (by decide), readDate_exact mt hmt0 hmt1]
  dsimp only
  rw [if_neg (by omega)]
  rw [readExact_tz]
  dsimp only
  rw [if_neg (by decide)]
  revert hbr
  cases ty
  case regular =>
    intro hbr
    simp only [Bool.and_eq_true, Bool.or_eq_true, decide_eq_true_eq] at hbr
    obtain ⟨⟨hsz0, hsym⟩, hhash⟩ := hbr
    unfold elemReadFromTail
    dsimp only
    rw [readInt_ws (by decide)]
    rw [intDigits, if_neg (by omega)]
    simp only [List.append_assoc, List.cons_append, List.nil_append]
    rcases hhash with hh | ⟨hh40, hhws⟩
    · rw [if_pos hh]
      rw [readInt_digits (natDigits_ne_nil _)
        (fun c hc => (natDigits_all _ c hc).1) (headFails_digit_space _)]
      dsimp only
      rw [natDigits_decode, Int.toNat_of_nonneg hsz0]
      rw [readToken_ws (by decide)]
      rw [readToken_exact (by simp) (by decide) (headWs_cons_space _)]
      dsimp only
      rw [if_pos rfl]
      rw [elemReadFromPath_exact _ _ _ _ _ _ _ _ _ _ _ hrpc]
      rw [hsym, hh]
    · rw [if_neg (by intro hcon; rw [hcon] at hh40; simp at hh40)]
      rw [readInt_digits (natDigits_ne_nil _)
        (fun c hc => (natDigits_all _ c hc).1) (headFails_digit_space _)]
      dsimp only
      rw [natDigits_decode, Int.toNat_of_nonneg hsz0]
      rw [readToken_ws (by decide),
        readToken_exact (by intro hcon; rw [hcon] at hh40; simp at hh40)
          (fun c hc => by simpa using List.all_eq_true.mp hhws c hc)
          (headWs_cons_space _)]
      dsimp only
      rw [if_neg (by intro hcon; rw [hcon] at hh40; simp at hh40)]
      rw [if_neg (by omega)]
      rw [elemReadFromPath_exact _ _ _ _ _ _ _ _ _ _ _ hrpc]
      rw [hsym]
  case symlink =>
    intro hbr
    simp only [Bool.and_eq_true, decide_eq_true_eq] at hbr
    obtain ⟨⟨hsl, hsz⟩, hhash⟩ := hbr
    unfold elemReadFromTail
    dsimp only
    rw [show quoteChars symlink.data = '"' :: quoteGo symlink.data
      from rfl]
    simp only [List.append_assoc, List.cons_append, List.nil_append]
    rw [readPath_ws (by decide), readPath_quoted_append]
    dsimp only
    rw [elemReadFromPath_exact _ _ _ _ _ _ _ _ _ _ _ hrpc]
    rw [hsz, hhash]
  case directory =>
    intro hbr
    simp only [Bool.and_eq_true, decide_eq_true_eq] at hbr
    obtain ⟨⟨hsz, hhash⟩, hsym⟩ := hbr
    unfold elemReadFromTail
    dsimp only
    simp only [List.append_assoc, List.cons_append, List.nil_append]
    rw [elemReadFromPath_exact _ _ _ _ _ _ _ _ _ _ _ hrpc]
    rw [hsz, hhash, hsym]
  case unknown =>
    intro hbr
    simp only [Bool.and_eq_true, decide_eq_true_eq] at hbr
    obtain ⟨⟨hsz, hhash⟩, hsym⟩ := hbr
    unfold elemReadFromTail
    dsimp only
    simp only [List.append_assoc, List.cons_append, List.nil_append]
    rw [elemReadFromPath_exact _ _ _ _ _ _ _ _ _ _ _ hrpc]
    rw [hsz, hhash, hsym]


/-! ## C7: error reporting and hash acceptance -/

theorem elemReadFromPath_err {line cs : List Char} {fn : String} {no : Int}
    {ty : FileType} {per : Nat} {usT gsT : List Char} {mt sz : Int}
    {hash symlink : String} {r : ParseErr}
    (h : elemReadFromPath line fn no ty per usT gsT mt sz hash symlink cs
      = Except.error r) :
    r.file = fn ∧ r.lineNo = no ∧ r.raw = line := by
  unfold elemReadFromPath at h
  repeat' split at h
  all_goals first
    | (injection h with h2; subst h2; exact ⟨rfl, rfl, rfl⟩)
    | exact Except.noConfusion h

theorem elemReadFromPath_ok_hash {line cs : List Char} {fn : String}
    {no : Int} {ty : FileType} {per : Nat} {usT gsT : List Char}
    {mt sz : Int} {hash symlink : String} {e : FilesystemElement}
    (h : elemReadFromPath line fn no ty per usT gsT mt sz hash symlink cs
      = Except.ok e) : e.fileHash = hash := by
  unfold elemReadFromPath at h
  repeat' split at h
  all_goals first
    | exact Except.noConfusion h
    | (injection h with h2; subst h2; rfl)

theorem elemReadFromTail_err {line cs : List Char} {fn : String} {no : Int}
    {ty : FileType} {per : Nat} {usT gsT : List Char} {mt : Int}
    {r : ParseErr}
    (h : elemReadFromTail line fn no ty per usT gsT mt cs
      = Except.error r) :
    r.file = fn ∧ r.lineNo = no ∧ r.raw = line := by
  unfold elemReadFromTail at h
  repeat' split at h
  all_goals first
    | (injection h with h2; subst h2; exact ⟨rfl, rfl, rfl⟩)
    | exact elemReadFromPath_err h

theorem elemReadFromTail_ok_hash {line cs : List Char} {fn : String}
    {no : Int} {ty : FileType} {per : Nat} {usT gsT : List Char}
    {mt : Int} {e : FilesystemElement}
    (h : elemReadFromTail line fn no ty per usT gsT mt cs = Except.ok e) :
    e.fileHash = "" ∨ e.fileHash.length = 40 := by
  unfold elemReadFromTail at h
  repeat' split at h
  all_goals first
    | exact Except.noConfusion h
    | (right
       rw [elemReadFromPath_ok_hash h]
       rename_i hlen
       simp only [String.length_mk]
       omega)
    | (left; rw [elemReadFromPath_ok_hash h])

theorem elemReadFrom_err {line : List Char} {fn : String} {no : Int}
    {r : ParseErr} (h : elemReadFrom line fn no = Except.error r) :
    r.file = fn ∧ r.lineNo = no ∧ r.raw = line := by
  unfold elemReadFrom at h
  repeat' split at h
  all_goals first
    | (injection h with h2; subst h2; exact ⟨rfl, rfl, rfl⟩)
    | exact elemReadFromTail_err h

theorem elemReadFrom_ok_hash {line : List Char} {fn : String} {no : Int}
    {e : FilesystemElement} (h : elemReadFrom line fn no = Except.ok e) :
    e.fileHash = "" ∨ e.fileHash.length = 40 := by
  unfold elemReadFrom at h
  repeat' split at h
  all_goals first
    | exact Except.noConfusion h
    | exact elemReadFromTail_ok_hash h

/-- A lowercase hexadecimal digit. -/
def lowerHexChar (c : Char) : Bool :=
  c.isDigit || ('a' ≤ c && c ≤ 'f')

/-- A regular-file manifest line whose hash token is forty capital Z
characters: forty characters long, but not lowercase hex. -/
def zHashLine : List Char :=
  ("-rw-r--r-- u g 2024-01-02 03:04:05 +0000 5 "
    ++ String.mk (List.replicate 40 'Z') ++ " f").data

/-- The element `zHashLine` parses to. -/
def zHashElem : FilesystemElement :=
  ⟨FileType.regular, 420, "u", "g", timegmModel ⟨2024, 1, 2, 3, 4, 5⟩, 5,
    String.mk (List.replicate 40 'Z'), ["f"], ""⟩

/-- A regular-file manifest line whose hash token is `*`. -/
def starHashLine : List Char :=
  "-rw-r--r-- u g 2024-01-02 03:04:05 +0000 5 * f".data

/-- Manifest lines exercising each deviation listed by the claim. -/
def badPermLine : List Char :=
  "-rw-r--r-q u g 2024-01-02 03:04:05 +0000 5 * f".data

def badTypeLine : List Char :=
  "zrw-r--r-- u g 2024-01-02 03:04:05 +0000 5 * f".data

def badDateLine : List Char :=
  "-rw-r--r-- u g 2024-13-02 03:04:05 +0000 5 * f".data

def shortHashLine : List Char :=
  ("-rw-r--r-- u g 2024-01-02 03:04:05 +0000 5 "
    ++ String.mk (List.replicate 39 'a') ++ " f").data

def longHashLine : List Char :=
  ("-rw-r--r-- u g 2024-01-02 03:04:05 +0000 5 "
    ++ String.mk (List.replicate 41 'a') ++ " f").data

def trailingLine : List Char :=
  "drwxr-xr-x u g 2024-01-02 03:04:05 +0000 \"d\" x".data

set_option maxRecDepth 4000 in
/-- C7: counterexample.  The claim states that a hash token other than
`*` is accepted only if it is exactly 40 lowercase hexadecimal
characters, but `FilesystemElement::readFrom` checks only the length
(`hash.length() != 40`), never that the characters are hexadecimal: a
line whose hash token is forty capital `Z` characters parses
successfully into a regular-file element carrying that 40-character
non-hex hash. -/
theorem C7_nonhex_hash_accepted_counterexample :
    elemReadFrom zHashLine "f" 1 = Except.ok zHashElem ∧
    zHashElem.fileHash.length = 40 ∧
    zHashElem.fileHash.data.all lowerHexChar = false := by
  refine ⟨by decide, by decide, by decide⟩

set_option maxRecDepth 4000 in
/-- C7 (amended): when parsing a regular-file manifest line, a hash
token equal to `*` produces an element with an empty (omitted) hash; any
other hash token is accepted exactly when it is 40 characters long (the
characters are NOT checked to be lowercase hexadecimal); every parse
error carries the metadata file name, the line number and the offending
source line, and each deviation named by the claim (malformed
permission string, unknown type character, bad date, short or long
hash, extra trailing characters) makes the parse fail. -/
theorem C7_hash_and_error_reporting_amended :
    (∀ (line : List Char) (fn : String) (no : Int) (r : ParseErr),
        elemReadFrom line fn no = Except.error r →
        r.file = fn ∧ r.lineNo = no ∧ r.raw = line) ∧
    (∀ (line : List Char) (fn : String) (no : Int)
        (e : FilesystemElement),
        elemReadFrom line fn no = Except.ok e →
        e.fileHash = "" ∨ e.fileHash.length = 40) ∧
    (elemReadFrom starHashLine "f" 1).toOption.map
        (fun e => e.fileHash) = some "" ∧
    (elemReadFrom badPermLine "f" 2).toOption = none ∧
    (elemReadFrom badTypeLine "f" 3).toOption = none ∧
    (elemReadFrom badDateLine "f" 4).toOption = none ∧
    (elemReadFrom shortHashLine "f" 5).toOption = none ∧
    (elemReadFrom longHashLine "f" 6).toOption = none ∧
    (elemReadFrom trailingLine "f" 7).toOption = none := by
  refine ⟨fun line fn no r h => elemReadFrom_err h,
    fun line fn no e h => elemReadFrom_ok_hash h,
    by decide, by decide, by decide, by decide, by decide, by decide,
    by decide⟩

/-- The error produced by `badPermLine`. -/
def badPermErr : ParseErr :=
  ⟨"Permissions not correct", "f", 2, badPermLine⟩

set_option maxRecDepth 4000 in
/-- C7: witness for the amended theorem at concrete inputs. -/
theorem C7_hash_and_error_reporting_amended_witness :
    (badPermErr.file = "f" ∧ badPermErr.lineNo = 2 ∧
      badPermErr.raw = badPermLine) ∧
    (zHashElem.fileHash = "" ∨ zHashElem.fileHash.length = 40) :=
  ⟨C7_hash_and_error_reporting_amended.1 badPermLine "f" 2 badPermErr
      (by decide),
    C7_hash_and_error_reporting_amended.2.1 zHashLine "f" 1 zHashElem
      (by decide)⟩


inductive DirectoryNode : Type where
  | mk (elem : FilesystemElement) (content : List DirectoryNode) : DirectoryNode
deriving Repr

def DirectoryNode.elem : DirectoryNode → FilesystemElement
  | .mk e _ => e

def DirectoryNode.content : DirectoryNode → List DirectoryNode
  | .mk _ c => c

theorem DirectoryNode.eta (n : DirectoryNode) :
    DirectoryNode.mk n.elem n.content = n := by
  cases n
  rfl

mutual
def dnDecEq : (a b : DirectoryNode) → Decidable (a = b)
  | .mk e1 c1, .mk e2 c2 =>
    match decEq e1 e2 with
    | .isTrue he =>
      match dnListDecEq c1 c2 with
      | .isTrue hc => .isTrue (by rw [he, hc])
      | .isFalse hc => .isFalse (by intro h; cases h; exact hc rfl)
    | .isFalse he => .isFalse (by intro h; cases h; exact he rfl)
def dnListDecEq : (a b : List DirectoryNode) → Decidable (a = b)
  | [], [] => .isTrue rfl
  | [], _ :: _ => .isFalse (by intro h; cases h)
  | _ :: _, [] => .isFalse (by intro h; cases h)
  | x :: xs, y :: ys =>
    match dnDecEq x y with
    | .isTrue hx =>
      match dnListDecEq xs ys with
      | .isTrue hxs => .isTrue (by rw [hx, hxs])
      | .isFalse hxs => .isFalse (by intro h; cases h; exact hxs rfl)
    | .isFalse hx => .isFalse (by intro h; cases h; exact hx rfl)
end

instance : DecidableEq DirectoryNode := dnDecEq

mutual
/-- All nodes of a subtree, the node itself first (the contents of the flat
`index` of `DirectoryTree`, restricted to this subtree). -/
def nodeAll : DirectoryNode → List DirectoryNode
  | .mk e c => .mk e c :: forestAll c

/-- All nodes of a forest (the contents of the flat `index`). -/
def forestAll : List DirectoryNode → List DirectoryNode
  | [] => []
  | n :: ns => nodeAll n ++ forestAll ns
end

/-- Flat index lookup: `index.find(p)` + `getElement()`. -/
def lookupF (l : List DirectoryNode) (p : List String) : Option FilesystemElement :=
  ((forestAll l).find? (fun n => n.elem.rp == p)).map (·.elem)

/-- Order-independent version of a successful index lookup. -/
def HasElem (l : List DirectoryNode) (p : List String) (e : FilesystemElement) :
    Prop :=
  ∃ m ∈ forestAll l, m.elem.rp = p ∧ m.elem = e

/-! ## The well-formedness invariant of `DirectoryTree`

The source maintains (and asserts) that every node sits in the index at its
own `relativePath`, that a node's `relativePath` is its parent's path plus
one nonempty component, that sibling paths are distinct, and that only
directories have content. -/

inductive ForestWF : List String → List DirectoryNode → Prop where
  | mk (pp : List String) (ns : List DirectoryNode)
      (hshape : ∀ n ∈ ns, ∃ nm, nm ≠ "" ∧ n.elem.rp = pp ++ [nm])
      (hnodup : (ns.map (·.elem.rp)).Nodup)
      (hleaf : ∀ n ∈ ns, n.elem.ty ≠ FileType.directory → n.content = [])
      (hrec : ∀ n ∈ ns, ForestWF n.elem.rp n.content) : ForestWF pp ns

theorem ForestWF.shape {pp ns} (h : ForestWF pp ns) :
    ∀ n ∈ ns, ∃ nm, nm ≠ "" ∧ n.elem.rp = pp ++ [nm] := by
  cases h; assumption

theorem ForestWF.nodup {pp ns} (h : ForestWF pp ns) :
    (ns.map (·.elem.rp)).Nodup := by
  cases h; assumption

theorem ForestWF.leaf {pp ns} (h : ForestWF pp ns) :
    ∀ n ∈ ns, n.elem.ty ≠ FileType.directory → n.content = [] := by
  cases h; assumption

theorem ForestWF.rec' {pp ns} (h : ForestWF pp ns) :
    ∀ n ∈ ns, ForestWF n.elem.rp n.content := by
  cases h; assumption

/-! Basic membership lemmas. -/

theorem mem_forestAll_iff {m : DirectoryNode} {ns : List DirectoryNode} :
    m ∈ forestAll ns ↔ ∃ n ∈ ns, m = n ∨ m ∈ forestAll n.content := by
  induction ns with
  | nil => simp [forestAll]
  | cons x xs ih =>
    cases x with
    | mk e c =>
      simp only [forestAll, nodeAll, List.mem_append, List.mem_cons, ih]
      constructor
      · rintro ((h | h) | ⟨n, hn, h⟩)
        · exact ⟨.mk e c, Or.inl rfl, Or.inl h⟩
        · exact ⟨.mk e c, Or.inl rfl, Or.inr h⟩
        · exact ⟨n, Or.inr hn, h⟩
      · rintro ⟨n, (rfl | hn), h⟩
        · rcases h with h | h
          · exact Or.inl (Or.inl h)
          · exact Or.inl (Or.inr h)
        · exact Or.inr ⟨n, hn, h⟩

theorem self_mem_forestAll {n : DirectoryNode} {ns : List DirectoryNode}
    (h : n ∈ ns) : n ∈ forestAll ns := by
  rw [mem_forestAll_iff]
  exact ⟨n, h, Or.inl rfl⟩

theorem sub_mem_forestAll {m n : DirectoryNode} {ns : List DirectoryNode}
    (hn : n ∈ ns) (hm : m ∈ forestAll n.content) : m ∈ forestAll ns := by
  rw [mem_forestAll_iff]
  exact ⟨n, hn, Or.inr hm⟩

/-- In a well-formed forest below `pp`, every indexed node's path strictly
extends `pp`. -/
theorem ForestWF.path_extends {pp ns} (h : ForestWF pp ns) :
    ∀ m ∈ forestAll ns, pp <+: m.elem.rp ∧ pp.length < m.elem.rp.length := by
  induction h with
  | mk pp ns hshape hnodup hleaf hrec ih =>
    intro m hm
    rw [mem_forestAll_iff] at hm
    obtain ⟨n, hn, rfl | hsub⟩ := hm
    · obtain ⟨nm, -, hrp⟩ := hshape m hn
      rw [hrp]
      exact ⟨⟨[nm], rfl⟩, by simp⟩
    · obtain ⟨hpre, hlen⟩ := ih n hn m hsub
      obtain ⟨nm, -, hrp⟩ := hshape n hn
      rw [hrp] at hpre hlen
      constructor
      · exact List.IsPrefix.trans ⟨[nm], rfl⟩ hpre
      · simp at hlen
        omega

/-- A node of the flat index whose path has length `pp.length + 1` is a
top-level sibling. -/
theorem ForestWF.top_of_len {pp ns} (h : ForestWF pp ns) :
    ∀ m ∈ forestAll ns, m.elem.rp.length = pp.length + 1 → m ∈ ns := by
  intro m hm hlen
  rw [mem_forestAll_iff] at hm
  obtain ⟨n, hn, rfl | hsub⟩ := hm
  · exact hn
  · obtain ⟨-, hl⟩ := (h.rec' n hn).path_extends m hsub
    obtain ⟨nm, -, hrp⟩ := h.shape n hn
    rw [hrp] at hl
    simp at hl
    omega

/-- Every indexed node descends from a unique top-level sibling, determined
by the first `pp.length + 1` components of its path. -/
theorem ForestWF.anchor {pp ns} (h : ForestWF pp ns) {m : DirectoryNode}
    (hm : m ∈ forestAll ns) :
    ∃ n ∈ ns, (m = n ∨ m ∈ forestAll n.content) ∧
      n.elem.rp = m.elem.rp.take (pp.length + 1) := by
  rw [mem_forestAll_iff] at hm
  obtain ⟨n, hn, hcase⟩ := hm
  refine ⟨n, hn, hcase, ?_⟩
  obtain ⟨nm, -, hrp⟩ := h.shape n hn
  rcases hcase with rfl | hsub
  · rw [hrp]
    simp
  · obtain ⟨⟨t, ht⟩, -⟩ := (h.rec' n hn).path_extends m hsub
    rw [← ht, hrp]
    have hlen : (pp ++ [nm]).length = pp.length + 1 := by simp
    rw [← hlen, List.take_left]

/-- The flat index of a well-formed tree is injective on paths: two indexed
nodes with the same path are the same node. -/
theorem ForestWF.index_unique {pp ns} (h : ForestWF pp ns) :
    ∀ m1 ∈ forestAll ns, ∀ m2 ∈ forestAll ns,
      m1.elem.rp = m2.elem.rp → m1 = m2 := by
  induction h with
  | mk pp ns hshape hnodup hleaf hrec ih =>
    intro m1 hm1 m2 hm2 heq
    have hwf : ForestWF pp ns := ForestWF.mk pp ns hshape hnodup hleaf hrec
    obtain ⟨n1, hn1, hc1, ha1⟩ := hwf.anchor hm1
    obtain ⟨n2, hn2, hc2, ha2⟩ := hwf.anchor hm2
    have hn12 : n1 = n2 := by
      have : n1.elem.rp = n2.elem.rp := by rw [ha1, ha2, heq]
      exact List.inj_on_of_nodup_map hnodup hn1 hn2 this
    subst hn12
    have hleq := congrArg List.length heq
    rcases hc1 with rfl | hs1
    · rcases hc2 with rfl | hs2
      · rfl
      · obtain ⟨-, hl⟩ := (hrec m1 hn1).path_extends m2 hs2
        omega
    · rcases hc2 with rfl | hs2
      · obtain ⟨-, hl⟩ := (hrec m2 hn2).path_extends m1 hs1
        omega
      · exact ih n1 hn1 m1 hs1 m2 hs2 heq

/-- `lookupF` agrees with the order-independent `HasElem` on well-formed
forests. -/
theorem ForestWF.lookup_iff {pp ns} (h : ForestWF pp ns)
    {p : List String} {e : FilesystemElement} :
    lookupF ns p = some e ↔ HasElem ns p e := by
  unfold lookupF HasElem
  constructor
  · intro hl
    obtain ⟨m, hfind, rfl⟩ := Option.map_eq_some'.mp hl
    refine ⟨m, List.mem_of_find?_eq_some hfind, ?_, rfl⟩
    have := List.find?_some hfind
    simpa using this
  · rintro ⟨m, hm, hrp, rfl⟩
    have hsome : ((forestAll ns).find? (fun n => n.elem.rp == p)).isSome := by
      rw [List.find?_isSome]
      exact ⟨m, hm, by simpa using hrp⟩
    obtain ⟨m', hm'⟩ := Option.isSome_iff_exists.mp hsome
    have hmem' := List.mem_of_find?_eq_some hm'
    have hrp' : m'.elem.rp = p := by simpa using List.find?_some hm'
    rw [hm']
    have : m' = m := h.index_unique m' hmem' m hm (by rw [hrp', hrp])
    rw [this]
    rfl

theorem lookupF_isSome_iff {ns : List DirectoryNode} {p : List String} :
    (lookupF ns p).isSome ↔ ∃ e, HasElem ns p e := by
  unfold lookupF HasElem
  rw [Option.isSome_map', List.find?_isSome]
  constructor
  · rintro ⟨m, hm, hp⟩
    exact ⟨m.elem, m, hm, by simpa using hp, rfl⟩
  · rintro ⟨e, m, hm, hrp, rfl⟩
    exact ⟨m, hm, by simpa using hrp⟩

theorem hasElem_cases {ns : List DirectoryNode} {p : List String}
    {e : FilesystemElement} :
    HasElem ns p e ↔ (∃ n ∈ ns, n.elem.rp = p ∧ n.elem = e) ∨
      (∃ n ∈ ns, HasElem n.content p e) := by
  unfold HasElem
  constructor
  · rintro ⟨m, hm, hrp, rfl⟩
    rw [mem_forestAll_iff] at hm
    obtain ⟨n, hn, rfl | hsub⟩ := hm
    · exact Or.inl ⟨m, hn, hrp, rfl⟩
    · exact Or.inr ⟨n, hn, m, hsub, hrp, rfl⟩
  · rintro (⟨n, hn, hrp, rfl⟩ | ⟨n, hn, m, hm, hrp, rfl⟩)
    · exact ⟨n, self_mem_forestAll hn, hrp, rfl⟩
    · exact ⟨m, sub_mem_forestAll hn hm, hrp, rfl⟩



/-! ## The two-way diff engine (`Diff2Helper::recursiveCompare`)

The source iterates over an `unordered_set` union of the sibling names of
the current level and looks each name up in the flat per-tree indices.
Iteration order of the `unordered_set` is unspecified; the embedding uses
first-occurrence order.  By `ForestWF.index_unique`, a flat-index lookup of
a sibling path equals the lookup in the sibling list itself, which is what
the embedding uses (this also gives the termination measure of the
recursion its structure). -/

abbrev Diff2Line := Option FilesystemElement × Option FilesystemElement

def dedupGo : List (List String) → List (List String) → List (List String)
  | [], _ => []
  | x :: xs, seen =>
    if x ∈ seen then dedupGo xs seen else x :: dedupGo xs (x :: seen)

/-- The union of sibling names of one level (as full relative paths). -/
def diff2Names (a b : List DirectoryNode) : List (List String) :=
  dedupGo (a.map (·.elem.rp) ++ b.map (·.elem.rp)) []

/-- Sibling-list lookup of a full relative path. -/
def findRp (l : List DirectoryNode) (p : List String) : Option DirectoryNode :=
  l.find? (fun n => n.elem.rp == p)

/-- The diff line for one name, from the two lookup results. -/
def diff2LineForCore (opt : CompareOpt) :
    Option DirectoryNode → Option DirectoryNode → Option Diff2Line
  | some na, some nb =>
    if compare na.elem nb.elem opt then none
    else some (some na.elem, some nb.elem)
  | none, some nb => some (none, some nb.elem)
  | some na, none => some (some na.elem, none)
  | none, none => none

/-- The diff line (if any) for one name of the current level. -/
def diff2LineFor (opt : CompareOpt) (a b : List DirectoryNode)
    (p : List String) : Option Diff2Line :=
  diff2LineForCore opt (findRp a p) (findRp b p)

/-- The pair of directories for one name, when both sides have one. -/
def diff2CommonDirsCore :
    Option DirectoryNode → Option DirectoryNode →
      Option (DirectoryNode × DirectoryNode)
  | some na, some nb =>
    if na.elem.isDirectory && nb.elem.isDirectory then some (na, nb) else none
  | _, _ => none

/-- The pruning recursion: the pair of directories for one name, when both
sides have a directory there. -/
def diff2CommonDirs (a b : List DirectoryNode) (p : List String) :
    Option (DirectoryNode × DirectoryNode) :=
  diff2CommonDirsCore (findRp a p) (findRp b p)

theorem diff2CommonDirs_some {x y : Option DirectoryNode}
    {pr : DirectoryNode × DirectoryNode}
    (h : diff2CommonDirsCore x y = some pr) :
    x = some pr.1 ∧ y = some pr.2 ∧
      pr.1.elem.isDirectory = true ∧ pr.2.elem.isDirectory = true := by
  match x, y with
  | some na, some nb =>
    simp only [diff2CommonDirsCore] at h
    by_cases hd : (na.elem.isDirectory && nb.elem.isDirectory) = true
    · rw [if_pos hd] at h
      obtain rfl := Option.some.inj h
      simp only [Bool.and_eq_true] at hd
      exact ⟨rfl, rfl, hd.1, hd.2⟩
    · rw [if_neg hd] at h
      cases h
  | none, some nb => simp [diff2CommonDirsCore] at h
  | some na, none => simp [diff2CommonDirsCore] at h
  | none, none => simp [diff2CommonDirsCore] at h

theorem diff2CommonDirs_mem {a b : List DirectoryNode} {p : List String}
    {pr : DirectoryNode × DirectoryNode}
    (h : diff2CommonDirs a b p = some pr) : pr.1 ∈ a ∧ pr.2 ∈ b := by
  unfold diff2CommonDirs at h
  obtain ⟨h1, h2, -, -⟩ := diff2CommonDirs_some h
  exact ⟨List.mem_of_find?_eq_some h1, List.mem_of_find?_eq_some h2⟩

theorem sizeOf_content_lt (n : DirectoryNode) : sizeOf n.content < sizeOf n := by
  cases n with
  | mk e c =>
    simp only [DirectoryNode.content, DirectoryNode.mk.sizeOf_spec]
    omega

/-- `Diff2Helper::recursiveCompare` (core.cpp:761): lines of the current
level first, then recursion into the common directories. -/
def diff2Rec (opt : CompareOpt) (a b : List DirectoryNode) : List Diff2Line :=
  let names := diff2Names a b
  let lines := names.filterMap (diff2LineFor opt a b)
  let dirs := names.filterMap (diff2CommonDirs a b)
  lines ++ dirs.attach.flatMap
    (fun x => diff2Rec opt x.1.1.content x.1.2.content)
termination_by sizeOf a + sizeOf b
decreasing_by
  obtain ⟨q, -, hq2⟩ := List.mem_filterMap.mp x.2
  obtain ⟨h1, h2⟩ := diff2CommonDirs_mem hq2
  have s1 : sizeOf x.1.1 < sizeOf a := List.sizeOf_lt_of_mem h1
  have s2 : sizeOf x.1.2 < sizeOf b := List.sizeOf_lt_of_mem h2
  have t1 := sizeOf_content_lt x.1.1
  have t2 := sizeOf_content_lt x.1.2
  omega

/-- `diff2` (core.cpp:793). -/
def diff2 (a b : List DirectoryNode) (opt : CompareOpt) : List Diff2Line :=
  diff2Rec opt a b

theorem compare_refl (e : FilesystemElement) (opt : CompareOpt) :
    compare e e opt = true := by
  unfold compare
  simp

theorem mem_dedupGo {l seen : List (List String)} {x : List String} :
    x ∈ dedupGo l seen ↔ x ∈ l ∧ x ∉ seen := by
  induction l generalizing seen with
  | nil => simp [dedupGo]
  | cons y ys ih =>
    unfold dedupGo
    split
    · rename_i hy
      rw [ih]
      simp only [List.mem_cons]
      constructor
      · rintro ⟨h1, h2⟩
        exact ⟨Or.inr h1, h2⟩
      · rintro ⟨h1 | h1, h2⟩
        · subst h1; exact absurd hy h2
        · exact ⟨h1, h2⟩
    · rename_i hy
      simp only [List.mem_cons, ih, List.mem_cons, not_or]
      constructor
      · rintro (rfl | ⟨h1, h2, h3⟩)
        · exact ⟨Or.inl rfl, hy⟩
        · exact ⟨Or.inr h1, h3⟩
      · rintro ⟨rfl | h1, h2⟩
        · exact Or.inl rfl
        · by_cases hx : x = y
          · exact Or.inl hx
          · exact Or.inr ⟨h1, hx, h2⟩

theorem mem_diff2Names {a b : List DirectoryNode} {p : List String} :
    p ∈ diff2Names a b ↔
      (∃ n ∈ a, n.elem.rp = p) ∨ (∃ n ∈ b, n.elem.rp = p) := by
  unfold diff2Names
  rw [mem_dedupGo]
  simp

theorem findRp_eq_some {l : List DirectoryNode} {p : List String}
    {n : DirectoryNode} (hnd : (l.map (·.elem.rp)).Nodup) :
    findRp l p = some n ↔ n ∈ l ∧ n.elem.rp = p := by
  unfold findRp
  constructor
  · intro h
    refine ⟨List.mem_of_find?_eq_some h, ?_⟩
    simpa using List.find?_some h
  · rintro ⟨hm, rfl⟩
    have hsome : (l.find? (fun m => m.elem.rp == n.elem.rp)).isSome := by
      rw [List.find?_isSome]
      exact ⟨n, hm, by simp⟩
    obtain ⟨m, hfind⟩ := Option.isSome_iff_exists.mp hsome
    have hm' := List.mem_of_find?_eq_some hfind
    have hrp : m.elem.rp = n.elem.rp := by simpa using List.find?_some hfind
    rw [hfind, List.inj_on_of_nodup_map hnd hm' hm hrp]

theorem findRp_self {l : List DirectoryNode} {n : DirectoryNode}
    (hnd : (l.map (·.elem.rp)).Nodup) (hm : n ∈ l) :
    findRp l n.elem.rp = some n :=
  (findRp_eq_some hnd).mpr ⟨hm, rfl⟩

theorem findRp_isSome {l : List DirectoryNode} {p : List String} :
    (findRp l p).isSome ↔ ∃ n ∈ l, n.elem.rp = p := by
  unfold findRp
  rw [List.find?_isSome]
  simp

theorem findRp_eq_none {l : List DirectoryNode} {p : List String} :
    findRp l p = none ↔ ∀ n ∈ l, n.elem.rp ≠ p := by
  rw [← Option.not_isSome_iff_eq_none, findRp_isSome]
  push_neg
  rfl

/-- `diff2` of a tree with itself is empty (no well-formedness needed). -/
theorem diff2Rec_self (opt : CompareOpt) (a : List DirectoryNode) :
    diff2Rec opt a a = [] := by
  generalize hn : sizeOf a = n
  induction n using Nat.strong_induction_on generalizing a with
  | _ n ih =>
    subst hn
    rw [diff2Rec]
    simp only [List.append_eq_nil]
    constructor
    · rw [List.filterMap_eq_nil_iff]
      intro p hp
      unfold diff2LineFor
      cases hf : findRp a p with
      | none => simp [diff2LineForCore]
      | some na => simp [diff2LineForCore, compare_refl]
    · rw [List.flatMap_eq_nil_iff]
      rintro ⟨pr, hpr⟩ hmem
      simp only
      obtain ⟨q, -, hq2⟩ := List.mem_filterMap.mp hpr
      unfold diff2CommonDirs at hq2
      obtain ⟨h1, h2, -, -⟩ := diff2CommonDirs_some hq2
      rw [h1] at h2
      have h12 := Option.some.inj h2
      rw [← h12]
      have hm := List.mem_of_find?_eq_some h1
      have hs := List.sizeOf_lt_of_mem hm
      have hc := sizeOf_content_lt pr.1
      exact ih (sizeOf pr.1.content) (by omega) pr.1.content rfl



theorem compare_ty_rp {ea eb : FilesystemElement} {opt : CompareOpt}
    (h : compare ea eb opt = true) : ea.ty = eb.ty ∧ ea.rp = eb.rp := by
  unfold compare at h
  by_cases h1 : (ea.ty != eb.ty || ea.rp != eb.rp) = true
  · rw [if_pos h1] at h
    cases h
  · simpa using h1

theorem compare_isDirectory {ea eb : FilesystemElement} {opt : CompareOpt}
    (h : compare ea eb opt = true) : ea.isDirectory = eb.isDirectory := by
  unfold FilesystemElement.isDirectory
  rw [(compare_ty_rp h).1]

/-- A node with a nonempty indexed subtree is a directory. -/
theorem dir_of_hasElem_content {pp : List String} {ns : List DirectoryNode}
    (h : ForestWF pp ns) {n : DirectoryNode} (hn : n ∈ ns)
    {p : List String} {e : FilesystemElement}
    (he : HasElem n.content p e) : n.elem.isDirectory = true := by
  by_contra hd
  have : n.elem.ty ≠ FileType.directory := by
    intro hty
    unfold FilesystemElement.isDirectory at hd
    rw [hty] at hd
    simp at hd
  rw [h.leaf n hn this] at he
  obtain ⟨m, hm, -⟩ := he
  simp [forestAll] at hm

theorem hasElem_len {pp : List String} {ns : List DirectoryNode}
    (h : ForestWF pp ns) {p : List String} {e : FilesystemElement}
    (he : HasElem ns p e) : pp.length < p.length := by
  obtain ⟨m, hm, hrp, -⟩ := he
  have := (h.path_extends m hm).2
  rw [hrp] at this
  omega

/-- An indexed element whose path has level length is a top-level sibling. -/
theorem hasElem_top_level {pp : List String} {ns : List DirectoryNode}
    (h : ForestWF pp ns) {p : List String} {e : FilesystemElement}
    (he : HasElem ns p e) (hlen : p.length = pp.length + 1) :
    ∃ n ∈ ns, n.elem.rp = p ∧ n.elem = e := by
  rcases hasElem_cases.mp he with htop | ⟨n, hn, hsub⟩
  · exact htop
  · have hl := hasElem_len (h.rec' n hn) hsub
    obtain ⟨nm, -, hrp⟩ := h.shape n hn
    rw [hrp] at hl
    simp at hl
    omega

/-- An indexed element strictly below the level, whose path extends a given
sibling's path, lies in that sibling's subtree. -/
theorem hasElem_sub_level {pp : List String} {ns : List DirectoryNode}
    (h : ForestWF pp ns) {n : DirectoryNode} (hn : n ∈ ns)
    {p : List String} {e : FilesystemElement}
    (he : HasElem ns p e) (hpre : n.elem.rp <+: p)
    (hlen : pp.length + 1 < p.length) : HasElem n.content p e := by
  rcases hasElem_cases.mp he with ⟨m, hm, hrp, hel⟩ | ⟨n', hn', hsub⟩
  · obtain ⟨nm, -, hrp'⟩ := h.shape m hm
    rw [← hrp, hrp'] at hlen
    simp at hlen
  · have hn'n : n' = n := by
      obtain ⟨m, hm, hrp, -⟩ := hsub
      obtain ⟨⟨t1, ht1⟩, -⟩ := (h.rec' n' hn').path_extends m hm
      obtain ⟨nm, -, hshp⟩ := h.shape n hn
      obtain ⟨nm', -, hshp'⟩ := h.shape n' hn'
      have hlen' : n'.elem.rp.length = pp.length + 1 := by rw [hshp']; simp
      have hlen2 : n.elem.rp.length = pp.length + 1 := by rw [hshp]; simp
      have htk1 : p.take (pp.length + 1) = n'.elem.rp := by
        rw [← hrp, ← ht1, ← hlen', List.take_left]
      have htk2 : p.take (pp.length + 1) = n.elem.rp := by
        obtain ⟨t2, ht2⟩ := hpre
        rw [← ht2, ← hlen2, List.take_left]
      exact List.inj_on_of_nodup_map h.nodup hn' hn (by rw [← htk1, htk2])
    rw [hn'n] at hsub
    exact hsub

/-- The relation the spec calls tree equivalence under compare options. -/
def DiffEquiv (a b : List DirectoryNode) (opt : CompareOpt) : Prop :=
  (∀ p, (∃ e, HasElem a p e) ↔ (∃ e, HasElem b p e)) ∧
  (∀ p ea eb, HasElem a p ea → HasElem b p eb → compare ea eb opt = true)

theorem diff2Rec_empty_iff (opt : CompareOpt) : ∀ (k : Nat)
    (pp : List String) (a b : List DirectoryNode), sizeOf a + sizeOf b ≤ k →
    ForestWF pp a → ForestWF pp b →
    (diff2Rec opt a b = [] ↔ DiffEquiv a b opt) := by
  intro k
  induction k using Nat.strong_induction_on with
  | _ k ih =>
    intro pp a b hk ha hb
    constructor
    · -- forward: empty diff implies equivalence
      intro hemp
      rw [diff2Rec] at hemp
      simp only [List.append_eq_nil] at hemp
      obtain ⟨hlines, hrec⟩ := hemp
      rw [List.filterMap_eq_nil_iff] at hlines
      rw [List.flatMap_eq_nil_iff] at hrec
      -- partner function: every top node of a has a compare-equal partner in b
      have hpartner : ∀ n ∈ a, ∃ n' ∈ b, n'.elem.rp = n.elem.rp ∧
          compare n.elem n'.elem opt = true := by
        intro n hn
        have hname : n.elem.rp ∈ diff2Names a b :=
          mem_diff2Names.mpr (Or.inl ⟨n, hn, rfl⟩)
        have hline := hlines _ hname
        unfold diff2LineFor at hline
        rw [findRp_self ha.nodup hn] at hline
        cases hfb : findRp b n.elem.rp with
        | none => rw [hfb] at hline; simp [diff2LineForCore] at hline
        | some n' =>
          rw [hfb] at hline
          simp only [diff2LineForCore] at hline
          by_cases hc : compare n.elem n'.elem opt = true
          · obtain ⟨hm', hrp'⟩ := (findRp_eq_some hb.nodup).mp hfb
            exact ⟨n', hm', hrp', hc⟩
          · rw [if_neg hc] at hline
            cases hline
      have hpartner' : ∀ n' ∈ b, ∃ n ∈ a, n.elem.rp = n'.elem.rp ∧
          compare n.elem n'.elem opt = true := by
        intro n' hn'
        have hname : n'.elem.rp ∈ diff2Names a b :=
          mem_diff2Names.mpr (Or.inr ⟨n', hn', rfl⟩)
        have hline := hlines _ hname
        unfold diff2LineFor at hline
        rw [findRp_self hb.nodup hn'] at hline
        cases hfa : findRp a n'.elem.rp with
        | none => rw [hfa] at hline; simp [diff2LineForCore] at hline
        | some n =>
          rw [hfa] at hline
          simp only [diff2LineForCore] at hline
          by_cases hc : compare n.elem n'.elem opt = true
          · obtain ⟨hm, hrp⟩ := (findRp_eq_some ha.nodup).mp hfa
            exact ⟨n, hm, hrp, hc⟩
          · rw [if_neg hc] at hline
            cases hline
      -- recursive equivalence below a pair of common directories
      have hsubequiv : ∀ n ∈ a, ∀ n' ∈ b, n'.elem.rp = n.elem.rp →
          n.elem.isDirectory = true → n'.elem.isDirectory = true →
          DiffEquiv n.content n'.content opt := by
        intro n hn n' hn' hrp hd hd'
        have hname : n.elem.rp ∈ diff2Names a b :=
          mem_diff2Names.mpr (Or.inl ⟨n, hn, rfl⟩)
        have hcd : diff2CommonDirs a b n.elem.rp = some (n, n') := by
          unfold diff2CommonDirs
          rw [findRp_self ha.nodup hn, ← hrp, findRp_self hb.nodup hn']
          simp [diff2CommonDirsCore, hd, hd']
        have hmemd : (n, n') ∈
            (diff2Names a b).filterMap (diff2CommonDirs a b) :=
          List.mem_filterMap.mpr ⟨n.elem.rp, hname, hcd⟩
        have hz := hrec ⟨(n, n'), hmemd⟩ (List.mem_attach _ _)
        simp only at hz
        have hwa : ForestWF n.elem.rp n.content := ha.rec' n hn
        have hwb : ForestWF n.elem.rp n'.content := by
          have := hb.rec' n' hn'
          rw [hrp] at this
          exact this
        have hsz : sizeOf n.content + sizeOf n'.content < k := by
          have s1 := List.sizeOf_lt_of_mem hn
          have s2 := List.sizeOf_lt_of_mem hn'
          have t1 := sizeOf_content_lt n
          have t2 := sizeOf_content_lt n'
          omega
        exact ((ih (sizeOf n.content + sizeOf n'.content) hsz n.elem.rp
          n.content n'.content le_rfl hwa hwb).mp hz)
      constructor
      · intro p
        constructor
        · rintro ⟨e, he⟩
          rcases hasElem_cases.mp he with ⟨n, hn, hrp, hel⟩ | ⟨n, hn, hsub⟩
          · obtain ⟨n', hn', hrp', -⟩ := hpartner n hn
            exact ⟨n'.elem, hasElem_cases.mpr (Or.inl ⟨n', hn', by rw [hrp', hrp], rfl⟩)⟩
          · have hd := dir_of_hasElem_content ha hn hsub
            obtain ⟨n', hn', hrp', hcmp⟩ := hpartner n hn
            have hd' : n'.elem.isDirectory = true := by
              rw [← compare_isDirectory hcmp]
              exact hd
            obtain ⟨heq, -⟩ := hsubequiv n hn n' hn' hrp' hd hd'
            obtain ⟨e', he'⟩ := (heq p).mp ⟨e, hsub⟩
            exact ⟨e', hasElem_cases.mpr (Or.inr ⟨n', hn', he'⟩)⟩
        · rintro ⟨e, he⟩
          rcases hasElem_cases.mp he with ⟨n', hn', hrp', hel⟩ | ⟨n', hn', hsub⟩
          · obtain ⟨n, hn, hrp, -⟩ := hpartner' n' hn'
            exact ⟨n.elem, hasElem_cases.mpr (Or.inl ⟨n, hn, by rw [hrp, hrp'], rfl⟩)⟩
          · have hd' := dir_of_hasElem_content hb hn' hsub
            obtain ⟨n, hn, hrp, hcmp⟩ := hpartner' n' hn'
            have hd : n.elem.isDirectory = true := by
              rw [compare_isDirectory hcmp]
              exact hd'
            obtain ⟨heq, -⟩ := hsubequiv n hn n' hn' hrp.symm hd hd'
            obtain ⟨e', he'⟩ := (heq p).mpr ⟨e, hsub⟩
            exact ⟨e', hasElem_cases.mpr (Or.inr ⟨n, hn, he'⟩)⟩
      · intro p ea eb hea heb
        rcases hasElem_cases.mp hea with ⟨n, hn, hrp, hel⟩ | ⟨n, hn, hsub⟩
        · -- top on the a side: the b side must be top as well
          have hlen : p.length = pp.length + 1 := by
            obtain ⟨nm, -, hshp⟩ := ha.shape n hn
            rw [← hrp, hshp]
            simp
          obtain ⟨n', hn', hrp', hel'⟩ := hasElem_top_level hb heb hlen
          obtain ⟨n'', hn'', hrp'', hcmp⟩ := hpartner n hn
          have : n'' = n' := List.inj_on_of_nodup_map hb.nodup hn'' hn'
            (by rw [hrp'', hrp, hrp'])
          rw [← hel, ← hel', ← this]
          exact hcmp
        · -- below the level on the a side
          have hd := dir_of_hasElem_content ha hn hsub
          obtain ⟨n', hn', hrp', hcmp⟩ := hpartner n hn
          have hd' : n'.elem.isDirectory = true := by
            rw [← compare_isDirectory hcmp]
            exact hd
          have hlen : pp.length + 1 < p.length := by
            have := hasElem_len (ha.rec' n hn) hsub
            obtain ⟨nm, -, hshp⟩ := ha.shape n hn
            rw [hshp] at this
            simp at this
            omega
          have hpre : n'.elem.rp <+: p := by
            rw [hrp']
            obtain ⟨m, hm, hrpm, -⟩ := hsub
            have := ((ha.rec' n hn).path_extends m hm).1
            rw [hrpm] at this
            exact this
          have hsub' : HasElem n'.content p eb :=
            hasElem_sub_level hb hn' heb hpre hlen
          obtain ⟨-, hcomp⟩ := hsubequiv n hn n' hn' hrp' hd hd'
          exact hcomp p ea eb hsub hsub'
    · -- backward: equivalence implies empty diff
      rintro ⟨hiff, hcomp⟩
      rw [diff2Rec]
      simp only [List.append_eq_nil]
      constructor
      · rw [List.filterMap_eq_nil_iff]
        intro p hp
        have hfind : ∃ n ∈ a, n.elem.rp = p ∧ (∃ n' ∈ b, n'.elem.rp = p) := by
          rcases mem_diff2Names.mp hp with ⟨n, hn, hrp⟩ | ⟨n', hn', hrp'⟩
          · have h1 : HasElem a p n.elem :=
              ⟨n, self_mem_forestAll hn, hrp, rfl⟩
            obtain ⟨e', he'⟩ := (hiff p).mp ⟨n.elem, h1⟩
            have hlen : p.length = pp.length + 1 := by
              obtain ⟨nm, -, hshp⟩ := ha.shape n hn
              rw [← hrp, hshp]
              simp
            obtain ⟨n', hn', hrp', -⟩ := hasElem_top_level hb he' hlen
            exact ⟨n, hn, hrp, n', hn', hrp'⟩
          · have h1 : HasElem b p n'.elem :=
              ⟨n', self_mem_forestAll hn', hrp', rfl⟩
            obtain ⟨e, he⟩ := (hiff p).mpr ⟨n'.elem, h1⟩
            have hlen : p.length = pp.length + 1 := by
              obtain ⟨nm, -, hshp⟩ := hb.shape n' hn'
              rw [← hrp', hshp]
              simp
            obtain ⟨n, hn, hrp, -⟩ := hasElem_top_level ha he hlen
            exact ⟨n, hn, hrp, n', hn', hrp'⟩
        obtain ⟨n, hn, hrp, n', hn', hrp'⟩ := hfind
        unfold diff2LineFor
        rw [← hrp, findRp_self ha.nodup hn, hrp, ← hrp',
          findRp_self hb.nodup hn']
        simp only [diff2LineForCore]
        rw [if_pos]
        exact hcomp p n.elem n'.elem ⟨n, self_mem_forestAll hn, hrp, rfl⟩
          ⟨n', self_mem_forestAll hn', hrp', rfl⟩
      · rw [List.flatMap_eq_nil_iff]
        rintro ⟨pr, hpr⟩ hmem
        simp only
        obtain ⟨q, hq, hq2⟩ := List.mem_filterMap.mp hpr
        unfold diff2CommonDirs at hq2
        obtain ⟨h1, h2, hd1, hd2⟩ := diff2CommonDirs_some hq2
        obtain ⟨hm1, hrp1⟩ := (findRp_eq_some ha.nodup).mp h1
        obtain ⟨hm2, hrp2⟩ := (findRp_eq_some hb.nodup).mp h2
        have hwa : ForestWF pr.1.elem.rp pr.1.content := ha.rec' pr.1 hm1
        have hwb : ForestWF pr.1.elem.rp pr.2.content := by
          have := hb.rec' pr.2 hm2
          rw [hrp2, ← hrp1] at this
          exact this
        have hsz : sizeOf pr.1.content + sizeOf pr.2.content < k := by
          have s1 := List.sizeOf_lt_of_mem hm1
          have s2 := List.sizeOf_lt_of_mem hm2
          have t1 := sizeOf_content_lt pr.1
          have t2 := sizeOf_content_lt pr.2
          omega
        refine (ih (sizeOf pr.1.content + sizeOf pr.2.content) hsz
          pr.1.elem.rp pr.1.content pr.2.content le_rfl hwa hwb).mpr ⟨?_, ?_⟩
        · intro p
          have hlen1 : pr.1.elem.rp.length = pp.length + 1 := by
            obtain ⟨nm, -, hshp⟩ := ha.shape pr.1 hm1
            rw [hshp]
            simp
          constructor
          · rintro ⟨e, he⟩
            have hlift : HasElem a p e := hasElem_cases.mpr (Or.inr ⟨pr.1, hm1, he⟩)
            obtain ⟨e', he'⟩ := (hiff p).mp ⟨e, hlift⟩
            have hlen : pp.length + 1 < p.length := by
              have := hasElem_len hwa he
              omega
            have hpre : pr.2.elem.rp <+: p := by
              rw [hrp2, ← hrp1]
              obtain ⟨m, hm, hrpm, -⟩ := he
              have := (hwa.path_extends m hm).1
              rw [hrpm] at this
              exact this
            exact ⟨e', hasElem_sub_level hb hm2 he' hpre hlen⟩
          · rintro ⟨e, he⟩
            have hlift : HasElem b p e := hasElem_cases.mpr (Or.inr ⟨pr.2, hm2, he⟩)
            obtain ⟨e', he'⟩ := (hiff p).mpr ⟨e, hlift⟩
            have hlen : pp.length + 1 < p.length := by
              have := hasElem_len hwb he
              omega
            have hpre : pr.1.elem.rp <+: p := by
              obtain ⟨m, hm, hrpm, -⟩ := he
              have := (hwb.path_extends m hm).1
              rw [hrpm] at this
              exact this
            exact ⟨e', hasElem_sub_level ha hm1 he' hpre hlen⟩
        · intro p ea eb hea heb
          have hlifta : HasElem a p ea := hasElem_cases.mpr (Or.inr ⟨pr.1, hm1, hea⟩)
          have hliftb : HasElem b p eb := hasElem_cases.mpr (Or.inr ⟨pr.2, hm2, heb⟩)
          exact hcomp p ea eb hlifta hliftb



/-! ## Tree mutation: `removeFromTree` and supporting machinery -/

theorem feEq_refl (e : FilesystemElement) : feEq e e = true := by
  unfold feEq
  simp

theorem feEq_rp {a b : FilesystemElement} (h : feEq a b = true) :
    a.rp = b.rp := by
  unfold feEq at h
  simp only [Bool.and_eq_true, beq_iff_eq] at h
  exact h.1.1.2

/-- `DirectoryNode::removeFromDirectoryContent` (core.cpp:285). -/
def removeFromDirectoryContent (content : List DirectoryNode)
    (removeElem : FilesystemElement) : List DirectoryNode :=
  content.filter (fun n => !(feEq n.elem removeElem))

mutual
/-- Structural update of the node at path `p` (stand-in for the in-place
mutation through the flat index pointer; by `ForestWF.index_unique` the
indexed node at `p` is the node at structural position `p`). -/
def updAtN (p : List String) (f : DirectoryNode → DirectoryNode) :
    DirectoryNode → DirectoryNode
  | DirectoryNode.mk e cs =>
    if e.rp = p then f (DirectoryNode.mk e cs)
    else if e.rp <+: p then DirectoryNode.mk e (updAtF p f cs)
    else DirectoryNode.mk e cs

/-- List version of `updAtN`. -/
def updAtF (p : List String) (f : DirectoryNode → DirectoryNode) :
    List DirectoryNode → List DirectoryNode
  | [] => []
  | n :: ns => updAtN p f n :: updAtF p f ns
end

theorem updAtN_def (p : List String) (f : DirectoryNode → DirectoryNode)
    (n : DirectoryNode) :
    updAtN p f n = if n.elem.rp = p then f n
      else if n.elem.rp <+: p then
        DirectoryNode.mk n.elem (updAtF p f n.content)
      else n := by
  cases n
  rfl

theorem updAtF_eq_map (p : List String) (f : DirectoryNode → DirectoryNode)
    (ns : List DirectoryNode) : updAtF p f ns = ns.map (updAtN p f) := by
  induction ns with
  | nil => rfl
  | cons n ns ih => rw [updAtF, List.map_cons, ih]

/-- `DirectoryTree::removeFromTree` (core.cpp:441).  Throwing is modelled by
`none`; the `assert(it2!=index.end())` for a missing parent is modelled the
same way. -/
def removeFromTree (t : List DirectoryNode) (relativePath : List String) :
    Option (List DirectoryNode) :=
  match lookupF t relativePath with
  | none => none
  | some removeElem =>
    let parent := relativePath.dropLast
    if parent = [] then
      some (t.filter (fun n => !(feEq n.elem removeElem)))
    else
      if (lookupF t parent).isSome then
        some (updAtF parent
          (fun n => DirectoryNode.mk n.elem
            (removeFromDirectoryContent n.content removeElem)) t)
      else none

theorem dedupGo_nodup (l seen : List (List String)) :
    (dedupGo l seen).Nodup := by
  induction l generalizing seen with
  | nil => simp [dedupGo]
  | cons x xs ih =>
    unfold dedupGo
    split
    · exact ih seen
    · refine List.Nodup.cons ?_ (ih (x :: seen))
      intro hmem
      exact (mem_dedupGo.mp hmem).2 (List.mem_cons_self x seen)

theorem diff2Names_nodup (a b : List DirectoryNode) :
    (diff2Names a b).Nodup := dedupGo_nodup _ _

theorem filterMap_eq_singleton {α β : Type _} {f : α → Option β}
    {l : List α} {q : α} {x : β} (hnd : l.Nodup) (hq : q ∈ l)
    (hfq : f q = some x) (hrest : ∀ y ∈ l, y ≠ q → f y = none) :
    l.filterMap f = [x] := by
  induction l with
  | nil => cases hq
  | cons a as ih =>
    rcases List.mem_cons.mp hq with rfl | hq'
    · rw [List.filterMap_cons, hfq]
      have : as.filterMap f = [] := by
        rw [List.filterMap_eq_nil_iff]
        intro y hy
        refine hrest y (List.mem_cons_of_mem _ hy) ?_
        rintro rfl
        exact (List.nodup_cons.mp hnd).1 hy
      rw [this]
    · have ha : f a = none := by
        refine hrest a (List.mem_cons_self a as) ?_
        rintro rfl
        exact (List.nodup_cons.mp hnd).1 hq'
      rw [List.filterMap_cons, ha]
      exact ih (List.nodup_cons.mp hnd).2 hq'
        (fun y hy hne => hrest y (List.mem_cons_of_mem _ hy) hne)

theorem flatMap_eq_of_single {α β : Type _} {g : α → List β} {l : List α}
    {q : α} (hnd : l.Nodup) (hq : q ∈ l)
    (hrest : ∀ y ∈ l, y ≠ q → g y = []) : l.flatMap g = g q := by
  induction l with
  | nil => cases hq
  | cons a as ih =>
    rcases List.mem_cons.mp hq with rfl | hq'
    · rw [List.flatMap_cons]
      have : as.flatMap g = [] := by
        rw [List.flatMap_eq_nil_iff]
        intro y hy
        refine hrest y (List.mem_cons_of_mem _ hy) ?_
        rintro rfl
        exact (List.nodup_cons.mp hnd).1 hy
      rw [this, List.append_nil]
    · have ha : g a = [] := by
        refine hrest a (List.mem_cons_self a as) ?_
        rintro rfl
        exact (List.nodup_cons.mp hnd).1 hq'
      rw [List.flatMap_cons, ha, List.nil_append]
      exact ih (List.nodup_cons.mp hnd).2 hq'
        (fun y hy hne => hrest y (List.mem_cons_of_mem _ hy) hne)

theorem flatMap_attach {α β : Type _} (l : List α) (g : α → List β) :
    l.attach.flatMap (fun x => g x.1) = l.flatMap g := by
  induction l with
  | nil => rfl
  | cons a as ih =>
    rw [List.attach_cons, List.flatMap_cons, List.flatMap_cons]
    simp only [List.flatMap_map]
    congr 1

/-- Removing one sibling from a well-formed level changes `diff2Rec` by
exactly one line. -/
theorem diff2Rec_filter_sibling (opt : CompareOpt) {pp : List String}
    {as : List DirectoryNode} (hwf : ForestWF pp as)
    {t : DirectoryNode} (ht : t ∈ as) :
    diff2Rec opt as (as.filter (fun n => !(feEq n.elem t.elem))) =
        [(some t.elem, none)] ∧
      diff2Rec opt (as.filter (fun n => !(feEq n.elem t.elem))) as =
        [(none, some t.elem)] := by
  set as' := as.filter (fun n => !(feEq n.elem t.elem)) with has'
  have hnd := hwf.nodup
  have hsub : List.Sublist as' as := List.filter_sublist as
  have hnd' : (as'.map (fun n => n.elem.rp)).Nodup :=
    List.Nodup.sublist (List.Sublist.map _ hsub) hnd
  have htmem' : t ∉ as' := by
    intro hmem
    rw [has', List.mem_filter, feEq_refl] at hmem
    simp at hmem
  have hmem' : ∀ n ∈ as, n.elem.rp ≠ t.elem.rp → n ∈ as' := by
    intro n hn hne
    rw [has', List.mem_filter]
    refine ⟨hn, ?_⟩
    cases hfe : feEq n.elem t.elem with
    | false => rfl
    | true => exact absurd (feEq_rp hfe) hne
  have hft : findRp as' t.elem.rp = none := by
    rw [findRp_eq_none]
    intro n hn hrp
    have hn' : n ∈ as := hsub.subset hn
    have : n = t := List.inj_on_of_nodup_map hnd hn' ht hrp
    rw [this] at hn
    exact htmem' hn
  have hnone : ∀ p, findRp as p = none → findRp as' p = none := by
    intro p hp
    rw [findRp_eq_none] at hp ⊢
    exact fun n hn => hp n (hsub.subset hn)
  have hfs : ∀ p n, findRp as p = some n → p ≠ t.elem.rp →
      findRp as' p = some n := by
    intro p n hp hne
    obtain ⟨hm, hrp⟩ := (findRp_eq_some hnd).mp hp
    refine (findRp_eq_some hnd').mpr ⟨hmem' n hm ?_, hrp⟩
    rw [hrp]
    exact hne
  have hl1 : (diff2Names as as').filterMap (diff2LineFor opt as as') =
      [(some t.elem, none)] := by
    refine filterMap_eq_singleton (diff2Names_nodup _ _)
      (mem_diff2Names.mpr (Or.inl ⟨t, ht, rfl⟩)) ?_ ?_
    · unfold diff2LineFor
      rw [findRp_self hnd ht, hft]
      rfl
    · intro y hy hne
      unfold diff2LineFor
      cases hfa : findRp as y with
      | none => rw [hnone y hfa]; rfl
      | some n =>
        rw [hfs y n hfa hne]
        simp [diff2LineForCore, compare_refl]
  have hl2 : (diff2Names as' as).filterMap (diff2LineFor opt as' as) =
      [(none, some t.elem)] := by
    refine filterMap_eq_singleton (diff2Names_nodup _ _)
      (mem_diff2Names.mpr (Or.inr ⟨t, ht, rfl⟩)) ?_ ?_
    · unfold diff2LineFor
      rw [findRp_self hnd ht, hft]
      rfl
    · intro y hy hne
      unfold diff2LineFor
      cases hfa : findRp as y with
      | none => rw [hnone y hfa]; rfl
      | some n =>
        rw [hfs y n hfa hne]
        simp [diff2LineForCore, compare_refl]
  have hd1 : ∀ pr ∈ (diff2Names as as').filterMap (diff2CommonDirs as as'),
      diff2Rec opt pr.1.content pr.2.content = [] := by
    intro pr hpr
    obtain ⟨y, hy, hq2⟩ := List.mem_filterMap.mp hpr
    unfold diff2CommonDirs at hq2
    obtain ⟨h1, h2, -, -⟩ := diff2CommonDirs_some hq2
    by_cases hyt : y = t.elem.rp
    · rw [hyt, hft] at h2
      cases h2
    · rw [hfs y pr.1 h1 hyt] at h2
      have h12 := Option.some.inj h2
      rw [← h12]
      exact diff2Rec_self opt _
  have hd2 : ∀ pr ∈ (diff2Names as' as).filterMap (diff2CommonDirs as' as),
      diff2Rec opt pr.1.content pr.2.content = [] := by
    intro pr hpr
    obtain ⟨y, hy, hq2⟩ := List.mem_filterMap.mp hpr
    unfold diff2CommonDirs at hq2
    obtain ⟨h1, h2, -, -⟩ := diff2CommonDirs_some hq2
    by_cases hyt : y = t.elem.rp
    · rw [hyt, hft] at h1
      cases h1
    · rw [hfs y pr.2 h2 hyt] at h1
      have h12 := Option.some.inj h1
      rw [h12]
      exact diff2Rec_self opt _
  constructor
  · rw [diff2Rec]
    rw [hl1]
    have hfm : ((diff2Names as as').filterMap
        (diff2CommonDirs as as')).attach.flatMap
        (fun x => diff2Rec opt x.1.1.content x.1.2.content) = [] := by
      rw [List.flatMap_eq_nil_iff]
      rintro ⟨pr, hpr⟩ -
      exact hd1 pr hpr
    rw [hfm, List.append_nil]
  · rw [diff2Rec]
    rw [hl2]
    have hfm : ((diff2Names as' as).filterMap
        (diff2CommonDirs as' as)).attach.flatMap
        (fun x => diff2Rec opt x.1.1.content x.1.2.content) = [] := by
      rw [List.flatMap_eq_nil_iff]
      rintro ⟨pr, hpr⟩ -
      exact hd2 pr hpr
    rw [hfm, List.append_nil]

theorem findRp_map_of_elem {u : DirectoryNode → DirectoryNode}
    (hu : ∀ n, (u n).elem = n.elem) (l : List DirectoryNode)
    (y : List String) : findRp (l.map u) y = (findRp l y).map u := by
  induction l with
  | nil => rfl
  | cons n ns ih =>
    unfold findRp at ih ⊢
    rw [List.map_cons]
    cases hb : (n.elem.rp == y) with
    | true =>
      rw [List.find?_cons_of_pos _ (by simpa [hu n] using hb),
        List.find?_cons_of_pos _ (by simpa using hb)]
      rfl
    | false =>
      rw [List.find?_cons_of_neg _ (by simpa [hu n] using hb),
        List.find?_cons_of_neg _ (by simpa using hb)]
      exact ih

/-- Removing an element strictly below the current level, through the
structural update at its parent directory, changes `diff2Rec` by exactly
one line. -/
theorem diff2Rec_updAt_remove (opt : CompareOpt) (e : FilesystemElement) :
    ∀ (k : Nat) (pp : List String) (as : List DirectoryNode) (p : List String),
      sizeOf as ≤ k → ForestWF pp as → HasElem as p e →
      pp.length + 2 ≤ p.length →
      diff2Rec opt as (updAtF p.dropLast
          (fun n => DirectoryNode.mk n.elem
            (removeFromDirectoryContent n.content e)) as) = [(some e, none)] ∧
      diff2Rec opt (updAtF p.dropLast
          (fun n => DirectoryNode.mk n.elem
            (removeFromDirectoryContent n.content e)) as) as
        = [(none, some e)] := by
  intro k
  induction k using Nat.strong_induction_on with
  | _ k ih =>
    intro pp as p hk hwf he hlen
    set g : DirectoryNode → DirectoryNode := fun n => DirectoryNode.mk n.elem
      (removeFromDirectoryContent n.content e) with hg
    set as' := updAtF p.dropLast g as with has'
    have hu : ∀ n, (updAtN p.dropLast g n).elem = n.elem := by
      intro n
      rw [updAtN_def]
      split_ifs <;> rfl
    obtain ⟨m0, hm0, hm0rp, hm0el⟩ := he
    obtain ⟨n1, hn1, -, ha1⟩ := hwf.anchor hm0
    have hn1take : n1.elem.rp = p.take (pp.length + 1) := by
      rw [ha1, hm0rp]
    have hn1len : n1.elem.rp.length = pp.length + 1 := by
      obtain ⟨nm, -, hshp⟩ := hwf.shape n1 hn1
      rw [hshp]
      simp
    have hn1pre : n1.elem.rp <+: p := by
      rw [hn1take]
      exact List.take_prefix _ _
    have hPtake : p.dropLast.take (pp.length + 1) = n1.elem.rp := by
      rw [List.dropLast_eq_take, List.take_take, hn1take]
      congr 1
      omega
    have hsube : HasElem n1.content p e :=
      hasElem_sub_level hwf hn1 ⟨m0, hm0, hm0rp, hm0el⟩ hn1pre (by omega)
    have hdir : n1.elem.isDirectory = true :=
      dir_of_hasElem_content hwf hn1 hsube
    have hother : ∀ n ∈ as, n.elem.rp ≠ n1.elem.rp →
        updAtN p.dropLast g n = n := by
      intro n hn hne
      obtain ⟨nm, -, hshp⟩ := hwf.shape n hn
      have hnlen : n.elem.rp.length = pp.length + 1 := by rw [hshp]; simp
      have hc1 : ¬(n.elem.rp = p.dropLast) := by
        intro hc
        apply hne
        rw [← hPtake, ← hc,
          List.take_of_length_le (by omega : n.elem.rp.length ≤ pp.length + 1)]
      have hc2 : ¬(n.elem.rp <+: p.dropLast) := by
        intro hc
        apply hne
        have hceq := List.prefix_iff_eq_take.mp hc
        rw [hnlen] at hceq
        rw [hceq, hPtake]
      rw [updAtN_def, if_neg hc1, if_neg hc2]
    have hfind : ∀ y, findRp as' y =
        (findRp as y).map (updAtN p.dropLast g) := by
      intro y
      rw [has', updAtF_eq_map]
      exact findRp_map_of_elem hu as y
    have hmaprp : as'.map (fun n => n.elem.rp) =
        as.map (fun n => n.elem.rp) := by
      rw [has', updAtF_eq_map, List.map_map]
      exact List.map_congr_left (fun n _ => by simp [Function.comp, hu n])
    have hnd := hwf.nodup
    have hnd' : (as'.map (fun n => n.elem.rp)).Nodup := by
      rw [hmaprp]
      exact hnd
    set n1' := updAtN p.dropLast g n1 with hn1'
    have hn1'el : n1'.elem = n1.elem := hu n1
    have hkey : diff2Rec opt n1.content n1'.content = [(some e, none)] ∧
        diff2Rec opt n1'.content n1.content = [(none, some e)] := by
      have hwfc : ForestWF n1.elem.rp n1.content := hwf.rec' n1 hn1
      rcases Nat.eq_or_lt_of_le hlen with hbase | hdeep
      · have hP : n1.elem.rp = p.dropLast := by
          rw [hn1take, List.dropLast_eq_take]
          congr 1
          omega
        have hcontent : n1'.content =
            n1.content.filter (fun c => !(feEq c.elem e)) := by
          rw [hn1', updAtN_def, if_pos hP, hg]
          rfl
        obtain ⟨t, htm, htrp, htel⟩ :=
          hasElem_top_level hwfc hsube (by omega)
        rw [hcontent, ← htel]
        exact diff2Rec_filter_sibling opt hwfc htm
      · have hPne : n1.elem.rp ≠ p.dropLast := by
          intro hc
          have hlc := congrArg List.length hc
          rw [hn1len, List.length_dropLast] at hlc
          omega
        have hPpre : n1.elem.rp <+: p.dropLast := by
          rw [List.prefix_iff_eq_take, hn1len, hPtake]
        have hcontent : n1'.content = updAtF p.dropLast g n1.content := by
          rw [hn1', updAtN_def, if_neg hPne, if_pos hPpre]
          rfl
        have hs1 : sizeOf n1 < sizeOf as := List.sizeOf_lt_of_mem hn1
        have hs2 := sizeOf_content_lt n1
        rw [hcontent]
        exact ih (sizeOf n1.content) (by omega) n1.elem.rp n1.content p
          (le_refl _) hwfc hsube (by omega)
    have hfself : findRp as n1.elem.rp = some n1 := findRp_self hnd hn1
    have hfself' : findRp as' n1.elem.rp = some n1' := by
      rw [hfind, hfself]
      rfl
    have hlineNone : ∀ y ∈ diff2Names as as',
        diff2LineFor opt as as' y = none := by
      intro y hy
      unfold diff2LineFor
      rw [hfind y]
      cases hfa : findRp as y with
      | none => rfl
      | some n => simp [diff2LineForCore, hu n, compare_refl]
    have hlineNone2 : ∀ y ∈ diff2Names as' as,
        diff2LineFor opt as' as y = none := by
      intro y hy
      unfold diff2LineFor
      rw [hfind y]
      cases hfa : findRp as y with
      | none => rfl
      | some n => simp [diff2LineForCore, hu n, compare_refl]
    have hpairn1 : diff2CommonDirs as as' n1.elem.rp = some (n1, n1') := by
      unfold diff2CommonDirs
      rw [hfself, hfself']
      simp [diff2CommonDirsCore, hn1'el, hdir]
    have hpairn1' : diff2CommonDirs as' as n1.elem.rp = some (n1', n1) := by
      unfold diff2CommonDirs
      rw [hfself, hfself']
      simp [diff2CommonDirsCore, hn1'el, hdir]
    have hpairOther : ∀ y, y ≠ n1.elem.rp → ∀ pr,
        diff2CommonDirs as as' y = some pr → pr.2 = pr.1 := by
      intro y hne pr hpr
      unfold diff2CommonDirs at hpr
      obtain ⟨h1, h2, -, -⟩ := diff2CommonDirs_some hpr
      rw [hfind y, h1] at h2
      obtain ⟨hm1, hrp1⟩ := (findRp_eq_some hnd).mp h1
      rw [← Option.some.inj h2]
      exact hother pr.1 hm1 (by rw [hrp1]; exact hne)
    have hpairOther2 : ∀ y, y ≠ n1.elem.rp → ∀ pr,
        diff2CommonDirs as' as y = some pr → pr.1 = pr.2 := by
      intro y hne pr hpr
      unfold diff2CommonDirs at hpr
      obtain ⟨h1, h2, -, -⟩ := diff2CommonDirs_some hpr
      rw [hfind y, h2] at h1
      obtain ⟨hm2, hrp2⟩ := (findRp_eq_some hnd).mp h2
      rw [← Option.some.inj h1]
      exact hother pr.2 hm2 (by rw [hrp2]; exact hne)
    have hdnd1 : ((diff2Names as as').filterMap
        (diff2CommonDirs as as')).Nodup := by
      refine List.Nodup.filterMap ?_ (diff2Names_nodup _ _)
      intro y y' pr hpr hpr'
      rw [Option.mem_def] at hpr hpr'
      unfold diff2CommonDirs at hpr hpr'
      obtain ⟨h1, -, -, -⟩ := diff2CommonDirs_some hpr
      obtain ⟨h1', -, -, -⟩ := diff2CommonDirs_some hpr'
      obtain ⟨-, hrp⟩ := (findRp_eq_some hnd).mp h1
      obtain ⟨-, hrp'⟩ := (findRp_eq_some hnd).mp h1'
      rw [← hrp, hrp']
    have hdnd2 : ((diff2Names as' as).filterMap
        (diff2CommonDirs as' as)).Nodup := by
      refine List.Nodup.filterMap ?_ (diff2Names_nodup _ _)
      intro y y' pr hpr hpr'
      rw [Option.mem_def] at hpr hpr'
      unfold diff2CommonDirs at hpr hpr'
      obtain ⟨h1, -, -, -⟩ := diff2CommonDirs_some hpr
      obtain ⟨h1', -, -, -⟩ := diff2CommonDirs_some hpr'
      obtain ⟨-, hrp⟩ := (findRp_eq_some hnd').mp h1
      obtain ⟨-, hrp'⟩ := (findRp_eq_some hnd').mp h1'
      rw [← hrp, hrp']
    constructor
    · rw [diff2Rec]
      rw [List.filterMap_eq_nil_iff.mpr hlineNone, List.nil_append]
      have hmem : (n1, n1') ∈
          (diff2Names as as').filterMap (diff2CommonDirs as as') :=
        List.mem_filterMap.mpr ⟨n1.elem.rp,
          mem_diff2Names.mpr (Or.inl ⟨n1, hn1, rfl⟩), hpairn1⟩
      have hrest : ∀ x ∈ ((diff2Names as as').filterMap
            (diff2CommonDirs as as')).attach,
          x ≠ (⟨(n1, n1'), hmem⟩ : {pr // pr ∈ (diff2Names as as').filterMap
            (diff2CommonDirs as as')}) →
          diff2Rec opt x.1.1.content x.1.2.content = [] := by
        rintro ⟨pr, hpr⟩ - hne
        obtain ⟨y, hy, hq2⟩ := List.mem_filterMap.mp hpr
        by_cases hyt : y = n1.elem.rp
        · subst hyt
          rw [hpairn1] at hq2
          exact absurd (Subtype.ext (Option.some.inj hq2).symm) hne
        · have hps := hpairOther y hyt pr hq2
          show diff2Rec opt pr.1.content pr.2.content = []
          rw [hps]
          exact diff2Rec_self opt _
      rw [flatMap_eq_of_single (List.nodup_attach.mpr hdnd1)
        (List.mem_attach _ ⟨(n1, n1'), hmem⟩) hrest]
      exact hkey.1
    · rw [diff2Rec]
      rw [List.filterMap_eq_nil_iff.mpr hlineNone2, List.nil_append]
      have hmem : (n1', n1) ∈
          (diff2Names as' as).filterMap (diff2CommonDirs as' as) :=
        List.mem_filterMap.mpr ⟨n1.elem.rp,
          mem_diff2Names.mpr (Or.inr ⟨n1, hn1, rfl⟩), hpairn1'⟩
      have hrest : ∀ x ∈ ((diff2Names as' as).filterMap
            (diff2CommonDirs as' as)).attach,
          x ≠ (⟨(n1', n1), hmem⟩ : {pr // pr ∈ (diff2Names as' as).filterMap
            (diff2CommonDirs as' as)}) →
          diff2Rec opt x.1.1.content x.1.2.content = [] := by
        rintro ⟨pr, hpr⟩ - hne
        obtain ⟨y, hy, hq2⟩ := List.mem_filterMap.mp hpr
        by_cases hyt : y = n1.elem.rp
        · subst hyt
          rw [hpairn1'] at hq2
          exact absurd (Subtype.ext (Option.some.inj hq2).symm) hne
        · have hps := hpairOther2 y hyt pr hq2
          show diff2Rec opt pr.1.content pr.2.content = []
          rw [hps]
          exact diff2Rec_self opt _
      rw [flatMap_eq_of_single (List.nodup_attach.mpr hdnd2)
        (List.mem_attach _ ⟨(n1', n1), hmem⟩) hrest]
      exact hkey.2

/-- `removeFromTree` of an existing path produces a tree whose two-way
diffs against the original consist of exactly the removed element. -/
theorem removeFromTree_diff2 (opt : CompareOpt) {t : List DirectoryNode}
    (hwf : ForestWF [] t) {p : List String} {e : FilesystemElement}
    {b : List DirectoryNode} (hlk : lookupF t p = some e)
    (hrm : removeFromTree t p = some b) :
    diff2 t b opt = [(some e, none)] ∧ diff2 b t opt = [(none, some e)] := by
  have he : HasElem t p e := hwf.lookup_iff.mp hlk
  have hplen : 1 ≤ p.length := by
    have hl0 := hasElem_len hwf he
    simp at hl0
    omega
  unfold removeFromTree at hrm
  rw [hlk] at hrm
  simp only at hrm
  by_cases hpl : p.dropLast = []
  · rw [if_pos hpl] at hrm
    have hlen1 : p.length = 1 := by
      have hdp := congrArg List.length hpl
      rw [List.length_dropLast] at hdp
      simp at hdp
      omega
    obtain ⟨n, hn, hnrp, hnel⟩ :=
      hasElem_top_level hwf he (by simpa using hlen1)
    obtain hb := Option.some.inj hrm
    subst hb
    unfold diff2
    rw [← hnel]
    exact diff2Rec_filter_sibling opt hwf hn
  · rw [if_neg hpl] at hrm
    have h2 : 2 ≤ p.length := by
      have h1 : 0 < p.dropLast.length := List.length_pos.mpr hpl
      rw [List.length_dropLast] at h1
      omega
    by_cases hps : (lookupF t p.dropLast).isSome
    · rw [if_pos hps] at hrm
      obtain hb := Option.some.inj hrm
      subst hb
      unfold diff2
      exact diff2Rec_updAt_remove opt e (sizeOf t) [] t p (le_refl _) hwf he
        (by simpa using h2)
    · rw [if_neg hps] at hrm
      cases hrm

/-! ## A decidable well-formedness checker, for concrete witness trees -/

mutual
/-- Boolean check of the `ForestWF` conditions for one node. -/
def nodeWFb : List String → DirectoryNode → Bool
  | pp, DirectoryNode.mk e cs =>
    decide (e.rp = pp ++ [e.rp.getLastD ""]) &&
    decide (e.rp.getLastD "" ≠ "") &&
    (decide (e.ty = FileType.directory) || decide (cs = [])) &&
    decide ((cs.map (fun c => c.elem.rp)).Nodup) &&
    nodesWFb e.rp cs

/-- Boolean check of the `ForestWF` conditions below one level. -/
def nodesWFb : List String → List DirectoryNode → Bool
  | _, [] => true
  | pp, n :: ns => nodeWFb pp n && nodesWFb pp ns
end

/-- Boolean check of `ForestWF` for a whole forest. -/
def treeWFb (ns : List DirectoryNode) : Bool :=
  decide ((ns.map (fun n => n.elem.rp)).Nodup) && nodesWFb [] ns

theorem nodesWFb_all {pp : List String} {ns : List DirectoryNode}
    (h : nodesWFb pp ns = true) : ∀ n ∈ ns, nodeWFb pp n = true := by
  induction ns with
  | nil => simp
  | cons n ns ih =>
    rw [nodesWFb, Bool.and_eq_true] at h
    intro m hm
    rcases List.mem_cons.mp hm with rfl | hm2
    · exact h.1
    · exact ih h.2 m hm2

theorem forestWF_of_b : ∀ (k : Nat) (pp : List String)
    (ns : List DirectoryNode), sizeOf ns ≤ k →
    (ns.map (fun n => n.elem.rp)).Nodup → nodesWFb pp ns = true →
    ForestWF pp ns := by
  intro k
  induction k using Nat.strong_induction_on with
  | _ k ih =>
    intro pp ns hk hnd hb
    have hall := nodesWFb_all hb
    refine ForestWF.mk pp ns ?_ hnd ?_ ?_
    · intro n hn
      have hnode := hall n hn
      cases n with
      | mk e cs =>
        simp only [nodeWFb, Bool.and_eq_true, decide_eq_true_eq] at hnode
        obtain ⟨⟨⟨⟨h1, h2⟩, -⟩, -⟩, -⟩ := hnode
        exact ⟨e.rp.getLastD "", h2, h1⟩
    · intro n hn hne
      have hnode := hall n hn
      cases n with
      | mk e cs =>
        simp only [nodeWFb, Bool.and_eq_true, Bool.or_eq_true,
          decide_eq_true_eq] at hnode
        obtain ⟨⟨⟨⟨-, -⟩, h3⟩, -⟩, -⟩ := hnode
        rcases h3 with h3 | h3
        · exact absurd h3 (by simpa using hne)
        · simpa using h3
    · intro n hn
      have hnode := hall n hn
      have hsz : sizeOf n < sizeOf ns := List.sizeOf_lt_of_mem hn
      cases n with
      | mk e cs =>
        simp only [nodeWFb, Bool.and_eq_true, decide_eq_true_eq] at hnode
        obtain ⟨⟨⟨⟨-, -⟩, -⟩, h4⟩, h5⟩ := hnode
        have hcs : sizeOf cs < sizeOf (DirectoryNode.mk e cs) :=
          sizeOf_content_lt (DirectoryNode.mk e cs)
        exact ih (sizeOf cs) (by omega) e.rp cs (le_refl _) h4 h5

/-- `treeWFb` implies the invariant. -/
theorem treeWF_of_b {ns : List DirectoryNode} (h : treeWFb ns = true) :
    ForestWF [] ns := by
  rw [treeWFb, Bool.and_eq_true, decide_eq_true_eq] at h
  exact forestWF_of_b (sizeOf ns) [] ns (le_refl _) h.1 h.2

/-- A small concrete tree: a directory `d` containing a file `d/f`. -/
def sampleDirElem : FilesystemElement :=
  ⟨FileType.directory, 493, "u", "g", 100, 0, "", ["d"], ""⟩

def sampleFileElem : FilesystemElement :=
  ⟨FileType.regular, 420, "u", "g", 100, 3, "", ["d", "f"], ""⟩

def sampleTree : List DirectoryNode :=
  [DirectoryNode.mk sampleDirElem [DirectoryNode.mk sampleFileElem []]]

/-- **C4.** For well-formed directory trees `a`, `b` and compare options
`opt`, `diff2 a b opt` is empty iff both trees contain the same set of
relative paths and `compare` succeeds with `opt` on every pair of elements
at the same path; in particular `diff2 a a opt` is empty. -/
theorem C4_diff2_empty_iff_equiv (a b : List DirectoryNode)
    (opt : CompareOpt) (ha : ForestWF [] a) (hb : ForestWF [] b) :
    (diff2 a b opt = [] ↔
      ((∀ p, (lookupF a p).isSome ↔ (lookupF b p).isSome) ∧
        ∀ p ea eb, lookupF a p = some ea → lookupF b p = some eb →
          compare ea eb opt = true)) ∧
    diff2 a a opt = [] := by
  constructor
  · rw [show diff2 a b opt = diff2Rec opt a b from rfl,
      diff2Rec_empty_iff opt (sizeOf a + sizeOf b) [] a b (le_refl _) ha hb]
    unfold DiffEquiv
    constructor
    · rintro ⟨h1, h2⟩
      refine ⟨?_, ?_⟩
      · intro p
        rw [lookupF_isSome_iff, lookupF_isSome_iff]
        exact h1 p
      · intro p ea eb hea heb
        exact h2 p ea eb (ha.lookup_iff.mp hea) (hb.lookup_iff.mp heb)
    · rintro ⟨h1, h2⟩
      refine ⟨?_, ?_⟩
      · intro p
        rw [← lookupF_isSome_iff, ← lookupF_isSome_iff]
        exact h1 p
      · intro p ea eb hea heb
        exact h2 p ea eb (ha.lookup_iff.mpr hea) (hb.lookup_iff.mpr heb)
  · exact diff2Rec_self opt a

/-- Witness for C4 on a concrete tree. -/
theorem C4_diff2_empty_iff_equiv_witness :
    diff2 sampleTree sampleTree {} = [] :=
  (C4_diff2_empty_iff_equiv sampleTree sampleTree {}
    (treeWF_of_b (by decide)) (treeWF_of_b (by decide))).2

/-- **C5.** Removing the subtree rooted at a non-root directory path `p`
from a well-formed tree leaves two-way diffs of exactly one line: the
removed element on the side that still has it. -/
theorem C5_remove_subtree_single_line (a b : List DirectoryNode)
    (p : List String) (e : FilesystemElement) (opt : CompareOpt)
    (hwf : ForestWF [] a) (hp : p ≠ []) (hlk : lookupF a p = some e)
    (hdir : e.isDirectory = true) (hrm : removeFromTree a p = some b) :
    diff2 a b opt = [(some e, none)] ∧ diff2 b a opt = [(none, some e)] :=
  removeFromTree_diff2 opt hwf hlk hrm

/-- Witness for C5: removing directory `d` from the sample tree. -/
theorem C5_remove_subtree_single_line_witness :
    diff2 sampleTree [] {} = [(some sampleDirElem, none)] ∧
    diff2 [] sampleTree {} = [(none, some sampleDirElem)] :=
  C5_remove_subtree_single_line sampleTree [] ["d"] sampleDirElem {}
    (treeWF_of_b (by decide)) (by decide) (by decide) (by decide) (by decide)

/-! ## diff3 (`Diff3Helper::recursiveCompare`, core.cpp:801) -/

abbrev Diff3Line :=
  Option FilesystemElement × Option FilesystemElement ×
    Option FilesystemElement

/-- The union of sibling names of one level, across three trees. -/
def diff3Names (a b c : List DirectoryNode) : List (List String) :=
  dedupGo (a.map (·.elem.rp) ++ b.map (·.elem.rp) ++ c.map (·.elem.rp)) []

/-- The diff line (if any) for one name, from the three lookup results.
With all three present a line appears unless slot 0 compares equal to
slot 1 and slot 1 to slot 2; with some missing a line always appears. -/
def diff3LineForCore (opt : CompareOpt) :
    Option DirectoryNode → Option DirectoryNode → Option DirectoryNode →
      Option Diff3Line
  | some na, some nb, some nc =>
    if compare na.elem nb.elem opt && compare nb.elem nc.elem opt then none
    else some (some na.elem, some nb.elem, some nc.elem)
  | some na, some nb, none => some (some na.elem, some nb.elem, none)
  | some na, none, some nc => some (some na.elem, none, some nc.elem)
  | none, some nb, some nc => some (none, some nb.elem, some nc.elem)
  | some na, none, none => some (some na.elem, none, none)
  | none, some nb, none => some (none, some nb.elem, none)
  | none, none, some nc => some (none, none, some nc.elem)
  | none, none, none => none

/-- The `assert(compare(ae,ce,opt))` transitivity check for one name:
`true` when the debug assertion would not fire. -/
def diff3AssertForCore (opt : CompareOpt) :
    Option DirectoryNode → Option DirectoryNode → Option DirectoryNode →
      Bool
  | some na, some nb, some nc =>
    if compare na.elem nb.elem opt && compare nb.elem nc.elem opt then
      compare na.elem nc.elem opt
    else true
  | some _, some _, none => true
  | some _, none, some _ => true
  | none, some _, some _ => true
  | some _, none, none => true
  | none, some _, none => true
  | none, none, some _ => true
  | none, none, none => true

/-- The `commonDrectories` entry for one name: with all three present and
at least two directories, the directory slots (non-directories become
null); with exactly two present, both directories, the two nodes. -/
def diff3CommonDirsCore :
    Option DirectoryNode → Option DirectoryNode → Option DirectoryNode →
      Option (Option DirectoryNode × Option DirectoryNode ×
        Option DirectoryNode)
  | some na, some nb, some nc =>
    if 2 ≤ (if na.elem.isDirectory then 1 else 0) +
        (if nb.elem.isDirectory then 1 else 0) +
        ((if nc.elem.isDirectory then 1 else 0) : Nat) then
      some (if na.elem.isDirectory then some na else none,
        if nb.elem.isDirectory then some nb else none,
        if nc.elem.isDirectory then some nc else none)
    else none
  | some na, some nb, none =>
    if na.elem.isDirectory && nb.elem.isDirectory then
      some (some na, some nb, none)
    else none
  | some na, none, some nc =>
    if na.elem.isDirectory && nc.elem.isDirectory then
      some (some na, none, some nc)
    else none
  | none, some nb, some nc =>
    if nb.elem.isDirectory && nc.elem.isDirectory then
      some (none, some nb, some nc)
    else none
  | some _, none, none => none
  | none, some _, none => none
  | none, none, some _ => none
  | none, none, none => none

/-- Each slot of a `commonDrectories` entry is the looked-up node of the
respective tree or null. -/
theorem diff3CommonDirsCore_slots {x y z : Option DirectoryNode}
    {pr : Option DirectoryNode × Option DirectoryNode ×
      Option DirectoryNode} (h : diff3CommonDirsCore x y z = some pr) :
    (pr.1 = x ∨ pr.1 = none) ∧ (pr.2.1 = y ∨ pr.2.1 = none) ∧
      (pr.2.2 = z ∨ pr.2.2 = none) := by
  match x, y, z with
  | some na, some nb, some nc =>
    rw [diff3CommonDirsCore] at h
    split_ifs at h
    all_goals
      obtain rfl := Option.some.inj h
    all_goals
      exact ⟨by simp, by simp, by simp⟩
  | some na, some nb, none =>
    rw [diff3CommonDirsCore] at h
    split_ifs at h
    obtain rfl := Option.some.inj h
    exact ⟨Or.inl rfl, Or.inl rfl, Or.inr rfl⟩
  | some na, none, some nc =>
    rw [diff3CommonDirsCore] at h
    split_ifs at h
    obtain rfl := Option.some.inj h
    exact ⟨Or.inl rfl, Or.inr rfl, Or.inl rfl⟩
  | none, some nb, some nc =>
    rw [diff3CommonDirsCore] at h
    split_ifs at h
    obtain rfl := Option.some.inj h
    exact ⟨Or.inr rfl, Or.inl rfl, Or.inl rfl⟩
  | none, none, some nc => rw [diff3CommonDirsCore] at h; cases h
  | none, some nb, none => rw [diff3CommonDirsCore] at h; cases h
  | some na, none, none => rw [diff3CommonDirsCore] at h; cases h
  | none, none, none => rw [diff3CommonDirsCore] at h; cases h

/-- `Diff3Helper::recursiveCompare` (core.cpp:824): the diff lines, paired
with whether every debug transitivity assertion would hold.  Common
directory entries with a null slot reduce to a 2-way diff whose lines are
widened with `nullopt` in the missing slot. -/
def diff3Rec (opt : CompareOpt) (a b c : List DirectoryNode) :
    List Diff3Line × Bool :=
  let names := diff3Names a b c
  let lines := names.filterMap
    (fun y => diff3LineForCore opt (findRp a y) (findRp b y) (findRp c y))
  let ok0 := names.all
    (fun y => diff3AssertForCore opt (findRp a y) (findRp b y) (findRp c y))
  let dirs := names.filterMap
    (fun y => diff3CommonDirsCore (findRp a y) (findRp b y) (findRp c y))
  let subs : List (List Diff3Line × Bool) := dirs.attach.map
    (fun x => match x with
      | ⟨(some na, some nb, some nc), _⟩ =>
        diff3Rec opt na.content nb.content nc.content
      | ⟨(none, some nb, some nc), _⟩ =>
        ((diff2Rec opt nb.content nc.content).map
          (fun (r : Diff2Line) => ((none : Option FilesystemElement), r.1, r.2)), true)
      | ⟨(some na, none, some nc), _⟩ =>
        ((diff2Rec opt na.content nc.content).map
          (fun (r : Diff2Line) => (r.1, (none : Option FilesystemElement), r.2)), true)
      | ⟨(some na, some nb, none), _⟩ =>
        ((diff2Rec opt na.content nb.content).map
          (fun (r : Diff2Line) => (r.1, r.2, (none : Option FilesystemElement))), true)
      | _ => (([] : List Diff3Line), true))
  (lines ++ subs.flatMap (fun s => s.1), ok0 && subs.all (fun s => s.2))
termination_by sizeOf a + sizeOf b + sizeOf c
decreasing_by
  rename_i hmem
  obtain ⟨y, -, hy⟩ := List.mem_filterMap.mp hmem
  obtain ⟨h1, h2, h3⟩ := diff3CommonDirsCore_slots hy
  rcases h1 with h1 | h1
  case inr => cases h1
  rcases h2 with h2 | h2
  case inr => cases h2
  rcases h3 with h3 | h3
  case inr => cases h3
  have hna : na ∈ a := List.mem_of_find?_eq_some h1.symm
  have hnb : nb ∈ b := List.mem_of_find?_eq_some h2.symm
  have hnc : nc ∈ c := List.mem_of_find?_eq_some h3.symm
  have sa : sizeOf na < sizeOf a := List.sizeOf_lt_of_mem hna
  have sb : sizeOf nb < sizeOf b := List.sizeOf_lt_of_mem hnb
  have sc : sizeOf nc < sizeOf c := List.sizeOf_lt_of_mem hnc
  have ta := sizeOf_content_lt na
  have tb := sizeOf_content_lt nb
  have tc := sizeOf_content_lt nc
  omega

/-- `diff3` (core.cpp:922). -/
def diff3 (a b c : List DirectoryNode) (opt : CompareOpt) :
    List Diff3Line :=
  (diff3Rec opt a b c).1

/-- Whether no debug transitivity assertion fires while computing
`diff3`. -/
def diff3AssertOk (a b c : List DirectoryNode) (opt : CompareOpt) : Bool :=
  (diff3Rec opt a b c).2

/-- `compare` is transitive when the middle hash is present or hash
comparison is off (not in general: an empty middle hash matches both
sides). -/
theorem compare_trans_mid {ea eb ec : FilesystemElement}
    {opt : CompareOpt} (hmid : eb.fileHash ≠ "" ∨ opt.hash = false)
    (hab : compare ea eb opt = true) (hbc : compare eb ec opt = true) :
    compare ea ec opt = true := by
  rw [compare_eq_conj] at hab hbc ⊢
  simp only [Bool.and_eq_true, Bool.or_eq_true, Bool.not_eq_true',
    beq_iff_eq] at hab hbc ⊢
  obtain ⟨⟨⟨⟨⟨⟨⟨hty1, hrp1⟩, hpe1⟩, how1⟩, hmt1⟩, hsz1⟩, hh1⟩, hsl1⟩ := hab
  obtain ⟨⟨⟨⟨⟨⟨⟨hty2, hrp2⟩, hpe2⟩, how2⟩, hmt2⟩, hsz2⟩, hh2⟩, hsl2⟩ := hbc
  refine ⟨⟨⟨⟨⟨⟨⟨hty1.trans hty2, hrp1.trans hrp2⟩, ?_⟩, ?_⟩, ?_⟩, ?_⟩,
    ?_⟩, ?_⟩
  · rcases hpe1 with h | h
    · exact Or.inl h
    · rcases hpe2 with h2 | h2
      · exact Or.inl h2
      · exact Or.inr (h.trans h2)
  · rcases how1 with h | h
    · exact Or.inl h
    · rcases how2 with h2 | h2
      · exact Or.inl h2
      · exact Or.inr ⟨h.1.trans h2.1, h.2.trans h2.2⟩
  · rcases hmt1 with h | h
    · exact Or.inl h
    · rcases hmt2 with h2 | h2
      · exact Or.inl h2
      · exact Or.inr (h.trans h2)
  · rcases hsz1 with h | h
    · exact Or.inl h
    · rcases hsz2 with h2 | h2
      · exact Or.inl h2
      · exact Or.inr (h.trans h2)
  · rcases hmid with hmid | hmid
    · rcases hh1 with ((ho | hab2) | ha0) | hb0
      · exact Or.inl (Or.inl (Or.inl ho))
      · rcases hh2 with ((ho2 | hbc2) | hb02) | hc0
        · exact Or.inl (Or.inl (Or.inl ho2))
        · exact Or.inl (Or.inl (Or.inr (hab2.trans hbc2)))
        · exact absurd hb02 hmid
        · exact Or.inr hc0
      · exact Or.inl (Or.inr ha0)
      · exact absurd hb0 hmid
    · exact Or.inl (Or.inl (Or.inl hmid))
  · rcases hsl1 with h | h
    · exact Or.inl h
    · rcases hsl2 with h2 | h2
      · exact Or.inl h2
      · exact Or.inr (h.trans h2)

theorem diff3AssertForCore_true {opt : CompareOpt}
    {x y z : Option DirectoryNode}
    (h : ∀ na nb nc, x = some na → y = some nb → z = some nc →
      compare na.elem nb.elem opt = true →
      compare nb.elem nc.elem opt = true →
      compare na.elem nc.elem opt = true) :
    diff3AssertForCore opt x y z = true := by
  match x, y, z with
  | some na, some nb, some nc =>
    rw [diff3AssertForCore]
    split_ifs with hc
    · rw [Bool.and_eq_true] at hc
      exact h na nb nc rfl rfl rfl hc.1 hc.2
    · rfl
  | some _, some _, none => rfl
  | some _, none, some _ => rfl
  | none, some _, some _ => rfl
  | some _, none, none => rfl
  | none, some _, none => rfl
  | none, none, some _ => rfl
  | none, none, none => rfl

/-- When hash comparison is off or every element of the middle tree
carries a hash, no transitivity assertion fires anywhere in `diff3`. -/
theorem diff3Assert_holds (opt : CompareOpt) :
    ∀ (k : Nat) (a b c : List DirectoryNode),
      sizeOf a + sizeOf b + sizeOf c ≤ k →
      (opt.hash = false ∨ ∀ n ∈ forestAll b, n.elem.fileHash ≠ "") →
      (diff3Rec opt a b c).2 = true := by
  intro k
  induction k using Nat.strong_induction_on with
  | _ k ih =>
    intro a b c hk hmid
    rw [diff3Rec]
    simp only [Bool.and_eq_true]
    constructor
    · rw [List.all_eq_true]
      intro y hy
      apply diff3AssertForCore_true
      intro na nb nc hxa hxb hxc hab hbc
      have hnb : nb ∈ b := List.mem_of_find?_eq_some hxb
      refine compare_trans_mid ?_ hab hbc
      rcases hmid with hm | hm
      · exact Or.inr hm
      · exact Or.inl (hm nb (self_mem_forestAll hnb))
    · rw [List.all_eq_true]
      intro s hs
      obtain ⟨x, hxmem, rfl⟩ := List.mem_map.mp hs
      rcases x with ⟨⟨xa, xb, xc⟩, hxd⟩
      obtain ⟨y, -, hy⟩ := List.mem_filterMap.mp hxd
      obtain ⟨h1, h2, h3⟩ := diff3CommonDirsCore_slots hy
      match xa, xb, xc with
      | some na, some nb, some nc =>
        show (diff3Rec opt na.content nb.content nc.content).2 = true
        rcases h1 with h1 | h1
        case inr => cases h1
        rcases h2 with h2 | h2
        case inr => cases h2
        rcases h3 with h3 | h3
        case inr => cases h3
        have hna : na ∈ a := List.mem_of_find?_eq_some h1.symm
        have hnb : nb ∈ b := List.mem_of_find?_eq_some h2.symm
        have hnc : nc ∈ c := List.mem_of_find?_eq_some h3.symm
        have sa : sizeOf na < sizeOf a := List.sizeOf_lt_of_mem hna
        have sb : sizeOf nb < sizeOf b := List.sizeOf_lt_of_mem hnb
        have sc : sizeOf nc < sizeOf c := List.sizeOf_lt_of_mem hnc
        have ta := sizeOf_content_lt na
        have tb := sizeOf_content_lt nb
        have tc := sizeOf_content_lt nc
        refine ih
          (sizeOf na.content + sizeOf nb.content + sizeOf nc.content)
          (by omega) _ _ _ (le_refl _) ?_
        rcases hmid with hm | hm
        · exact Or.inl hm
        · exact Or.inr (fun n hn => hm n (sub_mem_forestAll hnb hn))
      | none, some nb, some nc => rfl
      | some na, none, some nc => rfl
      | some na, some nb, none => rfl
      | some na, none, none => rfl
      | none, some nb, none => rfl
      | none, none, some nc => rfl
      | none, none, none => rfl

/-- Concrete elements showing `compare` is not transitive through an
empty middle hash. -/
def cexHashX : FilesystemElement :=
  ⟨FileType.regular, 420, "u", "g", 100, 3, "aa", ["f"], ""⟩

def cexHashMid : FilesystemElement :=
  ⟨FileType.regular, 420, "u", "g", 100, 3, "", ["f"], ""⟩

def cexHashY : FilesystemElement :=
  ⟨FileType.regular, 420, "u", "g", 100, 3, "bb", ["f"], ""⟩

def cexTreeA : List DirectoryNode := [DirectoryNode.mk cexHashX []]

def cexTreeB : List DirectoryNode := [DirectoryNode.mk cexHashMid []]

def cexTreeC : List DirectoryNode := [DirectoryNode.mk cexHashY []]

/-- C2 counterexample: with the default compare options, a file whose
hash is recorded in the outer trees but omitted in the middle tree makes
slot 0 equal slot 1 and slot 1 equal slot 2 without slot 0 equalling
slot 2, and the diff3 transitivity assertion fires on these three
well-formed trees. -/
theorem C2_diff3_assert_counterexample :
    compare cexHashX cexHashMid {} = true ∧
    compare cexHashMid cexHashY {} = true ∧
    compare cexHashX cexHashY {} = false ∧
    treeWFb cexTreeA = true ∧ treeWFb cexTreeB = true ∧
    treeWFb cexTreeC = true ∧
    diff3AssertOk cexTreeA cexTreeB cexTreeC {} = false := by
  refine ⟨by decide, by decide, by decide, by decide, by decide,
    by decide, ?_⟩
  rw [diff3AssertOk, diff3Rec]
  decide

/-- C2 (amended): the comparison relation is transitive on triples whose
middle element has a nonempty hash (or when hash comparison is off), and
the diff3 assertion cannot fire when hash comparison is off or every
element of the middle tree has a nonempty hash; with an empty middle
hash it can fire (see the counterexample). -/
theorem C2_diff3_transitivity_amended :
    (∀ (ea eb ec : FilesystemElement) (opt : CompareOpt),
      eb.fileHash ≠ "" ∨ opt.hash = false →
      compare ea eb opt = true → compare eb ec opt = true →
      compare ea ec opt = true) ∧
    (∀ (a b c : List DirectoryNode) (opt : CompareOpt),
      (opt.hash = false ∨ ∀ n ∈ forestAll b, n.elem.fileHash ≠ "") →
      diff3AssertOk a b c opt = true) :=
  ⟨fun ea eb ec opt hmid hab hbc => compare_trans_mid hmid hab hbc,
   fun a b c opt hmid =>
     diff3Assert_holds opt (sizeOf a + sizeOf b + sizeOf c) a b c
       (le_refl _) hmid⟩

/-- Witness for the amended C2 on concrete input. -/
theorem C2_diff3_transitivity_amended_witness :
    compare cexHashX cexHashX {} = true ∧
    diff3AssertOk cexTreeA cexTreeA cexTreeA {} = true :=
  ⟨C2_diff3_transitivity_amended.1 cexHashX cexHashX cexHashX {}
      (Or.inl (by decide)) (by decide) (by decide),
   C2_diff3_transitivity_amended.2 cexTreeA cexTreeA cexTreeA {}
      (Or.inr (by decide))⟩

/-! ## Serialization of `DirectoryTree` (core.cpp:338-407, 580-590)

`recursiveWrite` emits lines (a blank line is `[]`); the mutable
`printBreak` member is threaded explicitly.  `readFrom` is the `getline`
loop with its `add()` closure; the flat `index` is modelled as the list
of inserted paths, and the content assignment through the index pointer
as the structural `updAtF` (on well-formed trees the indexed node at a
path is the structural node at that path, `ForestWF.index_unique`). -/

mutual
/-- `DirectoryTree::recursiveWrite` (core.cpp:580): the lines it emits
and the final value of `printBreak`. -/
def rwR (nodes : List DirectoryNode) (pb : Bool) :
    List (List Char) × Bool :=
  ((if pb then [([] : List Char)] else []) ++
      nodes.map (fun n => elemWriteTo n.elem) ++
      (rwLoop nodes (!nodes.isEmpty)).1,
    (rwLoop nodes (!nodes.isEmpty)).2)
termination_by 2 * sizeOf nodes + 1
decreasing_by
  all_goals simp_wf
  all_goals omega

/-- The final loop of `recursiveWrite`: recurse into directory children,
stopping at the first non-directory (the `break`). -/
def rwLoop (nodes : List DirectoryNode) (pb : Bool) :
    List (List Char) × Bool :=
  match nodes with
  | [] => ([], pb)
  | n :: ns =>
    if n.elem.isDirectory = false then ([], pb)
    else
      ((rwR n.content pb).1 ++ (rwLoop ns (rwR n.content pb).2).1,
        (rwLoop ns (rwR n.content pb).2).2)
termination_by 2 * sizeOf nodes
decreasing_by
  all_goals simp_wf
  all_goals
    first
      | omega
      | (have h1 := sizeOf_content_lt n
         simp only [List.cons.sizeOf_spec] at *
         omega)
      | (simp only [List.cons.sizeOf_spec] at *
         omega)
end

/-- `DirectoryTree::writeTo` (core.cpp:401): `printBreak` starts false. -/
def treeWriteLines (t : List DirectoryNode) : List (List Char) :=
  (rwR t false).1

/-- Each line is written followed by a newline character. -/
def joinLines (ls : List (List Char)) : List Char :=
  ls.flatMap (fun l => l ++ ['\n'])

def treeWriteChars (t : List DirectoryNode) : List Char :=
  joinLines (treeWriteLines t)

/-- `getline` boundaries: one line per newline; `getline` fails at end
of input only when no characters remain. -/
def splitNl : List Char → List (List Char)
  | [] => []
  | c :: r =>
    if c = '\n' then [] :: splitNl r
    else
      match splitNl r with
      | [] => [[c]]
      | l :: ls => (c :: l) :: ls

/-- The state of `DirectoryTree::readFrom`: the top-level content built
so far and the paths inserted into the flat `index`. -/
structure ReaderSt where
  top : List DirectoryNode
  idx : List (List String)
deriving Repr, DecidableEq

/-- `index.find(p)` (node-valued analogue of `lookupF`). -/
def lookupN (t : List DirectoryNode) (p : List String) :
    Option DirectoryNode :=
  (forestAll t).find? (fun n => n.elem.rp == p)

/-- The per-node loop of the `add()` closure (core.cpp:356): the
same-parent check and the `index.insert` duplicate check. -/
def addGroupIdx (p : List String) :
    List DirectoryNode → List (List String) → Option (List (List String))
  | [], idx => some idx
  | n :: ns, idx =>
    if n.elem.rp.dropLast ≠ p then none
    else if n.elem.rp ∈ idx then none
    else addGroupIdx p ns (n.elem.rp :: idx)

/-- The `add()` closure of `DirectoryTree::readFrom` (core.cpp:353):
attach the accumulated group of nodes; every `fail(...)` is `none`. -/
def addGroup (group : List DirectoryNode) (st : ReaderSt) :
    Option ReaderSt :=
  match group with
  | [] => some st
  | n0 :: _ =>
    match addGroupIdx (n0.elem.rp.dropLast) group st.idx with
    | none => none
    | some idx2 =>
      if st.top.isEmpty then
        if (n0.elem.rp.dropLast).isEmpty then some ⟨group, idx2⟩
        else none
      else
        match lookupN st.top (n0.elem.rp.dropLast) with
        | none => none
        | some nd =>
          if nd.content.isEmpty then
            some ⟨updAtF (n0.elem.rp.dropLast)
              (fun m => DirectoryNode.mk m.elem group) st.top, idx2⟩
          else none

/-- The `getline` loop of `readFrom` (core.cpp:380) without the final
`add()`: the line counter, the pending group and the state. -/
def rdLines : List (List Char) → String → Int → List DirectoryNode →
    ReaderSt → Option (Int × List DirectoryNode × ReaderSt)
  | [], _, no, group, st => some (no, group, st)
  | l :: ls, fn, no, group, st =>
    if l.isEmpty then
      match addGroup group st with
      | none => none
      | some st2 => rdLines ls fn (no + 1) [] st2
    else
      match elemReadFrom l fn (no + 1) with
      | Except.error _ => none
      | Except.ok e =>
        rdLines ls fn (no + 1) (group ++ [DirectoryNode.mk e []]) st

/-- `DirectoryTree::readFrom(istream&)` (core.cpp:338). -/
def treeReadLines (lines : List (List Char)) (fn : String) :
    Option (List DirectoryNode) :=
  match rdLines lines fn 0 [] ⟨[], []⟩ with
  | none => none
  | some (_, group, st) =>
    match addGroup group st with
    | none => none
    | some st2 => some st2.top

def treeReadChars (cs : List Char) (fn : String) :
    Option (List DirectoryNode) :=
  treeReadLines (splitNl cs) fn

/-! Auxiliary notions for the round-trip proof. -/

/-- A freshly parsed node: the element with no content yet. -/
def strip (n : DirectoryNode) : DirectoryNode := DirectoryNode.mk n.elem []

def stripF (ns : List DirectoryNode) : List DirectoryNode := ns.map strip

/-- Set the content of the node at `p`. -/
def fillAt (p : List String) (gs t : List DirectoryNode) :
    List DirectoryNode :=
  updAtF p (fun m => DirectoryNode.mk m.elem gs) t

/-- Attach a sibling group below parent path `p` (top level when `p` is
empty). -/
def attachG (p : List String) (gs t : List DirectoryNode) :
    List DirectoryNode :=
  if p = [] then gs else fillAt p gs t

/-- The flat `index` holds exactly the paths of the attached nodes. -/
def IdxInv (st : ReaderSt) : Prop :=
  ∀ q, q ∈ st.idx ↔ ∃ x ∈ forestAll st.top, x.elem.rp = q

/-- Directories sorted before non-directories: the sibling order `scan`
establishes and the `break` of `recursiveWrite` relies on. -/
def dirsFirstB : List DirectoryNode → Bool
  | [] => true
  | n :: ns =>
    if n.elem.isDirectory then dirsFirstB ns
    else ns.all (fun m => !m.elem.isDirectory)

/-- Every element of the tree serializes faithfully and every sibling
list keeps directories first. -/
def SerialTree (ns : List DirectoryNode) : Prop :=
  ∀ x ∈ forestAll ns, elemSerialWF x.elem = true ∧
    dirsFirstB x.content = true

/-- Decidable form of `SerialTree`. -/
def serialTreeB (t : List DirectoryNode) : Bool :=
  (forestAll t).all
    (fun x => elemSerialWF x.elem && dirsFirstB x.content)

/-- The pending reader group at a call boundary: flushed by the next
blank line when `printBreak` is set, empty otherwise. -/
def flushIf (pb : Bool) (g : List DirectoryNode) (st : ReaderSt) :
    Option ReaderSt :=
  if pb then addGroup g st else if g.isEmpty then some st else none

/-! Basic facts. -/

theorem serialTree_of_b {t : List DirectoryNode}
    (h : serialTreeB t = true) : SerialTree t := by
  rw [serialTreeB, List.all_eq_true] at h
  intro x hx
  simpa [Bool.and_eq_true] using h x hx

theorem strip_eq_self {n : DirectoryNode} (h : n.content = []) :
    strip n = n := by
  rw [strip, ← h, DirectoryNode.eta]

theorem stripF_eq_self {ns : List DirectoryNode}
    (h : ∀ x ∈ ns, x.content = []) : stripF ns = ns := by
  rw [stripF]
  conv_rhs => rw [← List.map_id ns]
  exact List.map_congr_left (fun x hx => strip_eq_self (h x hx))

theorem forestAll_stripF (ns : List DirectoryNode) :
    forestAll (stripF ns) = stripF ns := by
  induction ns with
  | nil => rfl
  | cons n ns ih =>
    show nodeAll (strip n) ++ forestAll (stripF ns) = strip n :: stripF ns
    rw [ih]
    rfl

theorem stripF_map_rp (ns : List DirectoryNode) :
    (stripF ns).map (fun x => x.elem.rp) =
      ns.map (fun x => x.elem.rp) := by
  rw [stripF, List.map_map]
  rfl

theorem forestWF_nil (pp : List String) : ForestWF pp [] :=
  ForestWF.mk pp [] (by simp) (by simp) (by simp) (by simp)

theorem stripF_wf {pp : List String} {ns : List DirectoryNode}
    (h : ForestWF pp ns) : ForestWF pp (stripF ns) := by
  refine ForestWF.mk _ _ ?_ ?_ ?_ ?_
  · intro n hn
    rw [stripF, List.mem_map] at hn
    obtain ⟨x, hx, rfl⟩ := hn
    exact h.shape x hx
  · have h2 := h.nodup
    rw [← stripF_map_rp] at h2
    exact h2
  · intro n hn _
    rw [stripF, List.mem_map] at hn
    obtain ⟨x, hx, rfl⟩ := hn
    rfl
  · intro n hn
    rw [stripF, List.mem_map] at hn
    obtain ⟨x, hx, rfl⟩ := hn
    exact forestWF_nil _

theorem isDirectory_iff {e : FilesystemElement} :
    e.isDirectory = true ↔ e.ty = FileType.directory := by
  rw [FilesystemElement.isDirectory]
  exact beq_iff_eq

theorem elemWriteTo_ne_empty (e : FilesystemElement) :
    (elemWriteTo e).isEmpty = false := by
  rw [elemWriteTo, permChars]
  rfl

theorem flushIf_addGroup {pb : Bool} {g : List DirectoryNode}
    {st stF : ReaderSt} (h : flushIf pb g st = some stF) :
    addGroup g st = some stF := by
  rw [flushIf] at h
  cases pb with
  | true => exact h
  | false =>
    rw [if_neg (by simp)] at h
    split at h
    · rename_i hg
      cases g with
      | nil => rw [addGroup]; exact h
      | cons a l => simp [List.isEmpty] at hg
    · cases h

theorem rdLines_blank {X : List (List Char)} {fn : String} {no : Int}
    {g : List DirectoryNode} {st st0 : ReaderSt}
    (h : addGroup g st = some st0) :
    rdLines ([] :: X) fn no g st = rdLines X fn (no + 1) [] st0 := by
  rw [rdLines, if_pos List.isEmpty_nil, h]

theorem rdLines_header {fn : String} :
    ∀ (ms : List DirectoryNode), ∀ {X : List (List Char)} {no : Int}
    {g : List DirectoryNode} {st : ReaderSt},
    (∀ n ∈ ms, elemSerialWF n.elem = true) →
    rdLines ((ms.map (fun n => elemWriteTo n.elem)) ++ X) fn no g st =
      rdLines X fn (no + ms.length) (g ++ stripF ms) st := by
  intro ms
  induction ms with
  | nil =>
    intro X no g st _
    simp [stripF]
  | cons n ns ih =>
    intro X no g st h
    rw [List.map_cons, List.cons_append, rdLines,
      if_neg (by rw [elemWriteTo_ne_empty]; exact Bool.false_ne_true),
      elemWriteTo_readFrom n.elem fn (no + 1) (h n (by simp))]
    show rdLines (ns.map (fun n => elemWriteTo n.elem) ++ X) fn (no + 1)
      (g ++ [DirectoryNode.mk n.elem []]) st = _
    rw [ih (fun m hm => h m (by simp [hm]))]
    have harith : no + 1 + (ns.length : Int) =
        no + ((n :: ns).length : Int) := by
      simp only [List.length_cons]
      push_cast
      ring
    rw [harith]
    have hlist : (g ++ [DirectoryNode.mk n.elem []]) ++ stripF ns =
        g ++ stripF (n :: ns) := by
      simp [stripF, strip]
    rw [hlist]

theorem splitNl_line {rest : List Char} :
    ∀ (l : List Char), (∀ c ∈ l, c ≠ '\n') →
    splitNl (l ++ '\n' :: rest) = l :: splitNl rest := by
  intro l
  induction l with
  | nil =>
    intro _
    rw [List.nil_append, splitNl, if_pos rfl]
  | cons c cs ih =>
    intro h
    rw [List.cons_append, splitNl, if_neg (h c (by simp)),
      ih (fun d hd => h d (by simp [hd]))]

theorem splitNl_joinLines :
    ∀ (ls : List (List Char)), (∀ l ∈ ls, ∀ c ∈ l, c ≠ '\n') →
    splitNl (joinLines ls) = ls := by
  intro ls
  induction ls with
  | nil => intro _; rfl
  | cons l ls ih =>
    intro h
    show splitNl ((l ++ ['\n']) ++ joinLines ls) = l :: ls
    rw [List.append_assoc]
    show splitNl (l ++ '\n' :: joinLines ls) = l :: ls
    rw [splitNl_line l (h l (by simp)),
      ih (fun m hm c hc => h m (by simp [hm]) c hc)]


/-! Structural facts about `updAtF` on well-formed forests. -/

theorem ForestWF.descend {pp : List String} {ns : List DirectoryNode}
    (h : ForestWF pp ns) :
    ∀ m ∈ forestAll ns, ∀ x ∈ forestAll ns,
      m.elem.rp <+: x.elem.rp → x = m ∨ x ∈ forestAll m.content := by
  induction h with
  | mk pp ns hshape hnodup hleaf hrec ih =>
    intro m hm x hx hpre
    have hwf : ForestWF pp ns := ForestWF.mk pp ns hshape hnodup hleaf hrec
    obtain ⟨nm2, hnm, hcm, ham⟩ := hwf.anchor hm
    obtain ⟨nx2, hnx, hcx, hax⟩ := hwf.anchor hx
    have hlm : pp.length < m.elem.rp.length := (hwf.path_extends m hm).2
    have heqtake : x.elem.rp.take (pp.length + 1) =
        m.elem.rp.take (pp.length + 1) := by
      obtain ⟨t, ht⟩ := hpre
      rw [← ht, List.take_append_of_le_length (by omega)]
    have hnn : nx2 = nm2 := by
      have hfeq : nx2.elem.rp = nm2.elem.rp := by rw [hax, ham, heqtake]
      exact List.inj_on_of_nodup_map hnodup hnx hnm hfeq
    subst hnn
    have hnxlen : nx2.elem.rp.length = pp.length + 1 := by
      obtain ⟨a, -, hr⟩ := hshape nx2 hnx
      rw [hr]
      simp
    rcases hcm with rfl | hsubm
    · rcases hcx with rfl | hsubx
      · exact Or.inl rfl
      · exact Or.inr hsubx
    · have hlm2 : nx2.elem.rp.length < m.elem.rp.length :=
        ((hrec nx2 hnx).path_extends m hsubm).2
      rcases hcx with rfl | hsubx
      · exfalso
        have hle := hpre.length_le
        omega
      · exact ih nx2 hnx m hsubm x hsubx hpre

theorem ForestWF.no_ext {pp : List String} {ns : List DirectoryNode}
    (h : ForestWF pp ns) {m : DirectoryNode} (hm : m ∈ forestAll ns)
    (hc : m.content = []) :
    ∀ x ∈ forestAll ns, m.elem.rp <+: x.elem.rp → x = m := by
  intro x hx hpre
  rcases h.descend m hm x hx hpre with h1 | h1
  · exact h1
  · rw [hc] at h1
    simp [forestAll] at h1

theorem ForestWF.into_child {pp : List String} {ns : List DirectoryNode}
    (h : ForestWF pp ns) {m n : DirectoryNode} (hm : m ∈ forestAll ns)
    (hn : n ∈ ns) (hpre : n.elem.rp <+: m.elem.rp)
    (hne : n.elem.rp ≠ m.elem.rp) : m ∈ forestAll n.content := by
  rcases h.descend n (self_mem_forestAll hn) m hm hpre with h1 | h1
  · exact absurd (congrArg (fun z => z.elem.rp) h1) (by
      intro h2
      exact hne h2.symm)
  · exact h1

theorem ForestWF.lookupN_eq {pp : List String} {ns : List DirectoryNode}
    (h : ForestWF pp ns) {m : DirectoryNode} (hm : m ∈ forestAll ns)
    {p : List String} (hrp : m.elem.rp = p) : lookupN ns p = some m := by
  unfold lookupN
  have hs : ((forestAll ns).find? (fun n => n.elem.rp == p)).isSome := by
    rw [List.find?_isSome]
    exact ⟨m, hm, by simpa using hrp⟩
  obtain ⟨m2, hm2⟩ := Option.isSome_iff_exists.mp hs
  have hmem2 := List.mem_of_find?_eq_some hm2
  have hrp2 : m2.elem.rp = p := by simpa using List.find?_some hm2
  rw [hm2, h.index_unique m2 hmem2 m hm (by rw [hrp2, hrp])]

theorem updAtN_fill_elem (p : List String) (G : List DirectoryNode)
    (n : DirectoryNode) :
    (updAtN p (fun z => DirectoryNode.mk z.elem G) n).elem = n.elem := by
  rw [updAtN_def]
  split
  · rfl
  · split
    · rfl
    · rfl

theorem updAtN_fill_cases {pp : List String} {ns : List DirectoryNode}
    (h : ForestWF pp ns) {m : DirectoryNode} {p : List String}
    (hm : m ∈ forestAll ns) (hrp : m.elem.rp = p) {n : DirectoryNode}
    (hn : n ∈ ns) (G : List DirectoryNode) :
    (n = m ∧ updAtN p (fun z => DirectoryNode.mk z.elem G) n =
        DirectoryNode.mk m.elem G) ∨
    (m ∈ forestAll n.content ∧ n.elem.rp ≠ p ∧
      updAtN p (fun z => DirectoryNode.mk z.elem G) n =
        DirectoryNode.mk n.elem (fillAt p G n.content)) ∨
    (¬ m ∈ forestAll n.content ∧ n ≠ m ∧
      updAtN p (fun z => DirectoryNode.mk z.elem G) n = n) := by
  by_cases h1 : n.elem.rp = p
  · have hnm : n = m :=
      h.index_unique n (self_mem_forestAll hn) m hm (by rw [h1, hrp])
    subst hnm
    exact Or.inl ⟨rfl, by rw [updAtN_def, if_pos h1]⟩
  · by_cases h2 : n.elem.rp <+: p
    · refine Or.inr (Or.inl ⟨?_, h1, ?_⟩)
      · exact h.into_child hm hn (by rw [hrp]; exact h2)
          (by rw [hrp]; exact h1)
      · rw [updAtN_def, if_neg h1, if_pos h2]
        rfl
    · refine Or.inr (Or.inr ⟨?_, ?_, ?_⟩)
      · intro hsub
        exact h2 (by
          have h3 := ((h.rec' n hn).path_extends m hsub).1
          rw [hrp] at h3
          exact h3)
      · intro heq
        exact h1 (by rw [heq, hrp])
      · rw [updAtN_def, if_neg h1, if_neg h2]

theorem fill_wf {p : List String} {G : List DirectoryNode}
    {pp : List String} {ns : List DirectoryNode} (h : ForestWF pp ns) :
    ∀ m ∈ forestAll ns, m.elem.rp = p → m.content = [] →
    m.elem.ty = FileType.directory → ForestWF p G →
    ForestWF pp (fillAt p G ns) := by
  induction h with
  | mk pp ns hshape hnodup hleaf hrec ih =>
    intro m hm hrp hc hty hG
    have hwf : ForestWF pp ns := ForestWF.mk pp ns hshape hnodup hleaf hrec
    rw [fillAt, updAtF_eq_map]
    refine ForestWF.mk _ _ ?_ ?_ ?_ ?_
    · intro y hy
      rw [List.mem_map] at hy
      obtain ⟨n, hn, rfl⟩ := hy
      obtain ⟨nm2, hnm2, hr2⟩ := hshape n hn
      exact ⟨nm2, hnm2, by rw [updAtN_fill_elem, hr2]⟩
    · have hmaps : (ns.map (updAtN p (fun z => DirectoryNode.mk z.elem G))).map
          (fun x => x.elem.rp) = ns.map (fun x => x.elem.rp) := by
        rw [List.map_map]
        refine List.map_congr_left ?_
        intro n _
        show (updAtN p (fun z => DirectoryNode.mk z.elem G) n).elem.rp = _
        rw [updAtN_fill_elem]
      have h2 := hnodup
      rw [← hmaps] at h2
      exact h2
    · intro y hy hty2
      rw [List.mem_map] at hy
      obtain ⟨n, hn, rfl⟩ := hy
      rcases updAtN_fill_cases hwf hm hrp hn G with
        ⟨hnm, hu⟩ | ⟨hin, hne, hu⟩ | ⟨hnin, hne, hu⟩
      · rw [hu] at hty2
        exact absurd hty hty2
      · rw [hu] at hty2 ⊢
        have hcn : n.content = [] := hleaf n hn hty2
        show fillAt p G n.content = []
        rw [hcn]
        rfl
      · rw [hu] at hty2 ⊢
        exact hleaf n hn hty2
    · intro y hy
      rw [List.mem_map] at hy
      obtain ⟨n, hn, rfl⟩ := hy
      rcases updAtN_fill_cases hwf hm hrp hn G with
        ⟨hnm, hu⟩ | ⟨hin, hne, hu⟩ | ⟨hnin, hne, hu⟩
      · rw [hu]
        show ForestWF m.elem.rp G
        rw [hrp]
        exact hG
      · rw [hu]
        show ForestWF n.elem.rp (fillAt p G n.content)
        exact ih n hn m hin hrp hc hty hG
      · rw [hu]
        exact hrec n hn

theorem fill_mem_G {p : List String} {G : List DirectoryNode}
    {pp : List String} {ns : List DirectoryNode} (h : ForestWF pp ns) :
    ∀ m ∈ forestAll ns, m.elem.rp = p →
    ∀ y ∈ forestAll G, y ∈ forestAll (fillAt p G ns) := by
  induction h with
  | mk pp ns hshape hnodup hleaf hrec ih =>
    intro m hm hrp y hy
    have hwf : ForestWF pp ns := ForestWF.mk pp ns hshape hnodup hleaf hrec
    obtain ⟨n, hn, hcase, han⟩ := hwf.anchor hm
    rw [fillAt, updAtF_eq_map, mem_forestAll_iff]
    rcases hcase with rfl | hsub
    · refine ⟨updAtN p (fun z => DirectoryNode.mk z.elem G) m,
        List.mem_map_of_mem _ hn, Or.inr ?_⟩
      rw [updAtN_def, if_pos hrp]
      exact hy
    · have hlen : n.elem.rp.length = pp.length + 1 := by
        obtain ⟨a, -, hr⟩ := hshape n hn
        rw [hr]
        simp
      have hlm : n.elem.rp.length < m.elem.rp.length :=
        ((hrec n hn).path_extends m hsub).2
      have hnp : n.elem.rp ≠ p := by
        intro he
        rw [← hrp] at he
        have h2 := congrArg List.length he
        simp only at h2
        omega
      have hpre : n.elem.rp <+: p := by
        rw [← hrp, han]
        exact List.take_prefix _ _
      refine ⟨updAtN p (fun z => DirectoryNode.mk z.elem G) n,
        List.mem_map_of_mem _ hn, Or.inr ?_⟩
      rw [updAtN_def, if_neg hnp, if_pos hpre]
      exact ih n hn m hsub hrp y hy

theorem fill_path_sub {p : List String} {G : List DirectoryNode}
    {pp : List String} {ns : List DirectoryNode} (h : ForestWF pp ns) :
    ∀ m ∈ forestAll ns, m.elem.rp = p →
    ∀ y ∈ forestAll (fillAt p G ns),
      (∃ x ∈ forestAll ns, x.elem.rp = y.elem.rp) ∨ y ∈ forestAll G := by
  induction h with
  | mk pp ns hshape hnodup hleaf hrec ih =>
    intro m hm hrp y hy
    have hwf : ForestWF pp ns := ForestWF.mk pp ns hshape hnodup hleaf hrec
    rw [fillAt, updAtF_eq_map, mem_forestAll_iff] at hy
    obtain ⟨n2, hn2mem, hcase2⟩ := hy
    rw [List.mem_map] at hn2mem
    obtain ⟨n, hn, rfl⟩ := hn2mem
    rcases updAtN_fill_cases hwf hm hrp hn G with
      ⟨hnm, hu⟩ | ⟨hin, hne, hu⟩ | ⟨hnin, hne, hu⟩
    · rw [hu] at hcase2
      rcases hcase2 with rfl | hyin
      · exact Or.inl ⟨n, self_mem_forestAll hn, by subst hnm; rfl⟩
      · exact Or.inr hyin
    · rw [hu] at hcase2
      rcases hcase2 with rfl | hyin
      · exact Or.inl ⟨n, self_mem_forestAll hn, rfl⟩
      · rcases ih n hn m hin hrp y hyin with ⟨x, hx, hxe⟩ | hG2
        · exact Or.inl ⟨x, sub_mem_forestAll hn hx, hxe⟩
        · exact Or.inr hG2
    · rw [hu] at hcase2
      rcases hcase2 with rfl | hyin
      · exact Or.inl ⟨y, self_mem_forestAll hn, rfl⟩
      · exact Or.inl ⟨y, sub_mem_forestAll hn hyin, rfl⟩

theorem fill_path_sup {p : List String} {G : List DirectoryNode}
    {pp : List String} {ns : List DirectoryNode} (h : ForestWF pp ns) :
    ∀ m ∈ forestAll ns, m.elem.rp = p → m.content = [] →
    ∀ x ∈ forestAll ns,
      ∃ y ∈ forestAll (fillAt p G ns), y.elem.rp = x.elem.rp := by
  induction h with
  | mk pp ns hshape hnodup hleaf hrec ih =>
    intro m hm hrp hc x hx
    have hwf : ForestWF pp ns := ForestWF.mk pp ns hshape hnodup hleaf hrec
    rw [mem_forestAll_iff] at hx
    obtain ⟨n, hn, hcase⟩ := hx
    rcases updAtN_fill_cases hwf hm hrp hn G with
      ⟨hnm, hu⟩ | ⟨hin, hne, hu⟩ | ⟨hnin, hne, hu⟩
    · rcases hcase with rfl | hsub
      · refine ⟨DirectoryNode.mk m.elem G, ?_, by subst hnm; rfl⟩
        rw [fillAt, updAtF_eq_map, ← hu]
        exact self_mem_forestAll (List.mem_map_of_mem _ hn)
      · exfalso
        rw [hnm, hc] at hsub
        simp [forestAll] at hsub
    · rcases hcase with rfl | hsub
      · refine ⟨DirectoryNode.mk x.elem (fillAt p G x.content), ?_, rfl⟩
        rw [fillAt, updAtF_eq_map, ← hu]
        exact self_mem_forestAll (List.mem_map_of_mem _ hn)
      · obtain ⟨y, hy, hye⟩ := ih n hn m hin hrp hc x hsub
        refine ⟨y, ?_, hye⟩
        rw [fillAt, updAtF_eq_map, mem_forestAll_iff]
        refine ⟨updAtN p (fun z => DirectoryNode.mk z.elem G) n,
          List.mem_map_of_mem _ hn, Or.inr ?_⟩
        rw [hu]
        exact hy
    · rcases hcase with rfl | hsub
      · refine ⟨x, ?_, rfl⟩
        rw [fillAt, updAtF_eq_map, ← hu]
        exact self_mem_forestAll (List.mem_map_of_mem _ hn)
      · refine ⟨x, ?_, rfl⟩
        rw [fillAt, updAtF_eq_map, mem_forestAll_iff]
        exact ⟨updAtN p (fun z => DirectoryNode.mk z.elem G) n,
          List.mem_map_of_mem _ hn, Or.inr (by rw [hu]; exact hsub)⟩

theorem fill_fill {p q : List String} (f : DirectoryNode → DirectoryNode)
    (G : List DirectoryNode) (hpq : p <+: q) (hnepq : p ≠ q)
    {pp : List String} {ns : List DirectoryNode} (h : ForestWF pp ns) :
    ∀ m ∈ forestAll ns, m.elem.rp = p → m.content = [] →
    updAtF q f (fillAt p G ns) = fillAt p (updAtF q f G) ns := by
  induction h with
  | mk pp ns hshape hnodup hleaf hrec ih =>
    intro m hm hrp hc
    have hwf : ForestWF pp ns := ForestWF.mk pp ns hshape hnodup hleaf hrec
    rw [fillAt, fillAt, updAtF_eq_map, updAtF_eq_map, updAtF_eq_map,
      List.map_map]
    refine List.map_congr_left ?_
    intro n hn
    show updAtN q f (updAtN p (fun z => DirectoryNode.mk z.elem G) n) =
      updAtN p (fun z => DirectoryNode.mk z.elem (updAtF q f G)) n
    by_cases h1 : n.elem.rp = p
    · have e1 : updAtN p (fun z => DirectoryNode.mk z.elem G) n =
          DirectoryNode.mk n.elem G := by
        rw [updAtN_def, if_pos h1]
      have e2 : updAtN p
          (fun z => DirectoryNode.mk z.elem (updAtF q f G)) n =
          DirectoryNode.mk n.elem (updAtF q f G) := by
        rw [updAtN_def, if_pos h1]
      rw [e1, e2, updAtN_def,
        if_neg (show ¬ (DirectoryNode.mk n.elem G).elem.rp = q by
          show ¬ n.elem.rp = q
          rw [h1]
          exact hnepq),
        if_pos (show (DirectoryNode.mk n.elem G).elem.rp <+: q by
          show n.elem.rp <+: q
          rw [h1]
          exact hpq)]
      rfl
    · by_cases h2 : n.elem.rp <+: p
      · have hin : m ∈ forestAll n.content :=
          hwf.into_child hm hn (by rw [hrp]; exact h2)
            (by rw [hrp]; exact h1)
        have hl : n.elem.rp.length < p.length := by
          rcases Nat.lt_or_ge n.elem.rp.length p.length with hlt | hge
          · exact hlt
          · exact absurd (h2.eq_of_length (by
              have := h2.length_le
              omega)) h1
        have e1 : updAtN p (fun z => DirectoryNode.mk z.elem G) n =
            DirectoryNode.mk n.elem
              (updAtF p (fun z => DirectoryNode.mk z.elem G) n.content) := by
          rw [updAtN_def, if_neg h1, if_pos h2]
        have e2 : updAtN p
            (fun z => DirectoryNode.mk z.elem (updAtF q f G)) n =
            DirectoryNode.mk n.elem
              (updAtF p (fun z => DirectoryNode.mk z.elem (updAtF q f G))
                n.content) := by
          rw [updAtN_def, if_neg h1, if_pos h2]
        rw [e1, e2, updAtN_def,
          if_neg (show ¬ (DirectoryNode.mk n.elem
              (updAtF p (fun z => DirectoryNode.mk z.elem G) n.content)).elem.rp
                = q by
            show ¬ n.elem.rp = q
            intro he
            have h3 := hpq.length_le
            have h4 := congrArg List.length he
            simp only at h4
            omega),
          if_pos (show (DirectoryNode.mk n.elem
              (updAtF p (fun z => DirectoryNode.mk z.elem G) n.content)).elem.rp
                <+: q from h2.trans hpq)]
        have e3 := ih n hn m hin hrp hc
        rw [fillAt, fillAt] at e3
        rw [show (DirectoryNode.mk n.elem
            (updAtF p (fun z => DirectoryNode.mk z.elem G) n.content)).content =
            updAtF p (fun z => DirectoryNode.mk z.elem G) n.content from rfl,
          e3]
        rfl
      · have e1 : updAtN p (fun z => DirectoryNode.mk z.elem G) n = n := by
          rw [updAtN_def, if_neg h1, if_neg h2]
        have e2 : updAtN p
            (fun z => DirectoryNode.mk z.elem (updAtF q f G)) n = n := by
          rw [updAtN_def, if_neg h1, if_neg h2]
        rw [e1, e2, updAtN_def]
        have hq1 : ¬ n.elem.rp = q := by
          intro he
          have hnm := hwf.no_ext hm hc n (self_mem_forestAll hn)
            (by rw [hrp, he]; exact hpq)
          apply hnepq
          rw [← hrp, ← he, hnm]
        have hq2 : ¬ n.elem.rp <+: q := by
          intro hpre
          rcases List.prefix_or_prefix_of_prefix hpre hpq with ha | hb
          · exact h2 ha
          · rcases eq_or_ne p n.elem.rp with he | hne2
            · exact h1 he.symm
            · have hnm := hwf.no_ext hm hc n (self_mem_forestAll hn)
                (by rw [hrp]; exact hb)
              exact h1 (by rw [hnm, hrp])
        rw [if_neg hq1, if_neg hq2]

theorem updAtF_sib {p : List String} {cs : List DirectoryNode}
    {A B : List DirectoryNode} {c : DirectoryNode}
    (hshape : ∀ x ∈ A ++ c :: B, ∃ nm, nm ≠ "" ∧ x.elem.rp = p ++ [nm])
    (hnodup : ((A ++ c :: B).map (fun x => x.elem.rp)).Nodup) :
    updAtF c.elem.rp (fun z => DirectoryNode.mk z.elem cs) (A ++ c :: B) =
      A ++ DirectoryNode.mk c.elem cs :: B := by
  have hkey : ∀ x ∈ A ++ c :: B, x.elem.rp ≠ c.elem.rp →
      updAtN c.elem.rp (fun z => DirectoryNode.mk z.elem cs) x = x := by
    intro x hx hxe
    obtain ⟨nx, -, hrx⟩ := hshape x hx
    obtain ⟨nc, -, hrc⟩ := hshape c (by simp)
    have hnpre : ¬ x.elem.rp <+: c.elem.rp := by
      intro hpre
      apply hxe
      refine hpre.eq_of_length ?_
      rw [hrx, hrc]
      simp
    rw [updAtN_def, if_neg hxe, if_neg hnpre]
  rw [List.map_append] at hnodup
  obtain ⟨hndA, hndCB, hdisj⟩ := List.nodup_append.mp hnodup
  have hA : ∀ x ∈ A, x.elem.rp ≠ c.elem.rp := by
    intro x hx he
    exact hdisj (List.mem_map_of_mem _ hx)
      (by rw [he]; exact List.mem_map_of_mem _ (by simp))
  have hB : ∀ x ∈ B, x.elem.rp ≠ c.elem.rp := by
    intro x hx he
    rw [List.map_cons] at hndCB
    refine (List.nodup_cons.mp hndCB).1 ?_
    rw [← he]
    exact List.mem_map_of_mem _ hx
  rw [updAtF_eq_map, List.map_append, List.map_cons]
  have eA : A.map (updAtN c.elem.rp (fun z => DirectoryNode.mk z.elem cs)) =
      A := by
    conv_rhs => rw [← List.map_id A]
    refine List.map_congr_left ?_
    intro x hx
    exact hkey x (by simp [hx]) (hA x hx)
  have eB : B.map (updAtN c.elem.rp (fun z => DirectoryNode.mk z.elem cs)) =
      B := by
    conv_rhs => rw [← List.map_id B]
    refine List.map_congr_left ?_
    intro x hx
    exact hkey x (by simp [hx]) (hB x hx)
  have eC : updAtN c.elem.rp (fun z => DirectoryNode.mk z.elem cs) c =
      DirectoryNode.mk c.elem cs := by
    rw [updAtN_def, if_pos rfl]
  rw [eA, eB, eC]

theorem addGroupIdx_ok {p : List String} :
    ∀ (gs : List DirectoryNode) (idx : List (List String)),
    (∀ x ∈ gs, x.elem.rp.dropLast = p) →
    ((gs.map (fun x => x.elem.rp)).Nodup) →
    (∀ x ∈ gs, ¬ x.elem.rp ∈ idx) →
    ∃ idx2, addGroupIdx p gs idx = some idx2 ∧
      ∀ q, q ∈ idx2 ↔ (∃ x ∈ gs, x.elem.rp = q) ∨ q ∈ idx := by
  intro gs
  induction gs with
  | nil =>
    intro idx _ _ _
    exact ⟨idx, rfl, fun q => by simp⟩
  | cons n ns ih =>
    intro idx hpar hnodup hfresh
    have hnd2 : (n.elem.rp :: ns.map (fun y => y.elem.rp)).Nodup := by
      simpa using hnodup
    have hfr : ∀ x ∈ ns, ¬ x.elem.rp ∈ (n.elem.rp :: idx) := by
      intro x hx hmem
      rcases List.mem_cons.mp hmem with he2 | h2
      · exact (List.nodup_cons.mp hnd2).1
          (by rw [← he2]; exact List.mem_map_of_mem _ hx)
      · exact hfresh x (by simp [hx]) h2
    obtain ⟨idx2, he, hiff⟩ := ih (n.elem.rp :: idx)
      (fun x hx => hpar x (by simp [hx]))
      ((List.nodup_cons.mp hnd2).2)
      hfr
    refine ⟨idx2, ?_, fun q => ?_⟩
    · rw [addGroupIdx, if_neg (by simp [hpar n (by simp)]),
        if_neg (hfresh n (by simp))]
      exact he
    · rw [hiff]
      constructor
      · rintro (⟨x, hx, rfl⟩ | hq)
        · exact Or.inl ⟨x, by simp [hx], rfl⟩
        · rcases List.mem_cons.mp hq with rfl | h2
          · exact Or.inl ⟨n, by simp, rfl⟩
          · exact Or.inr h2
      · rintro (⟨x, hx, rfl⟩ | hq)
        · rcases List.mem_cons.mp hx with rfl | h2
          · exact Or.inr (by simp)
          · exact Or.inl ⟨x, h2, rfl⟩
        · exact Or.inr (by simp [hq])


/-! Unfolding equations and the group-attach step. -/

theorem rwR_eq (nodes : List DirectoryNode) (pb : Bool) :
    rwR nodes pb =
      ((if pb then [([] : List Char)] else []) ++
        nodes.map (fun n => elemWriteTo n.elem) ++
        (rwLoop nodes (!nodes.isEmpty)).1,
      (rwLoop nodes (!nodes.isEmpty)).2) := by
  rw [rwR]

theorem rwLoop_nil (pb : Bool) : rwLoop [] pb = ([], pb) := by
  rw [rwLoop]

theorem rwLoop_cons (n : DirectoryNode) (ns : List DirectoryNode)
    (pb : Bool) :
    rwLoop (n :: ns) pb =
      if n.elem.isDirectory = false then ([], pb)
      else ((rwR n.content pb).1 ++ (rwLoop ns (rwR n.content pb).2).1,
        (rwLoop ns (rwR n.content pb).2).2) := by
  rw [rwLoop]

theorem flushIf_true (g : List DirectoryNode) (st : ReaderSt) :
    flushIf true g st = addGroup g st := rfl

theorem flushIf_false_nil (st : ReaderSt) :
    flushIf false [] st = some st := rfl

theorem flushIf_false {g : List DirectoryNode} {st stC : ReaderSt}
    (h : flushIf false g st = some stC) : g = [] ∧ st = stC := by
  rw [flushIf, if_neg (by simp)] at h
  split at h
  · rename_i hg
    refine ⟨?_, by injection h⟩
    cases g with
    | nil => rfl
    | cons a l => simp [List.isEmpty] at hg
  · cases h

/-- The bundle of preconditions for attaching a group below `p`. -/
def HAtt (p : List String) (st0 : ReaderSt) : Prop :=
  (p = [] ∧ st0.top = []) ∨
    ∃ m ∈ forestAll st0.top, m.elem.rp = p ∧ m.content = [] ∧
      m.elem.ty = FileType.directory

theorem attach_ok {p : List String} {ns : List DirectoryNode}
    {st0 : ReaderSt} (hwf : ForestWF p ns) (hne : ns ≠ [])
    (hatt : HAtt p st0) (hst : ForestWF [] st0.top)
    (hidx : IdxInv st0) :
    ∃ stC, addGroup (stripF ns) st0 = some stC ∧
      stC.top = attachG p (stripF ns) st0.top ∧
      ForestWF [] stC.top ∧ IdxInv stC := by
  obtain ⟨n0, ns2, rfl⟩ : ∃ a l, ns = a :: l := by
    cases ns with
    | nil => exact absurd rfl hne
    | cons a l => exact ⟨a, l, rfl⟩
  obtain ⟨nm0, hnm0, hr0⟩ := hwf.shape n0 (by simp)
  have hdrop : (strip n0).elem.rp.dropLast = p := by
    show n0.elem.rp.dropLast = p
    rw [hr0]
    exact List.dropLast_concat
  have hparents : ∀ x ∈ stripF (n0 :: ns2), x.elem.rp.dropLast = p := by
    intro x hx
    rw [stripF, List.mem_map] at hx
    obtain ⟨y, hy, rfl⟩ := hx
    obtain ⟨nmy, -, hry⟩ := hwf.shape y hy
    show y.elem.rp.dropLast = p
    rw [hry]
    exact List.dropLast_concat
  have hnodupg : ((stripF (n0 :: ns2)).map (fun x => x.elem.rp)).Nodup := by
    rw [stripF_map_rp]
    exact hwf.nodup
  have hfreshg : ∀ x ∈ stripF (n0 :: ns2), ¬ x.elem.rp ∈ st0.idx := by
    intro x hx hmem
    obtain ⟨y, hy, hye⟩ := (hidx _).mp hmem
    rw [stripF, List.mem_map] at hx
    obtain ⟨z, hz, rfl⟩ := hx
    obtain ⟨nmz, hnz, hrz⟩ := hwf.shape z hz
    rcases hatt with ⟨hp0, htop0⟩ | ⟨m, hmmem, hmrp, hmc, hmty⟩
    · rw [htop0] at hy
      simp [forestAll] at hy
    · have hpre : m.elem.rp <+: y.elem.rp := by
        rw [hmrp, hye]
        show p <+: z.elem.rp
        rw [hrz]
        exact List.prefix_append p [nmz]
      have hym := hst.no_ext hmmem hmc y hy hpre
      have h5 : m.elem.rp = z.elem.rp := by
        rw [← hym]
        exact hye
      have h6 : p = p ++ [nmz] := hmrp.symm.trans (h5.trans hrz)
      simp at h6
  obtain ⟨idx2, hidx2eq, hidx2iff⟩ :=
    addGroupIdx_ok (stripF (n0 :: ns2)) st0.idx hparents hnodupg hfreshg
  have hcons : stripF (n0 :: ns2) = strip n0 :: stripF ns2 := rfl
  rcases hatt with ⟨hp0, htop0⟩ | ⟨m, hmmem, hmrp, hmc, hmty⟩
  · -- top-level attach
    refine ⟨⟨stripF (n0 :: ns2), idx2⟩, ?_, ?_, ?_, ?_⟩
    · rw [hcons, addGroup]
      rw [show (strip n0).elem.rp.dropLast = p from hdrop]
      rw [hcons] at hidx2eq
      rw [hidx2eq]
      rw [htop0, hp0]
      simp
    · rw [attachG, if_pos hp0]
    · show ForestWF [] (stripF (n0 :: ns2))
      rw [← hp0]
      exact stripF_wf hwf
    · intro q
      rw [show (⟨stripF (n0 :: ns2), idx2⟩ : ReaderSt).idx = idx2 from rfl,
        hidx2iff]
      constructor
      · rintro (⟨x, hx, rfl⟩ | hq)
        · exact ⟨x, by rw [forestAll_stripF]; exact hx, rfl⟩
        · exfalso
          obtain ⟨y, hy, -⟩ := (hidx q).mp hq
          rw [htop0] at hy
          simp [forestAll] at hy
      · rintro ⟨x, hx, rfl⟩
        rw [forestAll_stripF] at hx
        exact Or.inl ⟨x, hx, rfl⟩
  · -- attach below the directory node at `p`
    have hpne : p ≠ [] := by
      intro h0
      have hl := (hst.path_extends m hmmem).2
      rw [hmrp, h0] at hl
      simp at hl
    have htopne : st0.top.isEmpty = false := by
      cases htc : st0.top with
      | nil =>
        rw [htc] at hmmem
        simp [forestAll] at hmmem
      | cons a l => rfl
    refine ⟨⟨fillAt p (stripF (n0 :: ns2)) st0.top, idx2⟩, ?_, ?_, ?_, ?_⟩
    · rw [hcons, addGroup]
      rw [show (strip n0).elem.rp.dropLast = p from hdrop]
      rw [hcons] at hidx2eq
      rw [hidx2eq]
      dsimp only
      rw [htopne, if_neg Bool.false_ne_true, hst.lookupN_eq hmmem hmrp]
      dsimp only
      rw [if_pos (show m.content.isEmpty = true from by rw [hmc]; rfl)]
      rw [← hcons]
      rfl
    · rw [attachG, if_neg hpne]
    · exact fill_wf hst m hmmem hmrp hmc hmty (stripF_wf hwf)
    · intro q
      rw [show (⟨fillAt p (stripF (n0 :: ns2)) st0.top, idx2⟩ :
          ReaderSt).idx = idx2 from rfl, hidx2iff]
      constructor
      · rintro (⟨x, hx, rfl⟩ | hq)
        · refine ⟨x, ?_, rfl⟩
          exact fill_mem_G hst m hmmem hmrp x
            (by rw [forestAll_stripF]; exact hx)
        · obtain ⟨y, hy, rfl⟩ := (hidx q).mp hq
          obtain ⟨y2, hy2, hy2e⟩ :=
            fill_path_sup (G := stripF (n0 :: ns2)) hst m hmmem hmrp hmc y hy
          exact ⟨y2, hy2, hy2e⟩
      · rintro ⟨x, hx, rfl⟩
        rcases fill_path_sub (G := stripF (n0 :: ns2)) hst m hmmem hmrp x hx
          with ⟨y, hy, hye⟩ | hxg
        · exact Or.inr ((hidx _).mpr ⟨y, hy, hye⟩)
        · rw [forestAll_stripF] at hxg
          exact Or.inl ⟨x, hxg, rfl⟩


/-! The run of the reader over the writer output.  `LStmt` covers the
trailing loop of `recursiveWrite` on a sibling suffix, `RStmt` one full
`recursiveWrite` call; both track the pending reader group through the
`flushIf` interface. -/

theorem dirsFirstB_cons_dir {c : DirectoryNode} {ns : List DirectoryNode}
    (hc : c.elem.isDirectory = true) (h : dirsFirstB (c :: ns) = true) :
    dirsFirstB ns = true := by
  rw [dirsFirstB, if_pos hc] at h
  exact h

theorem dirsFirstB_cons_file {c : DirectoryNode} {ns : List DirectoryNode}
    (hc : c.elem.isDirectory = false) (h : dirsFirstB (c :: ns) = true) :
    ∀ x ∈ ns, x.elem.isDirectory = false := by
  rw [dirsFirstB, if_neg (by rw [hc]; exact Bool.false_ne_true)] at h
  intro x hx
  simpa using List.all_eq_true.mp h x hx

theorem notDir_ty {e : FilesystemElement} (h : e.isDirectory = false) :
    e.ty ≠ FileType.directory := fun h2 => by
  rw [isDirectory_iff.mpr h2] at h
  exact Bool.noConfusion h

theorem sizeOf_tail_lt (c : DirectoryNode) (ns : List DirectoryNode) :
    sizeOf ns < sizeOf (c :: ns) := by
  simp only [List.cons.sizeOf_spec]
  omega

theorem sizeOf_content_lt_cons (c : DirectoryNode)
    (ns : List DirectoryNode) :
    sizeOf c.content < sizeOf (c :: ns) := by
  have h1 := sizeOf_content_lt c
  simp only [List.cons.sizeOf_spec]
  omega

abbrev LStmt (k : Nat) : Prop :=
  ∀ (rem done : List DirectoryNode) (p : List String) (pb : Bool)
    (g : List DirectoryNode) (st stC st0 : ReaderSt) (no : Int)
    (tail : List (List Char)) (fn : String),
    sizeOf rem ≤ k →
    ForestWF p (done ++ rem) → SerialTree (done ++ rem) →
    dirsFirstB rem = true →
    HAtt p st0 → ForestWF [] st0.top → IdxInv st0 →
    flushIf pb g st = some stC →
    stC.top = attachG p (done ++ stripF rem) st0.top →
    ForestWF [] stC.top → IdxInv stC →
    ∃ (no2 : Int) (g2 : List DirectoryNode) (st2 stF : ReaderSt),
      rdLines ((rwLoop rem pb).1 ++ tail) fn no g st =
        rdLines tail fn no2 g2 st2 ∧
      flushIf (rwLoop rem pb).2 g2 st2 = some stF ∧
      stF.top = attachG p (done ++ rem) st0.top ∧
      ForestWF [] stF.top ∧ IdxInv stF

abbrev RStmt (k : Nat) : Prop :=
  ∀ (ns : List DirectoryNode) (p : List String) (pb : Bool)
    (g : List DirectoryNode) (st st0 : ReaderSt) (no : Int)
    (tail : List (List Char)) (fn : String),
    sizeOf ns ≤ k → ns ≠ [] →
    ForestWF p ns → SerialTree ns → dirsFirstB ns = true →
    HAtt p st0 → ForestWF [] st0.top → IdxInv st0 →
    flushIf pb g st = some st0 →
    ∃ (no2 : Int) (g2 : List DirectoryNode) (st2 stF : ReaderSt),
      rdLines ((rwR ns pb).1 ++ tail) fn no g st =
        rdLines tail fn no2 g2 st2 ∧
      flushIf (rwR ns pb).2 g2 st2 = some stF ∧
      stF.top = attachG p ns st0.top ∧
      ForestWF [] stF.top ∧ IdxInv stF

theorem rdL_of_ih (k : Nat)
    (ihR : ∀ j, j < k → RStmt j)
    (ihL : ∀ j, j < k → LStmt j) : LStmt k := by
  intro rem done p pb g st stC st0 no tail fn hsz hwf hser hdf hatt hwf0
    hidx0 hflush htopC hwfC hidxC
  cases rem with
  | nil =>
    refine ⟨no, g, st, stC, ?_, ?_, ?_, hwfC, hidxC⟩
    · rw [rwLoop_nil]
      rfl
    · rw [rwLoop_nil]
      exact hflush
    · rw [List.append_nil]
      have h2 := htopC
      rw [show stripF ([] : List DirectoryNode) = [] from rfl,
        List.append_nil] at h2
      exact h2
  | cons c rem2 =>
    have hcmem : c ∈ done ++ c :: rem2 := by simp
    by_cases hcd : c.elem.isDirectory = true
    case neg =>
      have hcdf : c.elem.isDirectory = false := by
        revert hcd
        cases c.elem.isDirectory <;> simp
      have hcontent : ∀ x ∈ c :: rem2, x.content = [] := by
        intro x hx
        rcases List.mem_cons.mp hx with rfl | h2
        · exact hwf.leaf x hcmem (notDir_ty hcdf)
        · have hxf := dirsFirstB_cons_file hcdf hdf x h2
          exact hwf.leaf x (by simp [h2]) (notDir_ty hxf)
      have hstrip : stripF (c :: rem2) = c :: rem2 := stripF_eq_self hcontent
      rw [rwLoop_cons, if_pos hcdf]
      refine ⟨no, g, st, stC, ?_, ?_, ?_, hwfC, hidxC⟩
      · rfl
      · exact hflush
      · rw [← hstrip]
        exact htopC
    case pos =>
      have hty : c.elem.ty = FileType.directory := isDirectory_iff.mp hcd
      have hdf2 : dirsFirstB rem2 = true := dirsFirstB_cons_dir hcd hdf
      have hwfA : ForestWF p ((done ++ [c]) ++ rem2) := by
        rw [List.append_assoc]
        exact hwf
      have hserA : SerialTree ((done ++ [c]) ++ rem2) := by
        rw [List.append_assoc]
        exact hser
      have hlt3 : sizeOf rem2 < sizeOf (c :: rem2) := sizeOf_tail_lt c rem2
      have hk0 : k - 1 < k := by omega
      have hk2 : sizeOf rem2 ≤ k - 1 := by omega
      rw [rwLoop_cons, if_neg (by rw [hcd]; simp)]
      by_cases hcc : c.content = []
      · -- an empty directory child: prints at most a blank line
        rw [hcc, rwR_eq]
        simp only [List.map_nil, List.isEmpty_nil, Bool.not_true,
          rwLoop_nil, List.nil_append, List.append_nil]
        have hstep : ∃ noX, rdLines
            ((if pb then [([] : List Char)] else []) ++
              ((rwLoop rem2 false).1 ++ tail)) fn no g st =
            rdLines ((rwLoop rem2 false).1 ++ tail) fn noX [] stC := by
          cases pb with
          | true =>
            rw [flushIf_true] at hflush
            exact ⟨no + 1, by
              show rdLines (([] : List Char) ::
                ((rwLoop rem2 false).1 ++ tail)) fn no g st = _
              rw [rdLines_blank hflush]⟩
          | false =>
            obtain ⟨hg, hst2⟩ := flushIf_false hflush
            subst hg
            exact ⟨no, by
              show rdLines ((rwLoop rem2 false).1 ++ tail) fn no [] st = _
              rw [hst2]⟩
        obtain ⟨noX, hstepe⟩ := hstep
        have htopC2 : stC.top =
            attachG p ((done ++ [c]) ++ stripF rem2) st0.top := by
          rw [List.append_assoc]
          have h2 := htopC
          rw [show stripF (c :: rem2) = strip c :: stripF rem2 from rfl,
            strip_eq_self hcc] at h2
          exact h2
        obtain ⟨no2, g2, st2, stF, hB1, hB2, hB3, hB4, hB5⟩ :=
          ihL (k - 1) hk0 rem2 (done ++ [c]) p false [] stC stC st0 noX
            tail fn hk2 hwfA hserA hdf2 hatt hwf0 hidx0
            (flushIf_false_nil stC) htopC2 hwfC hidxC
        refine ⟨no2, g2, st2, stF, ?_, hB2, ?_, hB4, hB5⟩
        · rw [List.append_assoc, hstepe]
          exact hB1
        · rw [List.append_assoc] at hB3
          exact hB3
      · -- a directory child with content: one full recursive write
        have hwfc : ForestWF c.elem.rp c.content := hwf.rec' c hcmem
        have hserc : SerialTree c.content := fun x hx =>
          hser x (sub_mem_forestAll hcmem hx)
        have hdfc : dirsFirstB c.content = true :=
          (hser c (self_mem_forestAll hcmem)).2
        have hstripmem : strip c ∈ forestAll stC.top := by
          rw [htopC, attachG]
          split
          · exact self_mem_forestAll (by
              rw [show stripF (c :: rem2) = strip c :: stripF rem2 from rfl]
              simp)
          · rename_i hpne
            rcases hatt with ⟨hp0, -⟩ | ⟨m, hmmem, hmrp, hmc, hmty⟩
            · exact absurd hp0 hpne
            · refine fill_mem_G hwf0 m hmmem hmrp (strip c) ?_
              refine self_mem_forestAll ?_
              rw [show stripF (c :: rem2) = strip c :: stripF rem2 from rfl]
              simp
        have hattC : HAtt c.elem.rp stC :=
          Or.inr ⟨strip c, hstripmem, rfl, rfl, hty⟩
        have hlt2 : sizeOf c.content < sizeOf (c :: rem2) :=
          sizeOf_content_lt_cons c rem2
        have hkc : sizeOf c.content ≤ k - 1 := by omega
        obtain ⟨noA, gA, stA, stFc, hA1, hA2, hA3, hA4, hA5⟩ :=
          ihR (k - 1) hk0 c.content c.elem.rp pb g st stC no
            ((rwLoop rem2 (rwR c.content pb).2).1 ++ tail) fn
            hkc hcc hwfc hserc hdfc hattC hwfC hidxC hflush
        obtain ⟨nmc, hnmc, hrc⟩ := hwf.shape c hcmem
        have hrpne : c.elem.rp ≠ [] := by
          rw [hrc]
          simp
        have hstFtop : stFc.top = fillAt c.elem.rp c.content stC.top := by
          rw [hA3, attachG, if_neg hrpne]
        have hshape2 : ∀ x ∈ done ++ strip c :: stripF rem2,
            ∃ nm, nm ≠ "" ∧ x.elem.rp = p ++ [nm] := by
          intro x hx
          rcases List.mem_append.mp hx with hxd | hxc
          · exact hwf.shape x (List.mem_append_left _ hxd)
          · rcases List.mem_cons.mp hxc with rfl | hxr
            · obtain ⟨nm, hnm, hr⟩ := hwf.shape c hcmem
              exact ⟨nm, hnm, by show c.elem.rp = p ++ [nm]; exact hr⟩
            · rw [stripF, List.mem_map] at hxr
              obtain ⟨y, hy, rfl⟩ := hxr
              obtain ⟨nm, hnm, hr⟩ := hwf.shape y (by simp [hy])
              exact ⟨nm, hnm, by show y.elem.rp = p ++ [nm]; exact hr⟩
        have hnodup2 : ((done ++ strip c :: stripF rem2).map
            (fun x => x.elem.rp)).Nodup := by
          have he2 : (done ++ strip c :: stripF rem2).map
              (fun x => x.elem.rp) =
              (done ++ c :: rem2).map (fun x => x.elem.rp) := by
            rw [List.map_append, List.map_append, List.map_cons,
              List.map_cons, stripF_map_rp]
            rfl
          rw [he2]
          exact hwf.nodup
        have hsib : updAtF c.elem.rp
            (fun z => DirectoryNode.mk z.elem c.content)
            (done ++ stripF (c :: rem2)) =
            (done ++ [c]) ++ stripF rem2 := by
          have h3 := @updAtF_sib p c.content done
            (stripF rem2) (strip c) hshape2 hnodup2
          have he3 : DirectoryNode.mk (strip c).elem c.content = c :=
            DirectoryNode.eta c
          rw [he3] at h3
          rw [show done ++ stripF (c :: rem2) =
            done ++ strip c :: stripF rem2 from rfl]
          rw [show (done ++ [c]) ++ stripF rem2 =
            done ++ c :: stripF rem2 from by rw [List.append_assoc]; rfl]
          exact h3
        have hcomp : stFc.top =
            attachG p ((done ++ [c]) ++ stripF rem2) st0.top := by
          rw [hstFtop, htopC, attachG, attachG]
          by_cases hp0 : p = []
          · rw [if_pos hp0, if_pos hp0]
            exact hsib
          · rw [if_neg hp0, if_neg hp0]
            rcases hatt with ⟨hp0x, -⟩ | ⟨m, hmmem, hmrp, hmc, hmty⟩
            · exact absurd hp0x hp0
            · have hppre : p <+: c.elem.rp := by
                rw [hrc]
                exact List.prefix_append p [nmc]
              have hpne2 : p ≠ c.elem.rp := by
                intro he
                have h4 := he.trans hrc
                simp at h4
              have hff := fill_fill
                (fun z => DirectoryNode.mk z.elem c.content)
                (done ++ stripF (c :: rem2)) hppre hpne2 hwf0 m hmmem
                hmrp hmc
              rw [show fillAt c.elem.rp c.content
                  (fillAt p (done ++ stripF (c :: rem2)) st0.top) =
                  updAtF c.elem.rp
                    (fun z => DirectoryNode.mk z.elem c.content)
                    (fillAt p (done ++ stripF (c :: rem2)) st0.top)
                  from rfl]
              rw [hff, hsib]
        obtain ⟨no2, g2, st2, stF, hB1, hB2, hB3, hB4, hB5⟩ :=
          ihL (k - 1) hk0 rem2 (done ++ [c]) p (rwR c.content pb).2 gA stA
            stFc st0 noA tail fn hk2 hwfA hserA hdf2 hatt hwf0 hidx0 hA2
            hcomp hA4 hA5
        refine ⟨no2, g2, st2, stF, ?_, hB2, ?_, hB4, hB5⟩
        · show rdLines (((rwR c.content pb).1 ++
              (rwLoop rem2 (rwR c.content pb).2).1) ++ tail) fn no g st = _
          rw [List.append_assoc, hA1]
          exact hB1
        · rw [List.append_assoc] at hB3
          exact hB3

theorem rdR_of_L (k : Nat) (hL : LStmt k) : RStmt k := by
  intro ns p pb g st st0 no tail fn hsz hne hwf hser hdf hatt hwf0 hidx0
    hflush
  have hnisE : ns.isEmpty = false := by
    cases ns with
    | nil => exact absurd rfl hne
    | cons a l => rfl
  obtain ⟨stC, hC1, hC2, hC3, hC4⟩ := attach_ok hwf hne hatt hwf0 hidx0
  have hserE : ∀ n ∈ ns, elemSerialWF n.elem = true := fun n hn =>
    (hser n (self_mem_forestAll hn)).1
  rw [rwR_eq, hnisE, Bool.not_false]
  dsimp only
  cases pb with
  | true =>
    rw [flushIf_true] at hflush
    have hlines : ((if (true : Bool) then [([] : List Char)] else []) ++
        ns.map (fun n => elemWriteTo n.elem) ++ (rwLoop ns true).1) ++
          tail =
        ([] : List Char) :: (ns.map (fun n => elemWriteTo n.elem) ++
          ((rwLoop ns true).1 ++ tail)) := by
      simp [List.append_assoc]
    rw [hlines, rdLines_blank hflush, rdLines_header ns hserE]
    obtain ⟨no2, g2, st2, stF, hB1, hB2, hB3, hB4, hB5⟩ :=
      hL ns [] p true (stripF ns) st0 stC st0 (no + 1 + ns.length) tail fn
        hsz hwf hser hdf hatt hwf0 hidx0 (by rw [flushIf_true]; exact hC1)
        hC2 hC3 hC4
    refine ⟨no2, g2, st2, stF, ?_, hB2, ?_, hB4, hB5⟩
    · exact hB1
    · exact hB3
  | false =>
    obtain ⟨hg, hst2⟩ := flushIf_false hflush
    subst hg
    have hlines : ((if (false : Bool) then [([] : List Char)] else []) ++
        ns.map (fun n => elemWriteTo n.elem) ++ (rwLoop ns true).1) ++
          tail =
        ns.map (fun n => elemWriteTo n.elem) ++
          ((rwLoop ns true).1 ++ tail) := by
      simp [List.append_assoc]
    rw [hlines, hst2, rdLines_header ns hserE]
    obtain ⟨no2, g2, st2, stF, hB1, hB2, hB3, hB4, hB5⟩ :=
      hL ns [] p true (stripF ns) st0 stC st0 (no + ns.length) tail fn
        hsz hwf hser hdf hatt hwf0 hidx0 (by rw [flushIf_true]; exact hC1)
        hC2 hC3 hC4
    refine ⟨no2, g2, st2, stF, ?_, hB2, ?_, hB4, hB5⟩
    · exact hB1
    · exact hB3

theorem rdLR : ∀ k : Nat, LStmt k ∧ RStmt k := by
  intro k
  induction k using Nat.strong_induction_on with
  | _ k ih =>
    have hLk : LStmt k :=
      rdL_of_ih k (fun j hj => (ih j hj).2) (fun j hj => (ih j hj).1)
    exact ⟨hLk, rdR_of_L k hLk⟩

/-- The lines-level manifest round-trip. -/
theorem treeReadLines_writeLines (t : List DirectoryNode) (fn : String)
    (hwf : ForestWF [] t) (hser : SerialTree t)
    (hdf : dirsFirstB t = true) :
    treeReadLines (treeWriteLines t) fn = some t := by
  by_cases ht : t = []
  · subst ht
    have hl : treeWriteLines ([] : List DirectoryNode) = [] := by
      rw [treeWriteLines, rwR_eq]
      simp [rwLoop_nil]
    rw [hl]
    rfl
  · have hatt : HAtt [] ⟨[], []⟩ := Or.inl ⟨rfl, rfl⟩
    have hwf0 : ForestWF [] (⟨[], []⟩ : ReaderSt).top := forestWF_nil []
    have hidx0 : IdxInv ⟨[], []⟩ := by
      intro q
      constructor
      · intro h
        simp at h
      · rintro ⟨x, hx, -⟩
        simp [forestAll] at hx
    obtain ⟨no2, g2, st2, stF, hB1, hB2, hB3, hB4, hB5⟩ :=
      (rdLR (sizeOf t)).2 t [] false [] ⟨[], []⟩ ⟨[], []⟩ 0 [] fn
        (le_refl _) ht hwf hser hdf hatt hwf0 hidx0 (flushIf_false_nil _)
    rw [List.append_nil] at hB1
    have hlast : rdLines ([] : List (List Char)) fn no2 g2 st2 =
        some (no2, g2, st2) := rfl
    rw [hlast] at hB1
    rw [treeReadLines,
      show treeWriteLines t = (rwR t false).1 from rfl, hB1]
    dsimp only
    rw [flushIf_addGroup hB2]
    dsimp only
    rw [hB3]
    rfl


/-! No newline character ever appears inside a written line, so the
`getline` decomposition of the written stream is exactly the written
line list. -/

theorem ws_ne_nl {c : Char} (h : wsChar c = false) : c ≠ '\n' := by
  rintro rfl
  exact absurd h (by decide)

theorem quoteGo_no_nl : ∀ (cs : List Char), (∀ c ∈ cs, c ≠ '\n') →
    ∀ c ∈ quoteGo cs, c ≠ '\n' := by
  intro cs
  induction cs with
  | nil =>
    intro _ c hc
    rcases List.mem_cons.mp hc with rfl | h2
    · decide
    · simp at h2
  | cons a l ih =>
    intro h c hc
    rw [quoteGo] at hc
    split at hc
    · rcases List.mem_cons.mp hc with rfl | hc2
      · decide
      · rcases List.mem_cons.mp hc2 with rfl | hc3
        · exact h c (by simp)
        · exact ih (fun d hd => h d (by simp [hd])) c hc3
    · rcases List.mem_cons.mp hc with rfl | hc2
      · exact h c (by simp)
      · exact ih (fun d hd => h d (by simp [hd])) c hc2

theorem compOkB_no_nl {t : String} (h : compOkB t = true) :
    ∀ c ∈ t.data, c ≠ '\n' := by
  rw [compOkB, Bool.and_eq_true, List.all_eq_true] at h
  intro c hc he
  have h2 := h.2 c hc
  simp only [Bool.and_eq_true, Bool.not_eq_true', decide_eq_false_iff_not]
    at h2
  exact h2.2 (he.trans (by decide))

theorem joinSlash_no_nl : ∀ (comps : List String),
    (∀ t ∈ comps, compOkB t = true) →
    ∀ c ∈ joinSlash comps, c ≠ '\n' := by
  intro comps
  induction comps with
  | nil =>
    intro _ c hc
    simp [joinSlash] at hc
  | cons a l ih =>
    intro h c hc
    cases l with
    | nil =>
      rw [joinSlash] at hc
      exact compOkB_no_nl (h a (by simp)) c hc
    | cons b l2 =>
      rw [joinSlash] at hc
      · rcases List.mem_append.mp hc with h1 | h1
        · exact compOkB_no_nl (h a (by simp)) c h1
        · rcases List.mem_cons.mp h1 with rfl | h2
          · decide
          · exact ih (fun t ht => h t (by simp [ht])) c h2
      · simp

theorem intDigits_no_nl (z : Int) : ∀ c ∈ intDigits z, c ≠ '\n' := by
  intro c hc
  rw [intDigits] at hc
  split at hc
  · rcases List.mem_cons.mp hc with rfl | h2
    · decide
    · exact ws_ne_nl (natDigits_all _ c h2).2
  · exact ws_ne_nl (natDigits_all _ c hc).2

theorem dateChars_no_nl {mt : Int} (h0 : 0 ≤ mt)
    (h1 : mt ≤ 253402300799) : ∀ c ∈ dateChars mt, c ≠ '\n' := by
  obtain ⟨hy0, hy1, hm0, hm1, hd0, hd1, hh0, hh1, hmin0, hmin1, hs0, hs1⟩ :=
    gmtime_bounds mt h0 h1
  have hpm : (gmtimeModel mt).mon.toNat < 100 := by omega
  have hpd : (gmtimeModel mt).mday.toNat < 100 := by omega
  have hph : (gmtimeModel mt).hour.toNat < 100 := by omega
  have hpmin : (gmtimeModel mt).minute.toNat < 100 := by omega
  have hps : (gmtimeModel mt).sec.toNat < 100 := by omega
  intro c hc
  rw [dateChars] at hc
  rcases List.mem_append.mp hc with h | h
  · rcases List.mem_append.mp h with h | h
    · rcases List.mem_append.mp h with h | h
      · rcases List.mem_append.mp h with h | h
        · rcases List.mem_append.mp h with h | h
          · exact ws_ne_nl (natDigits_all _ c h).2
          · rcases List.mem_cons.mp h with rfl | h
            · decide
            · exact ws_ne_nl (pad2_all hpm c h).2
        · rcases List.mem_cons.mp h with rfl | h
          · decide
          · exact ws_ne_nl (pad2_all hpd c h).2
      · rcases List.mem_cons.mp h with rfl | h
        · decide
        · exact ws_ne_nl (pad2_all hph c h).2
    · rcases List.mem_cons.mp h with rfl | h
      · decide
      · exact ws_ne_nl (pad2_all hpmin c h).2
  · rcases List.mem_cons.mp h with rfl | h
    · decide
    · exact ws_ne_nl (pad2_all hps c h).2

theorem elemWriteTo_no_nl {e : FilesystemElement}
    (hwf : elemSerialWF e = true) : ∀ c ∈ elemWriteTo e, c ≠ '\n' := by
  obtain ⟨ty, per, us, gs, mt, sz, fileHash, rp, symlink⟩ := e
  rw [elemSerialWF] at hwf
  simp only [Bool.and_eq_true, decide_eq_true_eq] at hwf
  obtain ⟨⟨⟨⟨⟨⟨hper, hmt0⟩, hmt1⟩, hus⟩, hgs⟩, hbr⟩, hfp⟩ := hwf
  have hquote : ∀ c ∈ quoteChars (joinSlash rp), c ≠ '\n' := by
    intro c hc
    rw [quoteChars] at hc
    rcases List.mem_cons.mp hc with rfl | h2
    · decide
    · exact quoteGo_no_nl _
        (joinSlash_no_nl rp (fun t ht => List.all_eq_true.mp hfp t ht)) c h2
  have htz : ∀ c ∈ (" +0000 ").data, c ≠ '\n' := by decide
  have hbranch : ∀ c ∈ (match ty with
      | FileType.regular => intDigits sz ++ ' ' ::
          (if fileHash = "" then ['*'] else fileHash.data) ++ [' ']
      | FileType.symlink => quoteChars symlink.data ++ [' ']
      | _ => ([] : List Char)), c ≠ '\n' := by
    revert hbr
    cases ty
    case regular =>
      intro hbr c hc
      simp only [Bool.and_eq_true, Bool.or_eq_true, decide_eq_true_eq]
        at hbr
      obtain ⟨⟨hsz0, hsym⟩, hh⟩ := hbr
      rcases List.mem_append.mp hc with h | h
      · rcases List.mem_append.mp h with h | h
        · exact intDigits_no_nl sz c h
        · rcases List.mem_cons.mp h with rfl | h
          · decide
          · split at h
            · rcases List.mem_cons.mp h with rfl | h3
              · decide
              · simp at h3
            · rename_i hne
              rcases hh with hh0 | ⟨hh40, hhws⟩
              · exact absurd hh0 hne
              · exact ws_ne_nl (by
                  simpa using List.all_eq_true.mp hhws c h)
      · rcases List.mem_cons.mp h with rfl | h3
        · decide
        · simp at h3
    case symlink =>
      intro hbr c hc
      simp only [Bool.and_eq_true, decide_eq_true_eq] at hbr
      obtain ⟨⟨hsl, hsz0⟩, hh0⟩ := hbr
      have hnl : ∀ d ∈ symlink.data, d ≠ '\n' :=
        fun d hd => bne_iff_ne.mp (List.all_eq_true.mp hsl d hd)
      rcases List.mem_append.mp hc with h | h
      · rw [quoteChars] at h
        rcases List.mem_cons.mp h with rfl | h2
        · decide
        · exact quoteGo_no_nl _ hnl c h2
      · rcases List.mem_cons.mp h with rfl | h3
        · decide
        · simp at h3
    case directory =>
      intro _ c hc
      simp at hc
    case unknown =>
      intro _ c hc
      simp at hc
  intro c hc
  rw [elemWriteTo] at hc
  rcases List.mem_append.mp hc with h | h
  · rcases List.mem_append.mp h with h | h
    · rcases List.mem_append.mp h with h | h
      · rcases List.mem_append.mp h with h | h
        · rcases List.mem_append.mp h with h | h
          · rcases List.mem_append.mp h with h | h
            · exact ws_ne_nl (permChars_not_ws hper c h)
            · rcases List.mem_cons.mp h with rfl | h
              · decide
              · exact ws_ne_nl ((tokenOkB_facts hus).2 c h)
          · rcases List.mem_cons.mp h with rfl | h
            · decide
            · exact ws_ne_nl ((tokenOkB_facts hgs).2 c h)
        · rcases List.mem_cons.mp h with rfl | h
          · decide
          · exact dateChars_no_nl hmt0 hmt1 c h
      · exact htz c h
    · exact hbranch c h
  · exact hquote c h

abbrev WLoopStmt (k : Nat) : Prop :=
  ∀ (ns : List DirectoryNode) (pb : Bool), sizeOf ns ≤ k →
    ∀ l ∈ (rwLoop ns pb).1,
      l = [] ∨ ∃ n ∈ forestAll ns, l = elemWriteTo n.elem

abbrev WRStmt (k : Nat) : Prop :=
  ∀ (ns : List DirectoryNode) (pb : Bool), sizeOf ns ≤ k →
    ∀ l ∈ (rwR ns pb).1,
      l = [] ∨ ∃ n ∈ forestAll ns, l = elemWriteTo n.elem

theorem wShape : ∀ k : Nat, WLoopStmt k ∧ WRStmt k := by
  intro k
  induction k using Nat.strong_induction_on with
  | _ k ih =>
    have hLoop : WLoopStmt k := by
      intro ns pb hsz l hl
      cases ns with
      | nil =>
        rw [rwLoop_nil] at hl
        simp at hl
      | cons n ns2 =>
        have hlt1 : sizeOf n.content < sizeOf (n :: ns2) :=
          sizeOf_content_lt_cons n ns2
        have hlt2 : sizeOf ns2 < sizeOf (n :: ns2) := sizeOf_tail_lt n ns2
        have hk0 : k - 1 < k := by omega
        rw [rwLoop_cons] at hl
        split at hl
        · simp at hl
        · rcases List.mem_append.mp hl with h1 | h1
          · rcases (ih (k - 1) hk0).2 n.content pb (by omega) l h1 with
              rfl | ⟨m, hm, rfl⟩
            · exact Or.inl rfl
            · exact Or.inr ⟨m, sub_mem_forestAll (by simp) hm, rfl⟩
          · rcases (ih (k - 1) hk0).1 ns2 _ (by omega) l h1 with
              rfl | ⟨m, hm, rfl⟩
            · exact Or.inl rfl
            · refine Or.inr ⟨m, ?_, rfl⟩
              show m ∈ nodeAll n ++ forestAll ns2
              exact List.mem_append_right _ hm
    have hR : WRStmt k := by
      intro ns pb hsz l hl
      rw [rwR_eq] at hl
      rcases List.mem_append.mp hl with h1 | h1
      · rcases List.mem_append.mp h1 with h2 | h2
        · split at h2
          · rcases List.mem_cons.mp h2 with rfl | h3
            · exact Or.inl rfl
            · simp at h3
          · simp at h2
        · rw [List.mem_map] at h2
          obtain ⟨n, hn, rfl⟩ := h2
          exact Or.inr ⟨n, self_mem_forestAll hn, rfl⟩
      · exact hLoop ns _ hsz l h1
    exact ⟨hLoop, hR⟩

theorem treeWriteLines_no_nl {t : List DirectoryNode}
    (hser : SerialTree t) :
    ∀ l ∈ treeWriteLines t, ∀ c ∈ l, c ≠ '\n' := by
  intro l hl
  rcases (wShape (sizeOf t)).2 t false (le_refl _) l hl with
    rfl | ⟨n, hn, rfl⟩
  · intro c hc
    simp at hc
  · exact elemWriteTo_no_nl (hser n hn).1

/-- The character-level manifest round-trip. -/
theorem treeReadChars_writeChars (t : List DirectoryNode) (fn : String)
    (hwf : ForestWF [] t) (hser : SerialTree t)
    (hdf : dirsFirstB t = true) :
    treeReadChars (treeWriteChars t) fn = some t := by
  rw [treeReadChars, treeWriteChars,
    splitNl_joinLines _ (treeWriteLines_no_nl hser)]
  exact treeReadLines_writeLines t fn hwf hser hdf


/-! The manifest round-trip claim.  `scan` stores the full 12-bit
permission word from `stat` (core.cpp:77, `s.permissions()` including
setuid/setgid/sticky), but `writeTo` serializes only the nine
rwxrwxrwx characters, so a scanned element with a special permission
bit set does not survive the round trip. -/

def cexSetuidElem : FilesystemElement :=
  ⟨FileType.regular, 2541, "u", "g", 100, 0, "", ["f"], ""⟩

def cexSetuidTree : List DirectoryNode :=
  [DirectoryNode.mk cexSetuidElem []]

def cexSetuidReadElem : FilesystemElement :=
  ⟨FileType.regular, 493, "u", "g", 100, 0, "", ["f"], ""⟩

theorem cexSetuidTree_lines :
    treeWriteLines cexSetuidTree = [elemWriteTo cexSetuidElem] := by
  rw [treeWriteLines, rwR_eq,
    show rwLoop cexSetuidTree (!cexSetuidTree.isEmpty) = ([], true) from by
      rw [show (!cexSetuidTree.isEmpty) = true from rfl,
        show cexSetuidTree = [DirectoryNode.mk cexSetuidElem []] from rfl,
        rwLoop_cons,
        if_pos (show (DirectoryNode.mk cexSetuidElem
          []).elem.isDirectory = false from by decide)]]
  rfl

/-- **C3 counterexample.** A tree that `scan` can produce — one regular
file whose 12-bit permission word 0o4755 has the setuid bit set — does
not survive the manifest round trip: it is read back with the truncated
permissions 0o755, a structurally different element. -/
theorem C3_manifest_roundtrip_counterexample :
    treeReadChars (treeWriteChars cexSetuidTree) "m" =
      some [DirectoryNode.mk cexSetuidReadElem []] ∧
    cexSetuidReadElem ≠ cexSetuidElem := by
  constructor
  · rw [treeWriteChars, cexSetuidTree_lines]
    decide
  · decide

/-- **C3 (amended).** For every directory tree whose path structure is
well formed (`treeWFb`), whose elements carry at most the nine
serialized permission bits and satisfy the remaining per-field
serialization constraints (`serialTreeB`), and whose sibling lists keep
directories first (`dirsFirstB`), writing the tree to a manifest
character stream and reading that stream back yields the same tree
structurally, sibling order included. -/
theorem C3_manifest_roundtrip_amended (t : List DirectoryNode)
    (fn : String) (hwf : treeWFb t = true) (hser : serialTreeB t = true)
    (hdf : dirsFirstB t = true) :
    treeReadChars (treeWriteChars t) fn = some t :=
  treeReadChars_writeChars t fn (treeWF_of_b hwf) (serialTree_of_b hser)
    hdf

/-- A symlink whose target carries a space: streamed `std::quoted`, it
round-trips. -/
def sampleSymElem : FilesystemElement :=
  ⟨FileType.symlink, 511, "u", "g", 100, 0, "", ["l"], "a b"⟩

def sampleTreeSym : List DirectoryNode :=
  [DirectoryNode.mk sampleDirElem [DirectoryNode.mk sampleFileElem []],
   DirectoryNode.mk sampleSymElem []]

/-- Witness: the round trip at a concrete three-node tree holding a
directory, a regular file below it and a symlink whose target contains
a space. -/
theorem C3_manifest_roundtrip_amended_witness :
    treeReadChars (treeWriteChars sampleTreeSym) "m" =
      some sampleTreeSym :=
  C3_manifest_roundtrip_amended sampleTreeSym "m" (by decide)
    (by decide) (by decide)

/-! ## The backup and scrub engines (backup.cpp)

The trees mutated by `backupImpl` and `scrubImpl` are modelled
structurally; mutation through the flat index pointer is again `updAtF`
(`ForestWF.index_unique`).  Filesystem mutations performed by the
`...AndFilesystem` tree operations are recorded in an effect log, the
`askYesNo` prompt (backup.cpp:212) is an oracle indexed by the number of
prompts consumed so far, and a thrown exception is `none`. -/

/-- `FilesystemElement(other, relativePath)` (core.cpp:98): copy with the
relative path replaced. -/
def feWithPath (e : FilesystemElement) (p : List String) :
    FilesystemElement :=
  FilesystemElement.mk e.ty e.per e.us e.gs e.mt e.sz e.fileHash p e.symlink

/-- `FilesystemElement::setPermissions` (core.h:143). -/
def setPermissions (e : FilesystemElement) (per : Nat) :
    FilesystemElement :=
  FilesystemElement.mk e.ty per e.us e.gs e.mt e.sz e.fileHash e.rp e.symlink

/-- `FilesystemElement::setOwner` (core.h:153). -/
def setOwner (e : FilesystemElement) (us gs : String) :
    FilesystemElement :=
  FilesystemElement.mk e.ty e.per us gs e.mt e.sz e.fileHash e.rp e.symlink

/-- `FilesystemElement::setMtime` (core.h:173). -/
def setMtime (e : FilesystemElement) (mt : Int) : FilesystemElement :=
  FilesystemElement.mk e.ty e.per e.us e.gs mt e.sz e.fileHash e.rp e.symlink

/-- `path::filename` of a nonempty relative path: its last component. -/
def lastComp (p : List String) : String := p.getLastD ""

/-- Stable insertion by `FilesystemElement::operator<`; an equal element
goes after the existing ones. -/
def insertSorted (a : DirectoryNode) :
    List DirectoryNode → List DirectoryNode
  | [] => [a]
  | b :: bs =>
    if feLt a.elem b.elem then a :: b :: bs else b :: insertSorted a bs

/-- `std::list::sort` with `DirectoryNode::operator<` (a stable sort
ordering by `feLt`, core.cpp:241). -/
def sortNodes (ns : List DirectoryNode) : List DirectoryNode :=
  ns.foldl (fun acc a => insertSorted a acc) []

mutual
/-- `DirectoryNode::recursiveAdd` (core.cpp:303): copy `src` below a
directory whose relative path is `dstRp`, re-rooting every copied
element's path and sorting each copied content list. -/
def recursiveAdd (dstRp : List String) : DirectoryNode → DirectoryNode
  | DirectoryNode.mk e cs =>
    DirectoryNode.mk (feWithPath e (dstRp ++ [lastComp e.rp]))
      (sortNodes (recursiveAddList (dstRp ++ [lastComp e.rp]) cs))

/-- The content loop of `DirectoryNode::recursiveAdd`. -/
def recursiveAddList (dstRp : List String) :
    List DirectoryNode → List DirectoryNode
  | [] => []
  | n :: ns => recursiveAdd dstRp n :: recursiveAddList dstRp ns
end

/-- `DirectoryNode::addToDirectoryContent` (core.cpp:294). -/
def addToDirContent (dst src : DirectoryNode) : DirectoryNode :=
  DirectoryNode.mk dst.elem
    (sortNodes (dst.content ++ [recursiveAdd dst.elem.rp src]))

/-- `DirectoryTree::search` (core.cpp:416): element lookup through the
index. -/
def search (t : List DirectoryNode) (p : List String) :
    Option FilesystemElement :=
  lookupF t p

/-- `DirectoryTree::searchNode` (core.cpp:423): node lookup through the
flat index, which holds the nodes of every depth. -/
def searchNode (t : List DirectoryNode) (p : List String) :
    Option DirectoryNode :=
  (forestAll t).find? (fun n => n.elem.rp == p)

/-- `DirectoryTree::treeCopy` (core.cpp:592): the tree part of a copy
from `srcT` into `t`; both paths resolve through `searchNode`.  The
thrown errors (source path not found, destination path not found or not
a directory) are `none`. -/
def treeCopy (t srcT : List DirectoryNode) (rSrc rDst : List String) :
    Option (List DirectoryNode) :=
  match searchNode srcT rSrc with
  | none => none
  | some src =>
    if rDst ≠ [] then
      match searchNode t rDst with
      | none => none
      | some dst =>
        if dst.elem.isDirectory = false then none
        else some (updAtF rDst (fun d => addToDirContent d src) t)
    else
      some (sortNodes (t ++ [src.content.foldl addToDirContent
        (DirectoryNode.mk (feWithPath src.elem [lastComp src.elem.rp]) [])]))

/-- `DirectoryTree::copyFromTree` (core.h:502): tree-only copy, delegates
to `treeCopy`. -/
def copyFromTree (t srcT : List DirectoryNode) (rSrc rDst : List String) :
    Option (List DirectoryNode) :=
  treeCopy t srcT rSrc rDst

/-- `DirectoryTree::addSymlinkToTree` (core.cpp:488). -/
def addSymlinkToTree (t : List DirectoryNode) (e : FilesystemElement) :
    Option (List DirectoryNode) :=
  if e.rp.dropLast = [] then
    some (sortNodes (t ++ [DirectoryNode.mk e []]))
  else
    match searchNode t e.rp.dropLast with
    | none => none
    | some _ =>
      some (updAtF e.rp.dropLast
        (fun d => addToDirContent d (DirectoryNode.mk e [])) t)

/-- Modelled from the spec: `DirectoryTree::modifyPermissionsInTree` is
declared at core.h:583 with its behaviour fully documented there — set
the permissions of the entry at `relativePath` (through the indexed
node's `setPermissions`, core.h:331), throwing if the path is not in the
tree — but its body is not among the sources in `src/`. -/
def modifyPermissionsInTree (t : List DirectoryNode) (rp : List String)
    (per : Nat) : Option (List DirectoryNode) :=
  if (lookupF t rp).isSome then
    some (updAtF rp
      (fun n => DirectoryNode.mk (setPermissions n.elem per) n.content) t)
  else none

/-- Modelled from the spec: `DirectoryTree::modifyOwnerInTree`
(core.h:606, documented contract; body not among the sources in
`src/`). -/
def modifyOwnerInTree (t : List DirectoryNode) (rp : List String)
    (us gs : String) : Option (List DirectoryNode) :=
  if (lookupF t rp).isSome then
    some (updAtF rp
      (fun n => DirectoryNode.mk (setOwner n.elem us gs) n.content) t)
  else none

/-- Modelled from the spec: `DirectoryTree::modifyMtimeInTree`
(core.h:629, documented contract; body not among the sources in
`src/`). -/
def modifyMtimeInTree (t : List DirectoryNode) (rp : List String)
    (mt : Int) : Option (List DirectoryNode) :=
  if (lookupF t rp).isSome then
    some (updAtF rp
      (fun n => DirectoryNode.mk (setMtime n.elem mt) n.content) t)
  else none

/-- A filesystem mutation performed under the tree's top path by one of
the `...AndFilesystem` tree operations. -/
inductive FsEff where
  | removeAll (rp : List String)
  | copy (rSrc rDst : List String)
  | createSymlink (e : FilesystemElement)
  | chmod (rp : List String) (per : Nat)
  | chown (rp : List String) (us gs : String)
  | setMtime (rp : List String) (mt : Int)
deriving DecidableEq, Repr

/-- `DirectoryTree::removeFromTreeAndFilesystem` (core.cpp:470): remove
from the tree, then `remove_all` under the top path. -/
def removeFromTreeAndFilesystem (t : List DirectoryNode)
    (log : List FsEff) (rp : List String) :
    Option (List DirectoryNode × List FsEff) :=
  match removeFromTree t rp with
  | none => none
  | some t2 => some (t2, log ++ [FsEff.removeAll rp])

/-- `DirectoryTree::copyFromTreeAndFilesystem` (core.cpp:430): the tree
copy followed by `recursiveFilesystemCopy`. -/
def copyFromTreeAndFilesystem (t : List DirectoryNode) (log : List FsEff)
    (srcT : List DirectoryNode) (rSrc rDst : List String) :
    Option (List DirectoryNode × List FsEff) :=
  match treeCopy t srcT rSrc rDst with
  | none => none
  | some t2 => some (t2, log ++ [FsEff.copy rSrc rDst])

/-- `DirectoryTree::addSymlinkToTreeAndFilesystem` (core.cpp:504). -/
def addSymlinkToTreeAndFilesystem (t : List DirectoryNode)
    (log : List FsEff) (e : FilesystemElement) :
    Option (List DirectoryNode × List FsEff) :=
  match addSymlinkToTree t e with
  | none => none
  | some t2 => some (t2, log ++ [FsEff.createSymlink e])

/-- Modelled from the spec:
`DirectoryTree::modifyPermissionsInTreeAndFilesystem` (core.h:595,
documented contract; body not among the sources in `src/`). -/
def modifyPermissionsInTreeAndFilesystem (t : List DirectoryNode)
    (log : List FsEff) (rp : List String) (per : Nat) :
    Option (List DirectoryNode × List FsEff) :=
  match modifyPermissionsInTree t rp per with
  | none => none
  | some t2 => some (t2, log ++ [FsEff.chmod rp per])

/-- Modelled from the spec:
`DirectoryTree::modifyOwnerInTreeAndFilesystem` (core.h:619, documented
contract; body not among the sources in `src/`). -/
def modifyOwnerInTreeAndFilesystem (t : List DirectoryNode)
    (log : List FsEff) (rp : List String) (us gs : String) :
    Option (List DirectoryNode × List FsEff) :=
  match modifyOwnerInTree t rp us gs with
  | none => none
  | some t2 => some (t2, log ++ [FsEff.chown rp us gs])

/-- Modelled from the spec:
`DirectoryTree::modifyMtimeInTreeAndFilesystem` (core.h:641, documented
contract; body not among the sources in `src/`). -/
def modifyMtimeInTreeAndFilesystem (t : List DirectoryNode)
    (log : List FsEff) (rp : List String) (mt : Int) :
    Option (List DirectoryNode × List FsEff) :=
  match modifyMtimeInTree t rp mt with
  | none => none
  | some t2 => some (t2, log ++ [FsEff.setMtime rp mt])

/-! ### `backupImpl` (backup.cpp:808) -/

/-- The mutable state of `backupImpl`: the backup tree, the optional
metadata tree, the filesystem effect log of the backup directory and the
number of consumed prompts. -/
structure BakSt where
  dst : List DirectoryNode
  meta : Option (List DirectoryNode)
  fsLog : List FsEff
  asked : Nat
deriving DecidableEq, Repr

/-- The compare options of the both-present case of `backupImpl`
(backup.cpp:839-855): permissions and owner are never compared, and
mtime is ignored exactly for two regular files that both carry a
hash. -/
def backupOpt (e0 e1 : FilesystemElement) : CompareOpt :=
  CompareOpt.mk false false
    (if e0.ty ≠ FileType.regular ∨ e1.ty ≠ FileType.regular then false
     else !(e0.fileHash != "" && e1.fileHash != ""))
    true true true

/-- The `modifyPermissions` step of the metadata-update block of
`backupImpl` (backup.cpp:860-865), on the backup tree and the optional
metadata tree. -/
def bakModPerm (st : BakSt) (rp : List String) (per : Nat) :
    Option BakSt := do
  let (d2, log2) ← modifyPermissionsInTreeAndFilesystem st.dst st.fsLog
    rp per
  match st.meta with
  | none => some (BakSt.mk d2 none log2 st.asked)
  | some m => do
    let m2 ← modifyPermissionsInTree m rp per
    some (BakSt.mk d2 (some m2) log2 st.asked)

/-- The `modifyOwner` step of the metadata-update block of `backupImpl`
(backup.cpp:866-873). -/
def bakModOwner (st : BakSt) (rp : List String) (us gs : String) :
    Option BakSt := do
  let (d2, log2) ← modifyOwnerInTreeAndFilesystem st.dst st.fsLog rp us gs
  match st.meta with
  | none => some (BakSt.mk d2 none log2 st.asked)
  | some m => do
    let m2 ← modifyOwnerInTree m rp us gs
    some (BakSt.mk d2 (some m2) log2 st.asked)

/-- The `modifyMtime` step of the metadata-update block of `backupImpl`
(backup.cpp:874-879). -/
def bakModMtime (st : BakSt) (rp : List String) (mt : Int) :
    Option BakSt := do
  let (d2, log2) ← modifyMtimeInTreeAndFilesystem st.dst st.fsLog rp mt
  match st.meta with
  | none => some (BakSt.mk d2 none log2 st.asked)
  | some m => do
    let m2 ← modifyMtimeInTree m rp mt
    some (BakSt.mk d2 (some m2) log2 st.asked)

/-- The metadata-update block of `backupImpl` (backup.cpp:856-880):
update each of permissions, owner and mtime in the backup when it
differs. -/
def backupMetaUpdate (st : BakSt) (e0 e1 : FilesystemElement) :
    Option BakSt :=
  match (if e0.per ≠ e1.per then bakModPerm st e0.rp e0.per
    else some st) with
  | none => none
  | some st1 =>
    match (if e0.us ≠ e1.us ∨ e0.gs ≠ e1.gs then
        bakModOwner st1 e0.rp e0.us e0.gs
      else some st1) with
    | none => none
    | some st2 =>
      if e0.mt ≠ e1.mt then bakModMtime st2 e0.rp e0.mt else some st2

/-- The tail of the delete-and-replace block of `backupImpl`
(backup.cpp:911-928), after the `replace` flag has been decided. -/
def backupReplaceGo (srcTree : List DirectoryNode) (replace : Bool)
    (st : BakSt) (bitrot : Bool) (e0 : FilesystemElement) :
    Option (BakSt × Bool) :=
  if replace then
    match removeFromTreeAndFilesystem st.dst st.fsLog e0.rp with
    | none => none
    | some (d2, log2) =>
      match copyFromTreeAndFilesystem d2 log2 srcTree e0.rp
          e0.rp.dropLast with
      | none => none
      | some (d3, log3) =>
        match st.meta with
        | none => some (BakSt.mk d3 none log3 st.asked, bitrot)
        | some m =>
          match removeFromTree m e0.rp with
          | none => none
          | some m2 =>
            match copyFromTree m2 srcTree e0.rp e0.rp.dropLast with
            | none => none
            | some m3 =>
              some (BakSt.mk d3 (some m3) log3 st.asked, bitrot)
  else some (st, bitrot)

/-- The delete-and-replace block of `backupImpl` (backup.cpp:884-929):
when the backup copy is newer the user is asked first. -/
def backupReplace (srcTree : List DirectoryNode) (oracle : Nat → Bool)
    (st : BakSt) (bitrot : Bool) (e0 e1 : FilesystemElement) :
    Option (BakSt × Bool) :=
  if e0.mt < e1.mt then
    backupReplaceGo srcTree (oracle st.asked)
      (BakSt.mk st.dst st.meta st.fsLog (st.asked + 1)) bitrot e0
  else backupReplaceGo srcTree true st bitrot e0

/-- One iteration of the `backupImpl` diff loop (backup.cpp:816-931) on
the running state and the bit-rot flag. -/
def backupLine (srcTree : List DirectoryNode) (oracle : Nat → Bool)
    (acc : BakSt × Bool) (d : Diff2Line) : Option (BakSt × Bool) :=
  match acc, d with
  | _, (none, none) => none
  | (st, bitrot), (none, some e1) =>
    (match removeFromTreeAndFilesystem st.dst st.fsLog e1.rp with
     | none => none
     | some (d2, log2) =>
       match st.meta with
       | none => some (BakSt.mk d2 none log2 st.asked, bitrot)
       | some m =>
         match removeFromTree m e1.rp with
         | none => none
         | some m2 => some (BakSt.mk d2 (some m2) log2 st.asked, bitrot))
  | (st, bitrot), (some e0, none) =>
    (match copyFromTreeAndFilesystem st.dst st.fsLog srcTree e0.rp
        e0.rp.dropLast with
     | none => none
     | some (d2, log2) =>
       match st.meta with
       | none => some (BakSt.mk d2 none log2 st.asked, bitrot)
       | some m =>
         match copyFromTree m srcTree e0.rp e0.rp.dropLast with
         | none => none
         | some m2 => some (BakSt.mk d2 (some m2) log2 st.asked, bitrot))
  | (st, bitrot), (some e0, some e1) =>
    if compare e0 e1 (backupOpt e0 e1) then
      match backupMetaUpdate st e0 e1 with
      | none => none
      | some st2 => some (st2, bitrot)
    else if compare e0 e1 (CompareOpt.mk true true true false false false)
    then some (st, true)
    else backupReplace srcTree oracle st bitrot e0 e1

/-- `backupImpl` (backup.cpp:808): diff the source against the backup
and apply the differences; exit code 2 signals detected bit rot. -/
def backupImpl (srcTree dstTree : List DirectoryNode)
    (metaTree : Option (List DirectoryNode)) (oracle : Nat → Bool) :
    Option (Nat × BakSt) :=
  match (diff2 srcTree dstTree {}).foldlM (backupLine srcTree oracle)
      (BakSt.mk dstTree metaTree [] 0, false) with
  | none => none
  | some (st, bitrot) => some (if bitrot then 2 else 0, st)

/-! ### `scrubImpl` (backup.cpp:616) -/

/-- The state acted on by a scrub: the optional source tree, the backup
tree, the two metadata trees, the filesystem effect log of the backup
directory and the number of consumed prompts. -/
structure ScrubSt where
  src : Option (List DirectoryNode)
  dst : List DirectoryNode
  meta1 : List DirectoryNode
  meta2 : List DirectoryNode
  fsLog : List FsEff
  asked : Nat
deriving DecidableEq, Repr

/-- `FixupResult` (backup.cpp:225). -/
inductive FixupResult where
  | failed
  | success
  | successDiffInvalidated
  | successMetadataInvalidated
  | successDiffMetadataInvalidated
deriving DecidableEq, Repr

/-- `operator==` on `optional<FilesystemElement>`. -/
def optEq : Option FilesystemElement → Option FilesystemElement → Bool
  | none, none => true
  | some a, some b => feEq a b
  | _, _ => false

/-- `askYesNo` (backup.cpp:212) through the prompt oracle. -/
def scrubAsk (oracle : Nat → Bool) (st : ScrubSt) : Bool × ScrubSt :=
  (oracle st.asked,
   ScrubSt.mk st.src st.dst st.meta1 st.meta2 st.fsLog (st.asked + 1))

/-- `fixMetadataEntry` (backup.cpp:578): tree-only repair of one bad
metadata tree from the good tree. -/
def fixMetadataEntry (goodTree badTree : List DirectoryNode)
    (goodEntry badEntry : Option FilesystemElement) :
    Option (List DirectoryNode × FixupResult) := do
  let bad1 ← match badEntry with
    | some be => removeFromTree badTree be.rp
    | none => some badTree
  let bad2 ← match goodEntry with
    | some ge => copyFromTree bad1 goodTree ge.rp ge.rp.dropLast
    | none => some bad1
  some (bad2,
    if (match goodEntry with | some g => g.isDirectory | none => false) ||
       (match badEntry with | some b => b.isDirectory | none => false) then
      FixupResult.successDiffMetadataInvalidated
    else FixupResult.successMetadataInvalidated)

/-- `removeFromTreeAndFilesystem` on the scrub state's backup tree. -/
def scrubDstRemove (st : ScrubSt) (rp : List String) : Option ScrubSt :=
  match removeFromTreeAndFilesystem st.dst st.fsLog rp with
  | none => none
  | some (d2, log2) =>
    some (ScrubSt.mk st.src d2 st.meta1 st.meta2 log2 st.asked)

/-- `copyFromTreeAndFilesystem` on the scrub state's backup tree. -/
def scrubDstCopy (st : ScrubSt) (srcT : List DirectoryNode)
    (rp : List String) : Option ScrubSt :=
  match copyFromTreeAndFilesystem st.dst st.fsLog srcT rp rp.dropLast with
  | none => none
  | some (d2, log2) =>
    some (ScrubSt.mk st.src d2 st.meta1 st.meta2 log2 st.asked)

/-- `addSymlinkToTreeAndFilesystem` on the scrub state's backup tree. -/
def scrubDstAddSymlink (st : ScrubSt) (e : FilesystemElement) :
    Option ScrubSt :=
  match addSymlinkToTreeAndFilesystem st.dst st.fsLog e with
  | none => none
  | some (d2, log2) =>
    some (ScrubSt.mk st.src d2 st.meta1 st.meta2 log2 st.asked)

/-- The three conditional metadata fixes on the backup tree used by
`tryToFixBackupEntry` (backup.cpp:408-424 and 513-530): for each of
permissions, owner and mtime, when the field differs between `a` and
`b`, set the backup entry at `rp` to `v`'s value of the field. -/
def scrubDstMetaFix (st : ScrubSt) (rp : List String)
    (a b v : FilesystemElement) : Option ScrubSt := do
  let st1 ←
    if a.per ≠ b.per then do
      let (d2, log2) ← modifyPermissionsInTreeAndFilesystem st.dst
        st.fsLog rp v.per
      some (ScrubSt.mk st.src d2 st.meta1 st.meta2 log2 st.asked)
    else some st
  let st2 ←
    if a.us ≠ b.us ∨ a.gs ≠ b.gs then do
      let (d2, log2) ← modifyOwnerInTreeAndFilesystem st1.dst st1.fsLog
        rp v.us v.gs
      some (ScrubSt.mk st1.src d2 st1.meta1 st1.meta2 log2 st1.asked)
    else some st1
  if a.mt ≠ b.mt then do
    let (d2, log2) ← modifyMtimeInTreeAndFilesystem st2.dst st2.fsLog
      rp v.mt
    some (ScrubSt.mk st2.src d2 st2.meta1 st2.meta2 log2 st2.asked)
  else some st2

/-- The three conditional metadata fixes applied to both metadata trees
by `tryToFixBackupEntry` (backup.cpp:313-331): when the field differs
between `item` and `e1`, set both metadata entries at `rp` to `item`'s
value. -/
def scrubMetaPairFix (st : ScrubSt) (rp : List String)
    (item e1 : FilesystemElement) : Option ScrubSt := do
  let st1 ←
    if item.per ≠ e1.per then do
      let m1 ← modifyPermissionsInTree st.meta1 rp item.per
      let m2 ← modifyPermissionsInTree st.meta2 rp item.per
      some (ScrubSt.mk st.src st.dst m1 m2 st.fsLog st.asked)
    else some st
  let st2 ←
    if item.us ≠ e1.us ∨ item.gs ≠ e1.gs then do
      let m1 ← modifyOwnerInTree st1.meta1 rp item.us item.gs
      let m2 ← modifyOwnerInTree st1.meta2 rp item.us item.gs
      some (ScrubSt.mk st1.src st1.dst m1 m2 st1.fsLog st1.asked)
    else some st1
  if item.mt ≠ e1.mt then do
    let m1 ← modifyMtimeInTree st2.meta1 rp item.mt
    let m2 ← modifyMtimeInTree st2.meta2 rp item.mt
    some (ScrubSt.mk st2.src st2.dst m1 m2 st2.fsLog st2.asked)
  else some st2

/-- Remove-and-recopy of the entry at `rp` in both metadata trees from
the source tree (backup.cpp:337-343 and others). -/
def scrubMetaPairReplace (st : ScrubSt) (srcT : List DirectoryNode)
    (rp : List String) : Option ScrubSt := do
  let m1a ← removeFromTree st.meta1 rp
  let m1b ← copyFromTree m1a srcT rp rp.dropLast
  let m2a ← removeFromTree st.meta2 rp
  let m2b ← copyFromTree m2a srcT rp rp.dropLast
  some (ScrubSt.mk st.src st.dst m1b m2b st.fsLog st.asked)

/-- `tryToFixBackupEntry` (backup.cpp:246): attempt to fix the backup
directory for a diff line on which the two metadata trees agree. -/
def tryToFixBackupEntry (oracle : Nat → Bool) (st : ScrubSt)
    (d : Diff3Line) : Option (ScrubSt × FixupResult) :=
  match d with
  | (none, none, _) => none
  | (none, some e1, _) =>
    if e1.ty = FileType.symlink then
      match scrubDstAddSymlink st e1 with
      | none => none
      | some st2 => some (st2, FixupResult.success)
    else
      (match st.src with
       | none => some (st, FixupResult.failed)
       | some srcT =>
         match search srcT e1.rp with
         | none => some (st, FixupResult.failed)
         | some item =>
           if feEq item e1 then
             match scrubDstCopy st srcT e1.rp with
             | none => none
             | some st2 =>
               some (st2,
                 if e1.ty = FileType.directory then
                   FixupResult.successDiffInvalidated
                 else FixupResult.success)
           else
             if compare item e1 (CompareOpt.mk false false false true
                 true true) then do
               let st2 ← scrubDstCopy st srcT e1.rp
               let st3 ← scrubMetaPairFix st2 e1.rp item e1
               some (st3,
                 if e1.ty = FileType.directory then
                   FixupResult.successDiffMetadataInvalidated
                 else FixupResult.successMetadataInvalidated)
             else do
               let st2 ← scrubDstCopy st srcT e1.rp
               let st3 ← scrubMetaPairReplace st2 srcT e1.rp
               some (st3,
                 if item.isDirectory || e1.isDirectory then
                   FixupResult.successDiffMetadataInvalidated
                 else FixupResult.successMetadataInvalidated))
  | (some e0, none, _) =>
    (match scrubAsk oracle st with
     | (yes, st1) =>
       if yes = false then some (st1, FixupResult.failed)
       else
         match scrubDstRemove st1 e0.rp with
         | none => none
         | some st2 =>
           some (st2,
             if e0.ty = FileType.directory then
               FixupResult.successDiffInvalidated
             else FixupResult.success))
  | (some e0, some e1, _) =>
    if compare e0 e1 (CompareOpt.mk false false false true true true)
    then
      match scrubDstMetaFix st e1.rp e0 e1 e1 with
      | none => none
      | some st2 => some (st2, FixupResult.success)
    else
      let bitrot :=
        compare e0 e1 (CompareOpt.mk true true true false false false)
      if e1.ty = FileType.symlink ∧ e0.ty = FileType.symlink then
        (match (if bitrot = false then scrubAsk oracle st
                else (true, st)) with
         | (go, st1) =>
           if go = false then some (st1, FixupResult.failed)
           else do
             let st2 ← scrubDstRemove st1 e1.rp
             let st3 ← scrubDstAddSymlink st2 e1
             some (st3, FixupResult.success))
      else
        match st.src with
        | none => some (st, FixupResult.failed)
        | some srcT =>
          match search srcT e1.rp with
          | none => some (st, FixupResult.failed)
          | some item =>
            if feEq item e1 then
              (match (if bitrot = false then scrubAsk oracle st
                      else (true, st)) with
               | (go, st1) =>
                 if go = false then some (st1, FixupResult.failed)
                 else do
                   let st2 ← scrubDstRemove st1 e1.rp
                   let st3 ← scrubDstCopy st2 srcT e1.rp
                   some (st3,
                     if e1.ty = FileType.directory ∨
                         e0.isDirectory = true then
                       FixupResult.successDiffInvalidated
                     else FixupResult.success))
            else
              if feEq item e0 then do
                let st2 ← scrubMetaPairReplace st srcT e1.rp
                some (st2,
                  if item.isDirectory = true ∨
                      e1.ty = FileType.directory then
                    FixupResult.successDiffMetadataInvalidated
                  else FixupResult.successMetadataInvalidated)
              else
                if compare item e0 (CompareOpt.mk false false false true
                    true true) then do
                  let st2 ← scrubDstMetaFix st e1.rp item e1 item
                  let st3 ← scrubMetaPairReplace st2 srcT e1.rp
                  some (st3,
                    if e1.ty = FileType.directory ∨
                        e0.isDirectory = true then
                      FixupResult.successDiffMetadataInvalidated
                    else FixupResult.successMetadataInvalidated)
                else
                  (match scrubAsk oracle st with
                   | (go, st1) =>
                     if go = false then some (st1, FixupResult.failed)
                     else do
                       let st2 ← scrubDstRemove st1 e1.rp
                       let st3 ← scrubDstCopy st2 srcT e1.rp
                       let st4 ← scrubMetaPairReplace st3 srcT e1.rp
                       some (st4,
                         if e1.ty = FileType.directory ∨
                             item.isDirectory = true ∨
                             e0.isDirectory = true then
                           FixupResult.successDiffMetadataInvalidated
                         else FixupResult.successMetadataInvalidated))

/-- The flags of the `scrubImpl` loop (backup.cpp:630). -/
structure ScrubFlags where
  unrecoverable : Bool
  maybeRecoverable : Bool
  updateMeta1 : Bool
  updateMeta2 : Bool
deriving DecidableEq, Repr

/-- The inner `for` loop of `scrubImpl` (backup.cpp:643-705): process
the diff lines one by one; the returned Boolean is the `redo` flag that
breaks out of the loop. -/
def scrubFor (fixup : Bool) (oracle : Nat → Bool) :
    List Diff3Line → ScrubSt → ScrubFlags →
      Option (ScrubSt × ScrubFlags × Bool)
  | [], st, fl => some (st, fl, false)
  | (d0, d1, d2) :: ds, st, fl =>
    if optEq d0 d1 && !optEq d0 d2 then
      match fixMetadataEntry st.dst st.meta2 d0 d2 with
      | none => none
      | some (m2, r) =>
        let st2 := ScrubSt.mk st.src st.dst st.meta1 m2 st.fsLog st.asked
        let fl2 := ScrubFlags.mk fl.unrecoverable fl.maybeRecoverable
          fl.updateMeta1 true
        if r = FixupResult.successDiffMetadataInvalidated then
          some (st2, fl2, true)
        else scrubFor fixup oracle ds st2 fl2
    else if optEq d0 d2 && !optEq d0 d1 then
      match fixMetadataEntry st.dst st.meta1 d0 d1 with
      | none => none
      | some (m1, r) =>
        let st2 := ScrubSt.mk st.src st.dst m1 st.meta2 st.fsLog st.asked
        let fl2 := ScrubFlags.mk fl.unrecoverable fl.maybeRecoverable
          true fl.updateMeta2
        if r = FixupResult.successDiffMetadataInvalidated then
          some (st2, fl2, true)
        else scrubFor fixup oracle ds st2 fl2
    else if optEq d1 d2 && !optEq d0 d1 then
      if fixup then
        match tryToFixBackupEntry oracle st (d0, d1, d2) with
        | none => none
        | some (st2, r) =>
          match r with
          | FixupResult.success => scrubFor fixup oracle ds st2 fl
          | FixupResult.failed =>
            scrubFor fixup oracle ds st2
              (ScrubFlags.mk true fl.maybeRecoverable fl.updateMeta1
                fl.updateMeta2)
          | FixupResult.successDiffInvalidated => some (st2, fl, true)
          | FixupResult.successMetadataInvalidated =>
            scrubFor fixup oracle ds st2
              (ScrubFlags.mk fl.unrecoverable fl.maybeRecoverable true
                true)
          | FixupResult.successDiffMetadataInvalidated =>
            some (st2, ScrubFlags.mk fl.unrecoverable fl.maybeRecoverable
              true true, true)
      else
        scrubFor fixup oracle ds st
          (ScrubFlags.mk fl.unrecoverable true fl.updateMeta1
            fl.updateMeta2)
    else if !optEq d0 d1 && !optEq d1 d2 then
      scrubFor fixup oracle ds st
        (ScrubFlags.mk true fl.maybeRecoverable fl.updateMeta1
          fl.updateMeta2)
    else
      scrubFor fixup oracle ds st fl

/-- The `do while(redo)` loop of `scrubImpl` (backup.cpp:633-706) with
explicit fuel for the diff recomputations; `none` when the fuel runs
out. -/
def scrubLoop (fixup : Bool) (oracle : Nat → Bool) :
    Nat → List Diff3Line → ScrubSt → ScrubFlags →
      Option (ScrubSt × ScrubFlags)
  | 0, _, _, _ => none
  | fuel + 1, diff, st, fl =>
    match scrubFor fixup oracle diff st fl with
    | none => none
    | some (st2, fl2, redo) =>
      if redo then
        scrubLoop fixup oracle fuel
          (diff3 st2.dst st2.meta1 st2.meta2 {}) st2 fl2
      else some (st2, fl2)

/-- The outcome of a scrub: the exit code, the final state, and the
`saveMetadataOnExit` / `saveMetaXPreviousVersion` calls made on the tree
manager. -/
structure ScrubOut where
  code : Nat
  st : ScrubSt
  save : Bool
  meta1Bak : Bool
  meta2Bak : Bool
deriving DecidableEq, Repr

/-- `scrubImpl` (backup.cpp:616): compare the backup directory with the
two metadata trees and process the inconsistencies. -/
def scrubImpl (fuel : Nat) (oracle : Nat → Bool) (st0 : ScrubSt)
    (fixup : Bool) : Option ScrubOut :=
  if (diff3 st0.dst st0.meta1 st0.meta2 {}).isEmpty then
    some (ScrubOut.mk 0 st0 false false false)
  else
    match scrubLoop fixup oracle fuel
        (diff3 st0.dst st0.meta1 st0.meta2 {}) st0
        (ScrubFlags.mk false false false false) with
    | none => none
    | some (st, fl) =>
      if fl.unrecoverable = false ∧ fl.maybeRecoverable = false then
        some (ScrubOut.mk 1 st true fl.updateMeta1 fl.updateMeta2)
      else some (ScrubOut.mk 2 st false false false)

/-- `TreeManager::~TreeManager` (backup.cpp:186): the manifest trees
written at destruction — none unless `saveMetadataOnExit` was called;
with the second tree discarded the first tree is written to both
files. -/
def treeManagerDtorWrites (save meta2Present : Bool)
    (meta1Tree meta2Tree : List DirectoryNode) :
    List (List DirectoryNode) :=
  if save = false then []
  else [meta1Tree, if meta2Present then meta2Tree else meta1Tree]

/-! ### Claim C1: the bit-rot rule of `backupImpl` -/

/-- A source regular file. -/
def cexRotSElem : FilesystemElement :=
  ⟨FileType.regular, 420, "u", "g", 5, 1, "", ["f"], ""⟩

/-- The backup copy: same mtime, different size, same permissions. -/
def cexRotBElem : FilesystemElement :=
  ⟨FileType.regular, 420, "u", "g", 5, 2, "", ["f"], ""⟩

/-- The backup copy: same mtime, different size, different
permissions. -/
def cexRotBElemP : FilesystemElement :=
  ⟨FileType.regular, 256, "u", "g", 5, 2, "", ["f"], ""⟩

def cexRotS : List DirectoryNode := [DirectoryNode.mk cexRotSElem []]

def cexRotB : List DirectoryNode := [DirectoryNode.mk cexRotBElem []]

def cexRotBP : List DirectoryNode := [DirectoryNode.mk cexRotBElemP []]

theorem diff2_cexRot :
    diff2 cexRotS cexRotB {} = [(some cexRotSElem, some cexRotBElem)] := by
  rw [diff2, diff2Rec]
  decide

theorem diff2_cexRotP :
    diff2 cexRotS cexRotBP {} =
      [(some cexRotSElem, some cexRotBElemP)] := by
  rw [diff2, diff2Rec]
  decide

/-- **C1 counterexample.**  A path present as a regular file in both the
source and the backup, whose content differs (size mismatch) while the
mtimes are equal, for which the backup run nevertheless removes and
replaces the backup entry and exits 0: it suffices that the permissions
differ too, which makes both guard comparisons of `backupImpl` fail and
routes the line to the delete-and-replace branch instead of the bit-rot
branch. -/
theorem C1_bitrot_exit2_counterexample :
    cexRotSElem.ty = FileType.regular ∧
    cexRotBElemP.ty = FileType.regular ∧
    lookupF cexRotS ["f"] = some cexRotSElem ∧
    lookupF cexRotBP ["f"] = some cexRotBElemP ∧
    cexRotSElem.sz ≠ cexRotBElemP.sz ∧
    cexRotSElem.mt = cexRotBElemP.mt ∧
    backupImpl cexRotS cexRotBP none (fun _ => true) =
      some (0, BakSt.mk [DirectoryNode.mk cexRotSElem []] none
        [FsEff.removeAll ["f"], FsEff.copy ["f"] []] 0) := by
  refine ⟨by decide, by decide, by decide, by decide, by decide,
    by decide, ?_⟩
  rw [backupImpl, diff2_cexRotP]
  decide

theorem optBind_eq_some {α β : Type _} {o : Option α} {f : α → Option β}
    {b : β} (h : o >>= f = some b) : ∃ a, o = some a ∧ f a = some b := by
  cases o with
  | none => cases h
  | some a => exact ⟨a, rfl, h⟩

theorem backupOpt_mtime {e0 e1 : FilesystemElement}
    (hty0 : e0.ty = FileType.regular)
    (hty1 : e1.ty = FileType.regular) :
    (backupOpt e0 e1).mtime =
      !(e0.fileHash != "" && e1.fileHash != "") := by
  rw [backupOpt]
  simp [hty0, hty1]

theorem backupOpt_perm (e0 e1 : FilesystemElement) :
    (backupOpt e0 e1).perm = false := rfl

theorem backupOpt_owner (e0 e1 : FilesystemElement) :
    (backupOpt e0 e1).owner = false := rfl

theorem backupOpt_size (e0 e1 : FilesystemElement) :
    (backupOpt e0 e1).size = true := rfl

theorem backupOpt_hash (e0 e1 : FilesystemElement) :
    (backupOpt e0 e1).hash = true := rfl

theorem backupOpt_symlink (e0 e1 : FilesystemElement) :
    (backupOpt e0 e1).symlink = true := rfl

/-- With content differing — size mismatch, or both hashes present and
different — the first guard comparison of `backupImpl` fails. -/
theorem backup_first_compare_false {e0 e1 : FilesystemElement}
    (hty0 : e0.ty = FileType.regular) (hty1 : e1.ty = FileType.regular)
    (hcontent : e0.sz ≠ e1.sz ∨
      (e0.fileHash ≠ "" ∧ e1.fileHash ≠ "" ∧
        e0.fileHash ≠ e1.fileHash)) :
    compare e0 e1 (backupOpt e0 e1) = false := by
  rw [compare_eq_conj, backupOpt_size, backupOpt_hash]
  rcases hcontent with h | ⟨h0, h1, hne⟩
  · have hsz : (e0.sz == e1.sz) = false := beq_eq_false_iff_ne.mpr h
    simp [hsz]
  · have a1 : (e0.fileHash == e1.fileHash) = false :=
      beq_eq_false_iff_ne.mpr hne
    have a2 : (e0.fileHash == "") = false := beq_eq_false_iff_ne.mpr h0
    have a3 : (e1.fileHash == "") = false := beq_eq_false_iff_ne.mpr h1
    simp [a1, a2, a3]

/-- With equal mtime, permissions and owner the second guard comparison
of `backupImpl` succeeds. -/
theorem backup_second_compare_true {e0 e1 : FilesystemElement}
    (hty : e0.ty = e1.ty) (hrp : e0.rp = e1.rp)
    (hper : e0.per = e1.per) (hus : e0.us = e1.us)
    (hgs : e0.gs = e1.gs) (hmt : e0.mt = e1.mt) :
    compare e0 e1 (CompareOpt.mk true true true false false false) =
      true := by
  rw [compare_eq_conj]
  simp [hty, hrp, hper, hus, hgs, hmt]

/-- A line with both sides present whose content differs while mtime,
permissions and owner agree is the bit-rot case: the state is left
untouched and the flag is raised. -/
theorem backupLine_bitrot {e0 e1 : FilesystemElement}
    (srcTree : List DirectoryNode) (oracle : Nat → Bool)
    (hty0 : e0.ty = FileType.regular) (hty1 : e1.ty = FileType.regular)
    (hrp : e0.rp = e1.rp) (hper : e0.per = e1.per)
    (hus : e0.us = e1.us) (hgs : e0.gs = e1.gs) (hmt : e0.mt = e1.mt)
    (hcontent : e0.sz ≠ e1.sz ∨
      (e0.fileHash ≠ "" ∧ e1.fileHash ≠ "" ∧
        e0.fileHash ≠ e1.fileHash))
    (st : BakSt) (b : Bool) :
    backupLine srcTree oracle (st, b) (some e0, some e1) =
      some (st, true) := by
  rw [backupLine]
  rw [backup_first_compare_false hty0 hty1 hcontent]
  rw [backup_second_compare_true (hty0.trans hty1.symm) hrp hper hus hgs
    hmt]
  rfl

theorem backupReplaceGo_flag {srcTree : List DirectoryNode}
    {replace : Bool} {st : BakSt} {b : Bool} {e0 : FilesystemElement}
    {out : BakSt × Bool}
    (h : backupReplaceGo srcTree replace st b e0 = some out) :
    out.2 = b := by
  rw [backupReplaceGo] at h
  repeat' split at h
  all_goals first
    | (injection h with h; subst h; rfl)
    | injection h

theorem backupReplace_flag {srcTree : List DirectoryNode}
    {oracle : Nat → Bool} {st : BakSt} {b : Bool}
    {e0 e1 : FilesystemElement} {out : BakSt × Bool}
    (h : backupReplace srcTree oracle st b e0 e1 = some out) :
    out.2 = b := by
  rw [backupReplace] at h
  split at h
  · exact backupReplaceGo_flag h
  · exact backupReplaceGo_flag h

/-- `backupLine` never lowers the bit-rot flag. -/
theorem backupLine_flag_mono {srcTree : List DirectoryNode}
    {oracle : Nat → Bool} {st : BakSt} {d : Diff2Line}
    {out : BakSt × Bool}
    (h : backupLine srcTree oracle (st, true) d = some out) :
    out.2 = true := by
  obtain ⟨d0, d1⟩ := d
  match d0, d1 with
  | none, none =>
    rw [backupLine] at h
    cases h
  | none, some e1 =>
    rw [backupLine] at h
    repeat' split at h
    all_goals first
      | (injection h with h; subst h; rfl)
      | injection h
  | some e0, none =>
    rw [backupLine] at h
    repeat' split at h
    all_goals first
      | (injection h with h; subst h; rfl)
      | injection h
  | some e0, some e1 =>
    rw [backupLine] at h
    split at h
    · split at h
      · cases h
      · injection h with h
        subst h
        rfl
    · split at h
      · injection h with h
        subst h
        rfl
      · exact backupReplace_flag h

/-- Once the bit-rot flag is set, the rest of the loop keeps it set. -/
theorem backup_fold_flag {srcTree : List DirectoryNode}
    {oracle : Nat → Bool} :
    ∀ (l : List Diff2Line) (st : BakSt) (out : BakSt × Bool),
      l.foldlM (backupLine srcTree oracle) (st, true) = some out →
      out.2 = true := by
  intro l
  induction l with
  | nil =>
    intro st out h
    rw [List.foldlM_nil] at h
    injection h with h
    subst h
    rfl
  | cons d ds ih =>
    intro st out h
    rw [List.foldlM_cons] at h
    obtain ⟨⟨m2s, m2b⟩, hm2, hrest⟩ := optBind_eq_some h
    have hb : m2b = true := backupLine_flag_mono hm2
    subst hb
    exact ih _ _ hrest

/-- `foldlM` over `Option` splits at a list append. -/
theorem foldlM_option_append {α β : Type _} (f : β → α → Option β)
    (b : β) (l1 l2 : List α) :
    (l1 ++ l2).foldlM f b =
      (l1.foldlM f b).bind (fun b2 => l2.foldlM f b2) := by
  induction l1 generalizing b with
  | nil => rw [List.nil_append, List.foldlM_nil]; rfl
  | cons a l ih =>
    rw [List.cons_append, List.foldlM_cons, List.foldlM_cons]
    cases f b a with
    | none => rfl
    | some b2 => exact ih b2

/-- **C1 (amended).** When a backup run completes and its two-way diff
contains a line pairing two regular files whose content differs (size
mismatch, or both hashes present and different) while their mtime,
permissions and owner all agree, that line is processed by the bit-rot
branch — the backup state is not touched by it — and the run's exit code
is 2. -/
theorem C1_bitrot_exit2_amended (srcTree dstTree : List DirectoryNode)
    (metaTree : Option (List DirectoryNode)) (oracle : Nat → Bool)
    (pre post : List Diff2Line) (e0 e1 : FilesystemElement)
    (code : Nat) (stf : BakSt)
    (hrun : backupImpl srcTree dstTree metaTree oracle =
      some (code, stf))
    (hsplit : diff2 srcTree dstTree {} =
      pre ++ (some e0, some e1) :: post)
    (hty0 : e0.ty = FileType.regular) (hty1 : e1.ty = FileType.regular)
    (hrp : e0.rp = e1.rp) (hmt : e0.mt = e1.mt)
    (hper : e0.per = e1.per) (hus : e0.us = e1.us)
    (hgs : e0.gs = e1.gs)
    (hcontent : e0.sz ≠ e1.sz ∨
      (e0.fileHash ≠ "" ∧ e1.fileHash ≠ "" ∧
        e0.fileHash ≠ e1.fileHash)) :
    code = 2 ∧
    ∃ mid : BakSt × Bool,
      pre.foldlM (backupLine srcTree oracle)
        (BakSt.mk dstTree metaTree [] 0, false) = some mid ∧
      backupLine srcTree oracle mid (some e0, some e1) =
        some (mid.1, true) := by
  rw [backupImpl, hsplit] at hrun
  split at hrun
  · cases hrun
  · rename_i st bitrot hfold
    injection hrun with hrun
    have hcode : code = if bitrot then 2 else 0 :=
      congrArg Prod.fst hrun.symm
    rw [foldlM_option_append] at hfold
    obtain ⟨⟨midSt, midB⟩, hmidx, hfold2⟩ := optBind_eq_some hfold
    have hline := backupLine_bitrot srcTree oracle hty0 hty1 hrp hper
      hus hgs hmt hcontent midSt midB
    rw [List.foldlM_cons, hline] at hfold2
    have hfold3 : post.foldlM (backupLine srcTree oracle)
        (midSt, true) = some (st, bitrot) := hfold2
    have hflag : bitrot = true := backup_fold_flag post _ _ hfold3
    subst hflag
    refine ⟨?_, ⟨(midSt, midB), hmidx, hline⟩⟩
    rw [hcode]
    rfl

/-- Witness for the amended C1: the concrete bit-rot pair (equal mtime,
permissions and owner, different size) makes the backup exit 2 without
touching the entry. -/
theorem C1_bitrot_exit2_amended_witness :
    (2 : Nat) = 2 ∧
    ∃ mid : BakSt × Bool,
      ([] : List Diff2Line).foldlM
        (backupLine cexRotS (fun _ => true))
        (BakSt.mk cexRotB none [] 0, false) = some mid ∧
      backupLine cexRotS (fun _ => true) mid
        (some cexRotSElem, some cexRotBElem) = some (mid.1, true) :=
  C1_bitrot_exit2_amended cexRotS cexRotB none (fun _ => true)
    [] [] cexRotSElem cexRotBElem 2
    (BakSt.mk cexRotB none [] 0)
    (by rw [backupImpl, diff2_cexRot]; decide)
    (by rw [diff2_cexRot]; rfl)
    (by decide) (by decide) (by decide) (by decide) (by decide)
    (by decide) (by decide) (by decide)

/-! ### Claim C6: the content-equality rule of `backupImpl` -/

/-- The content-equality rule as the spec words it: the sizes match and,
whenever both sides carry a hash, the hashes match with mtime ignored;
with a hash missing the mtimes must match as well. -/
def specContentEqualB (e0 e1 : FilesystemElement) : Bool :=
  e0.sz == e1.sz &&
    (if e0.fileHash ≠ "" ∧ e1.fileHash ≠ "" then
      e0.fileHash == e1.fileHash
    else e0.mt == e1.mt)

/-- Whether a filesystem effect only touches metadata (permissions,
owner or mtime), never file content. -/
def effIsMetaOnly : FsEff → Bool
  | FsEff.chmod _ _ => true
  | FsEff.chown _ _ _ => true
  | FsEff.setMtime _ _ => true
  | _ => false

theorem modifyPermAndFs_log {t : List DirectoryNode} {log : List FsEff}
    {rp : List String} {per : Nat} {t2 : List DirectoryNode}
    {log2 : List FsEff}
    (h : modifyPermissionsInTreeAndFilesystem t log rp per =
      some (t2, log2)) : log2 = log ++ [FsEff.chmod rp per] := by
  rw [modifyPermissionsInTreeAndFilesystem] at h
  split at h
  · cases h
  · injection h with h
    exact (congrArg Prod.snd h).symm

theorem modifyOwnerAndFs_log {t : List DirectoryNode} {log : List FsEff}
    {rp : List String} {us gs : String} {t2 : List DirectoryNode}
    {log2 : List FsEff}
    (h : modifyOwnerInTreeAndFilesystem t log rp us gs =
      some (t2, log2)) : log2 = log ++ [FsEff.chown rp us gs] := by
  rw [modifyOwnerInTreeAndFilesystem] at h
  split at h
  · cases h
  · injection h with h
    exact (congrArg Prod.snd h).symm

theorem modifyMtimeAndFs_log {t : List DirectoryNode} {log : List FsEff}
    {rp : List String} {mt : Int} {t2 : List DirectoryNode}
    {log2 : List FsEff}
    (h : modifyMtimeInTreeAndFilesystem t log rp mt = some (t2, log2)) :
    log2 = log ++ [FsEff.setMtime rp mt] := by
  rw [modifyMtimeInTreeAndFilesystem] at h
  split at h
  · cases h
  · injection h with h
    exact (congrArg Prod.snd h).symm

theorem bakModPerm_log {st : BakSt} {rp : List String} {per : Nat}
    {st2 : BakSt} (h : bakModPerm st rp per = some st2) :
    st2.fsLog = st.fsLog ++ [FsEff.chmod rp per] := by
  rw [bakModPerm] at h
  obtain ⟨⟨d2, log2⟩, hm, h⟩ := optBind_eq_some h
  dsimp only at h
  have hl := modifyPermAndFs_log hm
  split at h
  · injection h with h
    subst h
    exact hl
  · obtain ⟨m2, -, h⟩ := optBind_eq_some h
    injection h with h
    subst h
    exact hl

theorem bakModOwner_log {st : BakSt} {rp : List String} {us gs : String}
    {st2 : BakSt} (h : bakModOwner st rp us gs = some st2) :
    st2.fsLog = st.fsLog ++ [FsEff.chown rp us gs] := by
  rw [bakModOwner] at h
  obtain ⟨⟨d2, log2⟩, hm, h⟩ := optBind_eq_some h
  dsimp only at h
  have hl := modifyOwnerAndFs_log hm
  split at h
  · injection h with h
    subst h
    exact hl
  · obtain ⟨m2, -, h⟩ := optBind_eq_some h
    injection h with h
    subst h
    exact hl

theorem bakModMtime_log {st : BakSt} {rp : List String} {mt : Int}
    {st2 : BakSt} (h : bakModMtime st rp mt = some st2) :
    st2.fsLog = st.fsLog ++ [FsEff.setMtime rp mt] := by
  rw [bakModMtime] at h
  obtain ⟨⟨d2, log2⟩, hm, h⟩ := optBind_eq_some h
  dsimp only at h
  have hl := modifyMtimeAndFs_log hm
  split at h
  · injection h with h
    subst h
    exact hl
  · obtain ⟨m2, -, h⟩ := optBind_eq_some h
    injection h with h
    subst h
    exact hl

/-- The metadata-update block only appends metadata-only filesystem
effects. -/
theorem backupMetaUpdate_log {st : BakSt} {e0 e1 : FilesystemElement}
    {st2 : BakSt} (h : backupMetaUpdate st e0 e1 = some st2) :
    ∃ effs, st2.fsLog = st.fsLog ++ effs ∧
      ∀ f ∈ effs, effIsMetaOnly f = true := by
  rw [backupMetaUpdate] at h
  split at h
  · cases h
  rename_i sa ha
  split at h
  · cases h
  rename_i sb hb
  have la : ∃ ea, sa.fsLog = st.fsLog ++ ea ∧
      ∀ f ∈ ea, effIsMetaOnly f = true := by
    split at ha
    · refine ⟨[FsEff.chmod e0.rp e0.per], bakModPerm_log ha, ?_⟩
      intro f hf
      rw [List.mem_singleton] at hf
      subst hf
      rfl
    · injection ha with ha
      subst ha
      exact ⟨[], by rw [List.append_nil], by intro f hf; cases hf⟩
  have lb : ∃ eb, sb.fsLog = sa.fsLog ++ eb ∧
      ∀ f ∈ eb, effIsMetaOnly f = true := by
    split at hb
    · refine ⟨[FsEff.chown e0.rp e0.us e0.gs], bakModOwner_log hb, ?_⟩
      intro f hf
      rw [List.mem_singleton] at hf
      subst hf
      rfl
    · injection hb with hb
      subst hb
      exact ⟨[], by rw [List.append_nil], by intro f hf; cases hf⟩
  have lc : ∃ ec, st2.fsLog = sb.fsLog ++ ec ∧
      ∀ f ∈ ec, effIsMetaOnly f = true := by
    split at h
    · refine ⟨[FsEff.setMtime e0.rp e0.mt], bakModMtime_log h, ?_⟩
      intro f hf
      rw [List.mem_singleton] at hf
      subst hf
      rfl
    · injection h with h
      subst h
      exact ⟨[], by rw [List.append_nil], by intro f hf; cases hf⟩
  obtain ⟨ea, hea, pa⟩ := la
  obtain ⟨eb, heb, pb⟩ := lb
  obtain ⟨ec, hec, pc⟩ := lc
  refine ⟨ea ++ eb ++ ec, ?_, ?_⟩
  · rw [hec, heb, hea]
    simp only [List.append_assoc]
  · intro f hf
    rcases List.mem_append.mp hf with hf2 | hf2
    · rcases List.mem_append.mp hf2 with hf3 | hf3
      · exact pa f hf3
      · exact pb f hf3
    · exact pc f hf2

/-- With a hash missing and mtimes differing the first guard comparison
of `backupImpl` fails. -/
theorem backup_first_compare_false_mtime {e0 e1 : FilesystemElement}
    (hty0 : e0.ty = FileType.regular) (hty1 : e1.ty = FileType.regular)
    (hmiss : e0.fileHash = "" ∨ e1.fileHash = "")
    (hmt : e0.mt ≠ e1.mt) :
    compare e0 e1 (backupOpt e0 e1) = false := by
  rw [compare_eq_conj, backupOpt_mtime hty0 hty1]
  have hm : (e0.mt == e1.mt) = false := beq_eq_false_iff_ne.mpr hmt
  rcases hmiss with h | h
  · have b0 : (e0.fileHash != "") = false := by simp [h]
    simp [b0, hm]
  · have b1 : (e1.fileHash != "") = false := by simp [h]
    simp [b1, hm]

/-- With mtimes differing the second guard comparison of `backupImpl`
fails. -/
theorem backup_second_compare_false_mtime {e0 e1 : FilesystemElement}
    (hmt : e0.mt ≠ e1.mt) :
    compare e0 e1 (CompareOpt.mk true true true false false false) =
      false := by
  rw [compare_eq_conj]
  have hm : (e0.mt == e1.mt) = false := beq_eq_false_iff_ne.mpr hmt
  simp [hm]

/-- With the backup entry present and the replace decision `true`, the
replace block removes and recopies the entry, logging exactly these two
content effects. -/
theorem backupReplaceGo_replace {srcTree : List DirectoryNode}
    {st : BakSt} {b : Bool} {e0 : FilesystemElement}
    {d2 d3 : List DirectoryNode}
    (hmeta : st.meta = none)
    (hrem : removeFromTree st.dst e0.rp = some d2)
    (hcopy : treeCopy d2 srcTree e0.rp e0.rp.dropLast = some d3) :
    backupReplaceGo srcTree true st b e0 =
      some (BakSt.mk d3 none
        (st.fsLog ++ [FsEff.removeAll e0.rp] ++
          [FsEff.copy e0.rp e0.rp.dropLast]) st.asked, b) := by
  rw [backupReplaceGo, if_pos rfl]
  rw [removeFromTreeAndFilesystem, hrem]
  dsimp only
  rw [copyFromTreeAndFilesystem, hcopy]
  dsimp only
  rw [hmeta]

/-- **C6.** For a diff line pairing two regular files at the same path
(with equal symlink fields): (1) the guard that routes the line to the
metadata-only update equals the spec's content-equality rule — sizes
match and, when both hashes are present, the hashes match with mtime
ignored, otherwise the mtimes must match too; (2) the metadata-only
update appends only permission/owner/mtime filesystem effects, never a
content copy; (3) when a hash is missing and only the mtime differs
(sizes, permissions and owner equal), the line is routed to the
delete-and-replace branch, which removes and recopies the backup
entry. -/
theorem C6_backup_content_equal_rule :
    (∀ e0 e1 : FilesystemElement,
      e0.ty = FileType.regular → e1.ty = FileType.regular →
      e0.rp = e1.rp → e0.symlink = e1.symlink →
      compare e0 e1 (backupOpt e0 e1) = specContentEqualB e0 e1) ∧
    (∀ (st : BakSt) (e0 e1 : FilesystemElement) (st2 : BakSt),
      backupMetaUpdate st e0 e1 = some st2 →
      ∃ effs, st2.fsLog = st.fsLog ++ effs ∧
        ∀ f ∈ effs, effIsMetaOnly f = true) ∧
    (∀ (srcTree : List DirectoryNode) (oracle : Nat → Bool) (st : BakSt)
        (b : Bool) (e0 e1 : FilesystemElement)
        (d2 d3 : List DirectoryNode),
      e0.ty = FileType.regular → e1.ty = FileType.regular →
      e0.symlink = e1.symlink →
      (e0.fileHash = "" ∨ e1.fileHash = "") →
      e0.mt ≠ e1.mt → st.meta = none → oracle st.asked = true →
      removeFromTree st.dst e0.rp = some d2 →
      treeCopy d2 srcTree e0.rp e0.rp.dropLast = some d3 →
      ∃ asked2, backupLine srcTree oracle (st, b) (some e0, some e1) =
        some (BakSt.mk d3 none
          (st.fsLog ++ [FsEff.removeAll e0.rp] ++
            [FsEff.copy e0.rp e0.rp.dropLast]) asked2, b)) := by
  refine ⟨?_, ?_, ?_⟩
  · intro e0 e1 hty0 hty1 hrp hsym
    rw [compare_eq_conj, backupOpt_perm, backupOpt_owner, backupOpt_size,
      backupOpt_hash, backupOpt_symlink, backupOpt_mtime hty0 hty1,
      specContentEqualB]
    have ht : (e0.ty == e1.ty) = true :=
      beq_iff_eq.mpr (hty0.trans hty1.symm)
    have hr : (e0.rp == e1.rp) = true := beq_iff_eq.mpr hrp
    have hs : (e0.symlink == e1.symlink) = true := beq_iff_eq.mpr hsym
    rw [ht, hr, hs]
    by_cases hb : e0.fileHash ≠ "" ∧ e1.fileHash ≠ ""
    · obtain ⟨h0, h1⟩ := hb
      have b0 : (e0.fileHash != "") = true := bne_iff_ne.mpr h0
      have b1 : (e1.fileHash != "") = true := bne_iff_ne.mpr h1
      have a2 : (e0.fileHash == "") = false := beq_eq_false_iff_ne.mpr h0
      have a3 : (e1.fileHash == "") = false := beq_eq_false_iff_ne.mpr h1
      rw [b0, b1, a2, a3, if_pos ⟨h0, h1⟩]
      simp
    · rw [if_neg hb]
      rcases not_and_or.mp hb with h0 | h1
      · have e0h : e0.fileHash = "" := not_not.mp h0
        simp [e0h, Bool.and_comm]
      · have e1h : e1.fileHash = "" := not_not.mp h1
        simp [e1h, Bool.and_comm]
  · intro st e0 e1 st2 h
    exact backupMetaUpdate_log h
  · intro srcTree oracle st b e0 e1 d2 d3 hty0 hty1 hsym hmiss hmt
      hmeta hask hrem hcopy
    by_cases hlt : e0.mt < e1.mt
    · refine ⟨st.asked + 1, ?_⟩
      rw [backupLine,
        backup_first_compare_false_mtime hty0 hty1 hmiss hmt,
        backup_second_compare_false_mtime hmt]
      change backupReplace srcTree oracle st b e0 e1 = _
      rw [backupReplace, if_pos hlt, hask]
      exact @backupReplaceGo_replace srcTree
        (BakSt.mk st.dst st.meta st.fsLog (st.asked + 1)) b e0 d2 d3
        hmeta hrem hcopy
    · refine ⟨st.asked, ?_⟩
      rw [backupLine,
        backup_first_compare_false_mtime hty0 hty1 hmiss hmt,
        backup_second_compare_false_mtime hmt]
      change backupReplace srcTree oracle st b e0 e1 = _
      rw [backupReplace, if_neg hlt]
      exact @backupReplaceGo_replace srcTree st b e0 d2 d3 hmeta hrem
        hcopy

/-- A directory with one file below it; the file differs between source
and backup only in mtime, with the hashes omitted. -/
def cexNestDirElem : FilesystemElement :=
  ⟨FileType.directory, 493, "u", "g", 100, 0, "", ["d"], ""⟩

def cexNestSElem : FilesystemElement :=
  ⟨FileType.regular, 420, "u", "g", 9, 1, "", ["d", "f"], ""⟩

def cexNestBElem : FilesystemElement :=
  ⟨FileType.regular, 420, "u", "g", 5, 1, "", ["d", "f"], ""⟩

def cexNestS : List DirectoryNode :=
  [DirectoryNode.mk cexNestDirElem [DirectoryNode.mk cexNestSElem []]]

def cexNestB : List DirectoryNode :=
  [DirectoryNode.mk cexNestDirElem [DirectoryNode.mk cexNestBElem []]]

/-- A source file differing from the backup copy only in mtime, with the
hashes omitted. -/
def cexMtSElem : FilesystemElement :=
  ⟨FileType.regular, 420, "u", "g", 9, 1, "", ["f"], ""⟩

def cexMtBElem : FilesystemElement :=
  ⟨FileType.regular, 420, "u", "g", 5, 1, "", ["f"], ""⟩

def cexMtS : List DirectoryNode := [DirectoryNode.mk cexMtSElem []]

def cexMtB : List DirectoryNode := [DirectoryNode.mk cexMtBElem []]

/-- Witness for C6 at concrete inputs: the guard agrees with the spec
rule on the concrete pair, the metadata-only update of an identical pair
appends no content effect, and an mtime-only difference without hashes
gets the backup entry deleted and replaced. -/
theorem C6_backup_content_equal_rule_witness :
    compare cexRotSElem cexRotBElem (backupOpt cexRotSElem cexRotBElem) =
      specContentEqualB cexRotSElem cexRotBElem ∧
    (∃ effs, (BakSt.mk cexRotB none [] 0).fsLog =
      (BakSt.mk cexRotB none [] 0).fsLog ++ effs ∧
      ∀ f ∈ effs, effIsMetaOnly f = true) ∧
    ∃ asked2,
      backupLine cexNestS (fun _ => true)
        (BakSt.mk cexNestB none [] 0, false)
        (some cexNestSElem, some cexNestBElem) =
      some (BakSt.mk
        [DirectoryNode.mk cexNestDirElem
          [DirectoryNode.mk cexNestSElem []]] none
        ([] ++ [FsEff.removeAll ["d", "f"]] ++
          [FsEff.copy ["d", "f"] ["d"]])
        asked2, false) :=
  ⟨C6_backup_content_equal_rule.1 cexRotSElem cexRotBElem (by decide)
      (by decide) (by decide) (by decide),
   C6_backup_content_equal_rule.2.1 (BakSt.mk cexRotB none [] 0)
      cexRotSElem cexRotSElem (BakSt.mk cexRotB none [] 0) (by decide),
   C6_backup_content_equal_rule.2.2 cexNestS (fun _ => true)
      (BakSt.mk cexNestB none [] 0) false cexNestSElem cexNestBElem
      [DirectoryNode.mk cexNestDirElem []]
      [DirectoryNode.mk cexNestDirElem
        [DirectoryNode.mk cexNestSElem []]]
      (by decide) (by decide) (by decide) (Or.inl (by decide))
      (by decide) (by decide) (by decide) (by decide) (by decide)⟩

/-! ### Claims C9 and C10: the scrub loop -/

/-- An empty initial diff returns immediately with exit code 0 and no
calls on the tree manager. -/
theorem scrubImpl_empty (fuel : Nat) (oracle : Nat → Bool)
    (st0 : ScrubSt) (fixup : Bool)
    (h : diff3 st0.dst st0.meta1 st0.meta2 {} = []) :
    scrubImpl fuel oracle st0 fixup =
      some (ScrubOut.mk 0 st0 false false false) := by
  rw [scrubImpl, h]
  rfl

/-- **C9.** A scrub exits 0 exactly when the initial three-way diff of
(backup tree, metadata tree 1, metadata tree 2) under default compare
options is empty; in that case the whole state — every tree, the
filesystem effect log and the prompt count — is untouched,
`saveMetadataOnExit` is not set, and the tree manager destructor
rewrites neither manifest file. -/
theorem C9_scrub_clean_exit_zero (fuel : Nat) (oracle : Nat → Bool)
    (st0 : ScrubSt) (fixup : Bool) (out : ScrubOut)
    (hrun : scrubImpl fuel oracle st0 fixup = some out) :
    (out.code = 0 ↔
      (diff3 st0.dst st0.meta1 st0.meta2 {}).isEmpty = true) ∧
    (out.code = 0 → out.st = st0 ∧ out.save = false ∧
      treeManagerDtorWrites out.save true out.st.meta1 out.st.meta2 =
        []) := by
  rw [scrubImpl] at hrun
  split at hrun
  · rename_i hemp
    injection hrun with hrun
    subst hrun
    exact ⟨⟨fun _ => hemp, fun _ => rfl⟩, fun _ => ⟨rfl, rfl, rfl⟩⟩
  · rename_i hemp
    split at hrun
    · cases hrun
    · rename_i st fl hloop
      split at hrun
      · injection hrun with hrun
        subst hrun
        exact ⟨⟨fun hz => absurd hz (Nat.succ_ne_zero 0),
          fun he => absurd he hemp⟩,
          fun hz => absurd hz (Nat.succ_ne_zero 0)⟩
      · injection hrun with hrun
        subst hrun
        exact ⟨⟨fun hz => absurd hz (Nat.succ_ne_zero 1),
          fun he => absurd he hemp⟩,
          fun hz => absurd hz (Nat.succ_ne_zero 1)⟩

/-- A dirty scrub state: backup and first metadata tree agree, the
second metadata copy has a stale mtime on the file. -/
def scrubDirtySt : ScrubSt :=
  ScrubSt.mk none cexMtS cexMtS cexMtB [] 0

theorem diff3_scrubDirtySt :
    diff3 scrubDirtySt.dst scrubDirtySt.meta1 scrubDirtySt.meta2 {} =
      [(some cexMtSElem, some cexMtSElem, some cexMtBElem)] := by
  rw [diff3, diff3Rec]
  decide

/-- The state after the dirty scrub repaired metadata tree 2. -/
def scrubDirtySt2 : ScrubSt :=
  ScrubSt.mk none cexMtS cexMtS [DirectoryNode.mk cexMtSElem []] [] 0

/-- The dirty run completes: the metadata-2 inconsistency is repaired in
memory, the run exits 1 and schedules the metadata save. -/
theorem scrubImpl_scrubDirtySt :
    scrubImpl 1 (fun _ => true) scrubDirtySt false =
      some (ScrubOut.mk 1 scrubDirtySt2 true false true) := by
  rw [scrubImpl, diff3_scrubDirtySt]
  decide

/-- Witness for C9: a concrete dirty scrub run that completes with exit
code 1. -/
theorem C9_scrub_clean_exit_zero_witness :
    ((ScrubOut.mk 1 scrubDirtySt2 true false true).code = 0 ↔
      (diff3 scrubDirtySt.dst scrubDirtySt.meta1 scrubDirtySt.meta2
        {}).isEmpty = true) ∧
    ((ScrubOut.mk 1 scrubDirtySt2 true false true).code = 0 →
      (ScrubOut.mk 1 scrubDirtySt2 true false true).st = scrubDirtySt ∧
      (ScrubOut.mk 1 scrubDirtySt2 true false true).save = false ∧
      treeManagerDtorWrites
        (ScrubOut.mk 1 scrubDirtySt2 true false true).save true
        (ScrubOut.mk 1 scrubDirtySt2 true false true).st.meta1
        (ScrubOut.mk 1 scrubDirtySt2 true false true).st.meta2 =
        []) :=
  C9_scrub_clean_exit_zero 1 (fun _ => true) scrubDirtySt false
    (ScrubOut.mk 1 scrubDirtySt2 true false true) scrubImpl_scrubDirtySt

/-- Without `--fixup` one pass of the diff loop leaves the source tree,
the backup tree, the filesystem and the prompt count unchanged. -/
theorem scrubFor_frame (oracle : Nat → Bool) :
    ∀ (ds : List Diff3Line) (st : ScrubSt) (fl : ScrubFlags)
      (out : ScrubSt × ScrubFlags × Bool),
      scrubFor false oracle ds st fl = some out →
      out.1.src = st.src ∧ out.1.dst = st.dst ∧
        out.1.fsLog = st.fsLog ∧ out.1.asked = st.asked := by
  intro ds
  induction ds with
  | nil =>
    intro st fl out h
    rw [scrubFor] at h
    injection h with h
    subst h
    exact ⟨rfl, rfl, rfl, rfl⟩
  | cons d ds ih =>
    intro st fl out h
    obtain ⟨d0, d1, d2⟩ := d
    rw [scrubFor] at h
    split at h
    · split at h
      · cases h
      · rename_i m2 r hfix
        split at h
        · injection h with h
          subst h
          exact ⟨rfl, rfl, rfl, rfl⟩
        · dsimp only at h
          have hh := ih _ _ _ h
          exact hh
    · split at h
      · split at h
        · cases h
        · rename_i m1 r hfix
          split at h
          · injection h with h
            subst h
            exact ⟨rfl, rfl, rfl, rfl⟩
          · dsimp only at h
            have hh := ih _ _ _ h
            exact hh
      · split at h
        · split at h
          · rename_i hfx
            exact absurd hfx (by decide)
          · exact ih _ _ _ h
        · split at h
          · exact ih _ _ _ h
          · exact ih _ _ _ h

/-- Without `--fixup` the whole redo loop leaves the source tree, the
backup tree, the filesystem and the prompt count unchanged. -/
theorem scrubLoop_frame (oracle : Nat → Bool) :
    ∀ (fuel : Nat) (diff : List Diff3Line) (st : ScrubSt)
      (fl : ScrubFlags) (out : ScrubSt × ScrubFlags),
      scrubLoop false oracle fuel diff st fl = some out →
      out.1.src = st.src ∧ out.1.dst = st.dst ∧
        out.1.fsLog = st.fsLog ∧ out.1.asked = st.asked := by
  intro fuel
  induction fuel with
  | zero =>
    intro diff st fl out h
    rw [scrubLoop] at h
    cases h
  | succ n ih =>
    intro diff st fl out h
    rw [scrubLoop] at h
    split at h
    · cases h
    · rename_i st2 fl2 redo hfor
      obtain ⟨h1, h2, h3, h4⟩ := scrubFor_frame oracle diff st fl _ hfor
      split at h
      · obtain ⟨g1, g2, g3, g4⟩ := ih _ _ _ _ h
        exact ⟨g1.trans h1, g2.trans h2, g3.trans h3, g4.trans h4⟩
      · injection h with h
        subst h
        exact ⟨h1, h2, h3, h4⟩

/-- **C10.** With `fixup = false` a scrub never modifies the backup
directory: the backup tree in memory, the filesystem effect log under it
and the prompt count are unchanged by the whole run (and the source tree
too); any repairs are confined to the two in-memory metadata trees by
tree-only operations. -/
theorem C10_scrub_nofixup_frame (fuel : Nat) (oracle : Nat → Bool)
    (st0 : ScrubSt) (out : ScrubOut)
    (hrun : scrubImpl fuel oracle st0 false = some out) :
    out.st.src = st0.src ∧ out.st.dst = st0.dst ∧
      out.st.fsLog = st0.fsLog ∧ out.st.asked = st0.asked := by
  rw [scrubImpl] at hrun
  split at hrun
  · injection hrun with hrun
    subst hrun
    exact ⟨rfl, rfl, rfl, rfl⟩
  · split at hrun
    · cases hrun
    · rename_i st fl hloop
      have hfr := scrubLoop_frame oracle fuel _ st0 _ _ hloop
      split at hrun
      · injection hrun with hrun
        subst hrun
        exact hfr
      · injection hrun with hrun
        subst hrun
        exact hfr

/-- Witness for C10: the concrete dirty `fixup = false` run repairs
metadata tree 2 while the backup tree, the filesystem log, the source
tree and the prompt count stay untouched. -/
theorem C10_scrub_nofixup_frame_witness :
    (ScrubOut.mk 1 scrubDirtySt2 true false true).st.src =
      scrubDirtySt.src ∧
    (ScrubOut.mk 1 scrubDirtySt2 true false true).st.dst =
      scrubDirtySt.dst ∧
    (ScrubOut.mk 1 scrubDirtySt2 true false true).st.fsLog =
      scrubDirtySt.fsLog ∧
    (ScrubOut.mk 1 scrubDirtySt2 true false true).st.asked =
      scrubDirtySt.asked :=
  C10_scrub_nofixup_frame 1 (fun _ => true) scrubDirtySt
    (ScrubOut.mk 1 scrubDirtySt2 true false true) scrubImpl_scrubDirtySt

end Ddm
